import Mathlib

/-!
# Item sheet form submission (`src/module/item/sheets/base.js`)

A shallow embedding of `ItemSheetPF._updateObject`: the fold that turns the flat
`data.conditionals.*` form entries into a nested list of conditionals, the pass that
writes the `data.links.*` entries into the link lists, and the pass that resolves
relative inputs (`+5`, `-3`, `--2`) on the currency fields; and of the link checks
`canCreateLink` and `generateInitialLinkData`.

Conventions of the embedding

* A JavaScript number is a double. The numbers handled here are item counts and decimal
  literals typed into a form. A number that a form entry or a record carries is given by
  its integer value (`JSVal.num`); the numbers that the relative-value pass computes are
  integer-valued doubles, `NaN` or an infinity (`JSNumber`), and every parsed literal and
  every sum is rounded to the nearest double (`toNumber`). The embedding does not tell
  `-0` from `0`.
* A form key is kept as the list of its dot-separated segments, that is, as the
  value of `key.split(".")`; `"data.conditionals.0.1.target"` is
  `["data", "conditionals", "0", "1", "target"]`.
* A form batch is the list `Object.entries(formData)`, in enumeration order.
* A result of `none` stands for a thrown error, or for a property name that
  leaves the array-index domain the embedding covers (see `arrayIndex`); in the links
  pass also for the other inputs that `linksStep` lists as outside the embedding.
* The arrays of link records that the links pass reads and writes live in a heap, by
  address (`Heap`): the pass assigns to properties of objects that the form data and the
  item hold by reference.
-/

namespace ItemSheetPF

/-- Primitive JavaScript values: what a form entry carries and what a record field holds. -/
inductive JSVal
  | undefined
  | null
  | bool (b : Bool)
  | num (n : Int)
  | str (s : String)
  deriving DecidableEq, Repr

/-! ## Relative values (`// Change relative values`) -/

/-- The character class `[0-9]`. -/
def isDigit (c : Char) : Bool := decide (48 ≤ c.toNat) && decide (c.toNat ≤ 57)

/-- The integer that a string of decimal digits denotes. -/
def digitsValue (ds : List Char) : Nat :=
  ds.foldl (fun acc c => 10 * acc + (c.toNat - 48)) 0

/-- The number of low bits of `n` that do not fit the 53-bit significand of a double: how
often `n` is halved until it is below `2^53`. The count stops at `fuel`, which
`roundNat` sets above every exponent of a finite double. -/
def excessBits : Nat → Nat → Nat
  | 0, _ => 0
  | fuel + 1, n => if n < 9007199254740992 then 0 else excessBits fuel (n / 2) + 1

/-- The double nearest to the natural number `n`, ties going to the even significand;
`none` is `Infinity`. The largest finite double is `(2^53 - 1) * 2^971`. -/
def roundNat (n : Nat) : Option Nat :=
  let shift := excessBits 1100 n
  let q := n / 2 ^ shift
  let r := n % 2 ^ shift
  let q' := if 2 ^ shift < 2 * r ∨ (2 * r = 2 ^ shift ∧ q % 2 = 1) then q + 1 else q
  if shift < 971 ∨ (shift = 971 ∧ q' < 9007199254740992) then some (q' * 2 ^ shift) else none

/-- A number as the relative-value pass computes it: an integer-valued double, `NaN`, or
`Infinity` with its sign. -/
inductive JSNumber
  | finite (n : Int)
  | nan
  | inf (negative : Bool)
  deriving DecidableEq, Repr

/-- The number value of the integer `z`: the nearest double, or an infinity. -/
def toNumber (z : Int) : JSNumber :=
  match roundNat z.natAbs with
  | some n => .finite (if z < 0 then -(n : Int) else n)
  | none => .inf (decide (z < 0))

/-- Value of `parseInt` on a string of decimal digits: the double nearest to the integer
the digits denote. (Past the 20th significant digit the language lets an implementation
read the digits as `0`; the embedding keeps them.) -/
def parseInt (ds : List Char) : JSNumber := toNumber (digitsValue ds)

/-- Unary minus on a number. -/
def negate : JSNumber → JSNumber
  | .finite n => .finite (-n)
  | .nan => .nan
  | .inf negative => .inf (!negative)

/-- The sum `originalValue + value` of a stored value and a number. The stored value is
`undefined` (`none`), which makes the sum `NaN`, or the number the item holds, given by
an integer `c` and read as the double nearest to `c`. The sum of two finite numbers is
rounded. -/
def addNumber (originalValue : Option Int) (value : JSNumber) : JSNumber :=
  match originalValue with
  | none => .nan
  | some c =>
    match toNumber c, value with
    | .finite a, .finite b => toNumber (a + b)
    | .finite _, .inf negative => .inf negative
    | .inf negative, .finite _ => .inf negative
    | .inf negative, .inf negative' => if negative = negative' then .inf negative else .nan
    | _, _ => .nan

/-- The call `Math.min(x, m)` for a number `x` and a finite `m`. -/
def mathMin (x : JSNumber) (m : Int) : JSNumber :=
  match x with
  | .finite n => .finite (min n m)
  | .nan => .nan
  | .inf false => .finite m
  | .inf true => .inf true

/-- The group `([0-9]+)` tried at the head of `cs`: the longest non-empty run of digits. -/
def digitsAt (cs : List Char) : Option (List Char) :=
  if (cs.takeWhile isDigit).isEmpty then none else some (cs.takeWhile isDigit)

/-- The pattern `(\+|--?)([0-9]+)` tried at the head of `cs`; the result is
`(RegExp.$1, RegExp.$2)`. After `--` fails to be followed by a digit, backtracking to `-`
fails too, since the next character is `-`. -/
def matchOperatorAt (cs : List Char) : Option (String × List Char) :=
  match cs with
  | [] => none
  | c :: rest =>
    if c = '+' then (digitsAt rest).map (fun ds => ("+", ds))
    else if c = '-' then
      match rest with
      | [] => none
      | c2 :: rest2 =>
        if c2 = '-' then (digitsAt rest2).map (fun ds => ("--", ds))
        else (digitsAt rest).map (fun ds => ("-", ds))
    else none

/-- The search `v.match(/(\+|--?)([0-9]+)/)`: the pattern carries no anchor, so the
leftmost position at which it matches is taken. -/
def searchOperator : List Char → Option (String × List Char)
  | [] => none
  | c :: cs =>
    match matchOperatorAt (c :: cs) with
    | some r => some r
    | none => searchOperator cs

/-- The test `v.match(/^[0-9]+$/)`. -/
def matchBareInteger (cs : List Char) : Bool := !cs.isEmpty && cs.all isDigit

/-- The statement `if (max) formData[k] = Math.min(formData[k], max)`; `none` is `null`.
A `max` of `0` is falsy and so leaves the value alone. -/
def clampMax (x : JSNumber) (max : Option Int) : JSNumber :=
  match max with
  | some m => if m ≠ 0 then mathMin x m else x
  | none => x

/-- The body of the relative-value loop for one entry: the value stored under the key
for raw input `v`, stored value `originalValue` (`none` when the item holds nothing
there) and ceiling `max`. -/
def resolveRelative (v : String) (originalValue : Option Int) (max : Option Int) : JSNumber :=
  match searchOperator v.toList with
  | some (operator, digits) =>
    let value := parseInt digits
    if operator = "--" then negate value
    else
      let value := if operator = "-" then negate value else value
      clampMax (addNumber originalValue value) max
  | none =>
    if matchBareInteger v.toList then clampMax (parseInt v.toList) max
    else if v = "" then .finite 0
    else .finite 0

/-- A form key, as the list of its dot-separated segments. -/
abbrev Key := List String

/-- The constant `relativeKeys`. -/
def relativeKeys : List Key :=
  [["data", "currency", "pp"], ["data", "currency", "gp"],
   ["data", "currency", "sp"], ["data", "currency", "cp"]]

/-- The expression `k.replace(/\.value$/, ".max")` on a segmented key: a last segment
`value` that follows another segment becomes `max`. -/
def maxKey (k : Key) : Key :=
  match k.reverse with
  | last :: prev :: front =>
    if last = "value" then ("max" :: prev :: front).reverse else k
  | _ => k

/-- What the relative-value loop leaves under a key: the value the entry had, when the
loop passes over it, or the number assigned to `formData[k]`. -/
inductive Resolved
  | unchanged (v : JSVal)
  | number (x : JSNumber)
  deriving DecidableEq, Repr

/-- One iteration of the relative-value loop: the value left under key `k`, where `item`
is `getProperty(this.item.data, ·)` for the numbers the item stores (`none` is
`undefined`). -/
def relativeEntry (item : Key → Option Int) (k : Key) (v : JSVal) : Resolved :=
  match v with
  | .str s =>
    if k ∈ relativeKeys then
      let originalValue := item k
      let max := if maxKey k ≠ k then item (maxKey k) else none
      .number (resolveRelative s originalValue max)
    else .unchanged v
  | _ => .unchanged v

/-- The loop `for (const [k, v] of Object.entries(formData))`: every entry keeps its key
and position, and its value is rewritten from the entry itself and the stored item. The
arrays that the earlier passes store under `data.conditionals` and `data.links.*` are not
strings, so the loop passes over them; the batch here lists the primitive-valued entries. -/
def relativePass (item : Key → Option Int) (formData : List (Key × JSVal)) :
    List (Key × Resolved) :=
  formData.map (fun e => (e.1, relativeEntry item e.1 e.2))

/-! ## Conditionals (`// Handle conditionals array`) -/

/-- An object, as the list of its own properties in insertion order. -/
abbrev Obj (α : Type) := List (String × α)

/-- Property read `o[k]`; `none` is `undefined`. -/
def getProp {α : Type} : Obj α → String → Option α
  | [], _ => none
  | (k', v) :: rest, k => if k' = k then some v else getProp rest k

/-- Property write `o[k] = v`: an existing property keeps its place, a new one is appended. -/
def setProp {α : Type} : Obj α → String → α → Obj α
  | [], k, v => [(k, v)]
  | (k', v') :: rest, k, v => if k' = k then (k, v) :: rest else (k', v') :: setProp rest k v

/-- The assignment `o[k] = v` of a primitive value to a property of a plain object. The
name `__proto__` reaches the accessor of `Object.prototype`, which ignores a value that is
not an object (and for `null` changes the prototype only): no own property is written. -/
def assignProp {α : Type} (o : Obj α) (k : String) (v : α) : Obj α :=
  if k = "__proto__" then o else setProp o k v

/-- A JavaScript array with holes: position `n` holds `none` where the array has no element. -/
abbrev JSArray (α : Type) := List (Option α)

/-- Element read `a[n]`; `none` is `undefined` (a hole or past the end). -/
def getIdx {α : Type} : JSArray α → Nat → Option α
  | [], _ => none
  | a :: _, 0 => a
  | _ :: as, n + 1 => getIdx as n

/-- Element write `a[n] = x`; writing past the end leaves holes in between. -/
def setIdx {α : Type} : JSArray α → Nat → α → JSArray α
  | [], 0, x => [some x]
  | [], n + 1, x => none :: setIdx [] n x
  | _ :: as, 0, x => some x :: as
  | a :: as, n + 1, x => a :: setIdx as n x

/-- A property name that is an array index: a decimal numeral without a leading zero
(other than `"0"` itself) whose value is below `2^32 - 1`. Other names used on an array
would reach `length` or members of `Array.prototype`; the embedding does not cover them. -/
def arrayIndex (s : String) : Option Nat :=
  if matchBareInteger s.toList
      && (s.toList.length == 1 || s.toList.head? != some '0')
      && decide (digitsValue s.toList < 4294967295)
  then some (digitsValue s.toList) else none

/-- A modifier record: an object with primitive fields. -/
abbrev Modifier := Obj JSVal

/-- A field of a conditional record: a primitive, or the `modifiers` array. -/
inductive CondVal
  | prim (v : JSVal)
  | mods (ms : JSArray Modifier)
  deriving DecidableEq, Repr

/-- A conditional record. -/
abbrev Conditional := Obj CondVal

/-- Modelled from the spec: `ItemPF.defaultConditional` (defined in `module/item/entity.js`),
a fresh record with an empty name, `default: false` and no modifiers. -/
def defaultConditional : Conditional :=
  [("default", .prim (.bool false)), ("name", .prim (.str "")), ("modifiers", .mods [])]

/-- Modelled from the spec: `ItemPF.defaultConditionalModifier` (defined in
`module/item/entity.js`), a fresh modifier whose fields are all empty strings. -/
def defaultConditionalModifier : Modifier :=
  [("formula", .str ""), ("target", .str ""), ("subTarget", .str ""),
   ("type", .str ""), ("critical", .str "")]

/-- The catalog of the item: for a target, `Object.keys` of what
`getConditionalSubTargets`, `getConditionalModifierTypes` and `getConditionalCritical`
return (these three live in `module/item/entity.js`). -/
structure Catalog where
  subTargets : String → List String
  modifierTypes : String → List String
  critical : String → List String

/-- The `switch (k)` that picks the legal keys of a target-dependent field. -/
def dependentKeys (cat : Catalog) (k target : String) : List String :=
  if k = "subTarget" then cat.subTargets target
  else if k = "type" then cat.modifierTypes target
  else if k = "critical" then cat.critical target
  else []

/-- The test `keys.includes(val)`: only a string can equal a key. -/
def includes (keys : List String) (val : JSVal) : Bool :=
  match val with
  | .str s => decide (s ∈ keys)
  | _ => false

/-- The expression `keys[0]`, which is `undefined` on an empty list. -/
def firstKey (keys : List String) : JSVal :=
  match keys with
  | [] => .undefined
  | x :: _ => .str x

/-- The filter `e[0].startsWith("data.conditionals")` on a segmented key: the first
segment is `data` and the second begins with `conditionals`. -/
def isConditionalKey (key : Key) : Bool :=
  match key with
  | s0 :: s1 :: _ => decide (s0 = "data") && "conditionals".toList.isPrefixOf s1.toList
  | _ => false

/-- The key named by the template literal for the target of modifier `(i, j)`. -/
def targetKey (i j : String) : Key := ["data", "conditionals", i, j, "target"]

/-- The lookup `(conditionals.find((o) => o[0] === targetKey) || [])[1]`. -/
def findTarget (conditionals : List (Key × JSVal)) (i j : String) : JSVal :=
  match conditionals.find? (fun o => decide (o.1 = targetKey i j)) with
  | some o => o.2
  | none => .undefined

/-- The writes to `arr[i].modifiers[j]` for one entry: the leaf assignment, then the
target-dependent reset. -/
def updateModifier (cat : Catalog) (conditionals : List (Key × JSVal))
    (i j k : String) (val : JSVal) (md : Modifier) : Modifier :=
  let md1 := assignProp md k val
  if k ∈ ["subTarget", "critical", "type"] then
    match findTarget conditionals i j with
    | .str target =>
      let keys := dependentKeys cat k target
      if !includes keys val && decide (target ≠ "damage") && decide (k ≠ "type")
      then setProp md1 k (firstKey keys) else md1
    | _ => md1
  else md1

/-- The reducer of `conditionals.reduce(..., [])` for one entry. The three names are
`[i, j, k] = entry[0].split(".").slice(2)`. A missing `arr[i]` or `modifiers[j]` is first
filled with a fresh default record. The result is `none` when `i` (or `j`, for a modifier)
is not an array index, and when `modifiers` is no longer an array (a `TypeError` in a
module, which is strict code). -/
def conditionalStep (cat : Catalog) (conditionals : List (Key × JSVal))
    (arr : JSArray Conditional) (entry : Key × JSVal) : Option (JSArray Conditional) :=
  let i := (entry.1.get? 2).getD "undefined"
  let j := (entry.1.get? 3).getD "undefined"
  match arrayIndex i with
  | none => none
  | some n =>
    let record := (getIdx arr n).getD defaultConditional
    match (entry.1.get? 4).filter (fun k => decide (k ≠ "")) with
    | some k =>
      match getProp record "modifiers", arrayIndex j with
      | some (.mods ms), some m =>
        let md := (getIdx ms m).getD defaultConditionalModifier
        let md1 := updateModifier cat conditionals i j k entry.2 md
        some (setIdx arr n (setProp record "modifiers" (.mods (setIdx ms m md1))))
      | _, _ => none
    | none => some (setIdx arr n (assignProp record j (.prim entry.2)))

/-- The value assigned to `formData["data.conditionals"]`. -/
def conditionalsPass (cat : Catalog) (formData : List (Key × JSVal)) :
    Option (JSArray Conditional) :=
  let conditionals := formData.filter (fun e => isConditionalKey e.1)
  conditionals.foldlM (conditionalStep cat conditionals) []

/-- Field `k` of modifier `m` of conditional `n` in a conditionals array. -/
def modifierField (arr : JSArray Conditional) (n m : Nat) (k : String) : Option JSVal :=
  match getIdx arr n with
  | some record =>
    match getProp record "modifiers" with
    | some (.mods ms) => (getIdx ms m).bind (fun md => getProp md k)
    | _ => none
  | none => none

/-- The key `data.conditionals.<i>.<j>.<k>` of field `k` of modifier `(i, j)`. -/
def modifierKey (i j k : String) : Key := ["data", "conditionals", i, j, k]

/-- The keys the conditional inputs of the sheet carry: `data.conditionals.<i>.<field>`
for a field of a conditional and `data.conditionals.<i>.<j>.<field>` for a field of a
modifier, with `<i>` and `<j>` array indices and a non-empty `<field>`. The field of a
conditional is not `modifiers` (that name holds the list itself). -/
def canonicalKey (key : Key) : Bool :=
  match key with
  | [s0, s1, i, j] =>
    decide (s0 = "data") && decide (s1 = "conditionals") && (arrayIndex i).isSome
      && decide (j ≠ "modifiers")
  | [s0, s1, i, j, k] =>
    decide (s0 = "data") && decide (s1 = "conditionals") && (arrayIndex i).isSome
      && (arrayIndex j).isSome && decide (k ≠ "")
  | _ => false

/-- A form batch as the sheet submits it: the keys are pairwise distinct (they are the
keys of one object) and every key that passes the `data.conditionals` filter is one of
the sheet's conditional keys. -/
def WellFormed (formData : List (Key × JSVal)) : Prop :=
  (formData.map Prod.fst).Nodup ∧
    ∀ e ∈ formData, isConditionalKey e.1 = true → canonicalKey e.1 = true

instance (formData : List (Key × JSVal)) : Decidable (WellFormed formData) := by
  unfold WellFormed; infer_instance

/-- Every record of the array still has an array under `modifiers`. -/
def Shaped (arr : JSArray Conditional) : Prop :=
  ∀ n record, getIdx arr n = some record →
    ∃ ms, getProp record "modifiers" = some (CondVal.mods ms)

/-- A sample catalog. Target `attack` has sub-targets `atk1`, `atk2`, types `untyped`,
`luck` and critical keys `normal`, `crit`; target `damage` has sub-target `allDamage`,
type `untyped` and critical keys `normal`, `crit`, `nonCrit`; any other target has no keys. -/
def sampleCatalog : Catalog where
  subTargets := fun t =>
    if t = "attack" then ["atk1", "atk2"] else if t = "damage" then ["allDamage"] else []
  modifierTypes := fun t =>
    if t = "attack" then ["untyped", "luck"] else if t = "damage" then ["untyped"] else []
  critical := fun t =>
    if t = "attack" then ["normal", "crit"]
    else if t = "damage" then ["normal", "crit", "nonCrit"] else []

/-! ## Links (`canCreateLink`, `generateInitialLinkData`) -/

/-- A value in a link record: a primitive, or a nested object such as `hiddenLinks`. -/
inductive LinkVal
  | prim (v : JSVal)
  | obj (o : List (String × LinkVal))

mutual
/-- Equality of values of link records is decidable. -/
def LinkVal.decEq : (a b : LinkVal) → Decidable (a = b)
  | .prim v, .prim w =>
    if h : v = w then isTrue (by rw [h]) else isFalse (by intro e; cases e; exact h rfl)
  | .obj o, .obj o' =>
    match LinkVal.decEqProps o o' with
    | isTrue h => isTrue (by rw [h])
    | isFalse h => isFalse (by intro e; cases e; exact h rfl)
  | .prim _, .obj _ => isFalse (by intro e; cases e)
  | .obj _, .prim _ => isFalse (by intro e; cases e)
/-- Equality of property lists of link records is decidable. -/
def LinkVal.decEqProps : (a b : List (String × LinkVal)) → Decidable (a = b)
  | [], [] => isTrue rfl
  | [], _ :: _ => isFalse (by intro e; cases e)
  | _ :: _, [] => isFalse (by intro e; cases e)
  | (k, x) :: rest, (k', x') :: rest' =>
    if hk : k = k' then
      match LinkVal.decEq x x' with
      | isTrue hx =>
        match LinkVal.decEqProps rest rest' with
        | isTrue hr => isTrue (by rw [hk, hx, hr])
        | isFalse hr => isFalse (by intro e; cases e; exact hr rfl)
      | isFalse hx => isFalse (by intro e; cases e; exact hx rfl)
    else isFalse (by intro e; cases e; exact hk rfl)
end

instance : DecidableEq LinkVal := LinkVal.decEq

/-- A link record. -/
abbrev LinkRecord := Obj LinkVal

/-- What `canCreateLink` reads of the item the sheet shows: `this.item._id`, the `_id` of
`this.item.actor` (`none` when the item has no actor), and for each link type the list
`getProperty(this.item.data, "data.links.<linkType>") || []`. -/
structure LinkItem where
  _id : String
  actor : Option JSVal
  links : String → List LinkRecord

/-- The expression `itemLink.split(".").slice(-1)[0]`: what follows the last dot. -/
def lastSegment (itemLink : String) : String :=
  String.mk (itemLink.toList.reverse.takeWhile (fun c => decide (c ≠ '.'))).reverse

/-- The constant `sameActor`: the item has an actor, drop data is given, and
`data.actorId === actor._id`. -/
def sameActor (item : LinkItem) (data : Option (Obj JSVal)) : Bool :=
  match item.actor, data with
  | some actorId, some d => decide ((getProp d "actorId").getD JSVal.undefined = actorId)
  | _, _ => false

/-- The method `canCreateLink(linkType, dataType, itemData, itemLink, data = null)`. -/
def canCreateLink (item : LinkItem) (linkType dataType : String) (itemData : Obj JSVal)
    (itemLink : String) (data : Option (Obj JSVal)) : Bool :=
  let itemId := lastSegment itemLink
  if itemId = item._id then false
  else
    let links := item.links linkType
    if (links.filter
        (fun o => decide (getProp o "id" = some (LinkVal.prim (JSVal.str itemLink))))).length ≠ 0
    then false
    else if linkType ∈ ["children", "charges", "ammunition"] ∧ sameActor item data = true
    then true
    else if linkType = "classAssociations" ∧ dataType = "compendium" then true
    else false

/-- The method `generateInitialLinkData(linkType, dataType, itemData, itemLink)`; a
property that `itemData` lacks reads as `undefined`. -/
def generateInitialLinkData (linkType dataType : String) (itemData : Obj JSVal)
    (itemLink : String) : LinkRecord :=
  let result : LinkRecord :=
    [("id", LinkVal.prim (JSVal.str itemLink)),
     ("dataType", LinkVal.prim (JSVal.str dataType)),
     ("name", LinkVal.prim ((getProp itemData "name").getD JSVal.undefined)),
     ("img", LinkVal.prim ((getProp itemData "img").getD JSVal.undefined)),
     ("hiddenLinks", LinkVal.obj [])]
  let result :=
    if linkType = "classAssociations" then setProp result "level" (LinkVal.prim (JSVal.num 1))
    else result
  let result :=
    if linkType = "ammunition" then
      setProp result "recoverChance" (LinkVal.prim (JSVal.num 50))
    else result
  result

/-- A link record is a link of the item to itself when its `id` is a string whose last
segment is the item's `_id` (the test `canCreateLink` applies to a candidate). -/
def isSelfLink (item : LinkItem) (o : LinkRecord) : Bool :=
  match getProp o "id" with
  | some (LinkVal.prim (JSVal.str s)) => decide (lastSegment s = item._id)
  | _ => false

/-- A sample item `item1`, owned by actor `actor1`, with one child link `item2`. -/
def sampleLinkItem : LinkItem where
  _id := "item1"
  actor := some (JSVal.str "actor1")
  links := fun linkType =>
    if linkType = "children" then
      [[("id", LinkVal.prim (JSVal.str "item2")), ("dataType", LinkVal.prim (JSVal.str "data"))]]
    else []

/-! ## The content of a conditionals tree

Two trees that the fold builds from the same edits in different orders can differ in the
order in which properties were added to a record. The views below keep what a tree holds
(its length, its holes, and for every record and modifier the value of every property)
and forget that order. -/

/-- What a modifier holds: the value of each property. -/
abbrev ModifierView := String → Option JSVal

/-- What a field of a conditional holds. -/
inductive CondValView
  | prim (v : JSVal)
  | mods (ms : JSArray ModifierView)

/-- What a conditional record holds: the value of each property. -/
abbrev ConditionalView := String → Option CondValView

/-- What a conditionals array holds. -/
abbrev TreeView := JSArray ConditionalView

/-- The content of a field of a conditional. -/
def viewCondVal : CondVal → CondValView
  | .prim v => .prim v
  | .mods ms => .mods (ms.map (Option.map getProp))

/-- The content of a conditional record. -/
def viewConditional (record : Conditional) : ConditionalView :=
  fun name => (getProp record name).map viewCondVal

/-- The content of a conditionals array. -/
def viewTree (arr : JSArray Conditional) : TreeView :=
  arr.map (Option.map viewConditional)

/-- The effect of one entry of a batch: a write to field `j` of conditional `n`, or a
write of the value `w` to field `k` of modifier `m` of conditional `n`. -/
inductive Edit
  | field (n : Nat) (j : String) (v : JSVal)
  | modifier (n m : Nat) (k : String) (w : JSVal)

/-- The conditional an edit writes to. -/
def Edit.index : Edit → Nat
  | .field n _ _ => n
  | .modifier n _ _ _ => n

/-- The modifiers array in the content of a record. -/
def modifiersOf (rv : ConditionalView) : JSArray ModifierView :=
  match rv "modifiers" with
  | some (.mods ms) => ms
  | _ => []

/-- The content of an object after the assignment `o[k] = x` of `assignProp`. -/
def assignView {β : Type} (f : String → Option β) (k : String) (x : β) : String → Option β :=
  if k = "__proto__" then f else Function.update f k (some x)

/-- An edit applied to the content `rv` of the record it writes to. -/
def editRecord (rv : ConditionalView) : Edit → ConditionalView
  | .field _ j v => assignView rv j (.prim v)
  | .modifier _ m k w =>
    let mv := (getIdx (modifiersOf rv) m).getD (getProp defaultConditionalModifier)
    Function.update rv "modifiers"
      (some (.mods (setIdx (modifiersOf rv) m (assignView mv k w))))

/-- An edit applied to the content of a tree; missing records and modifiers start from
the defaults, as in `conditionalStep`. -/
def applyEdit (tv : TreeView) (ed : Edit) : TreeView :=
  setIdx tv ed.index
    (editRecord ((getIdx tv ed.index).getD (viewConditional defaultConditional)) ed)

/-- Two edits that write to different places: different records, different fields of a
record (the modifiers list being the field `modifiers`), different modifiers, or different
fields of a modifier. -/
def Edit.Independent : Edit → Edit → Prop
  | .field n j _, .field n' j' _ => n ≠ n' ∨ j ≠ j'
  | .field n j _, .modifier n' _ _ _ => n ≠ n' ∨ j ≠ "modifiers"
  | .modifier n _ _ _, .field n' j' _ => n ≠ n' ∨ j' ≠ "modifiers"
  | .modifier n m k _, .modifier n' m' k' _ => n ≠ n' ∨ m ≠ m' ∨ k ≠ k'

/-- The value that `updateModifier` leaves in field `k` for the entry value `val`. -/
def writtenValue (cat : Catalog) (conditionals : List (Key × JSVal))
    (i j k : String) (val : JSVal) : JSVal :=
  (getProp (updateModifier cat conditionals i j k val []) k).getD JSVal.undefined

/-- The edit that an entry with one of the sheet's conditional keys stands for. -/
def editOf (cat : Catalog) (conditionals : List (Key × JSVal)) (entry : Key × JSVal) : Edit :=
  let i := (entry.1.get? 2).getD "undefined"
  let j := (entry.1.get? 3).getD "undefined"
  match entry.1.get? 4 with
  | some k =>
    .modifier ((arrayIndex i).getD 0) ((arrayIndex j).getD 0) k
      (writtenValue cat conditionals i j k entry.2)
  | none => .field ((arrayIndex i).getD 0) j entry.2

/-! ## Buff changes (`_onBuffControl`) and dropped conditionals (`_onDrop`) -/

/-- The helper `duplicate` (a `JSON.parse(JSON.stringify(·))` copy) on an object with
primitive fields: a property whose value is `undefined` is left out. -/
def duplicateObj (o : Obj JSVal) : Obj JSVal :=
  o.filter (fun p => decide (p.2 ≠ JSVal.undefined))

/-- A change record of a buff. -/
abbrev Change := Obj JSVal

/-- The delete-change branch of `_onBuffControl`: the list submitted as `data.changes` for
the stored `changes` and the id `li.dataset.change`. The copy is searched with `find`,
and `indexOf` then gives the position of the record found (the first whose `_id` is the
id), or `-1` when `find` returned `undefined`; `splice(-1, 1)` removes the last entry. -/
def deleteChange (changes : List Change) (id : String) : List Change :=
  let changes := changes.map duplicateObj
  match changes.findIdx? (fun o => decide (getProp o "_id" = some (JSVal.str id))) with
  | some index => changes.eraseIdx index
  | none => changes.dropLast

/-- The variables `keys` and `v` after one pass through the body of the inner loop of
`_onDrop`, for the entry `[k, v]` of the modifier (as `dropModifier` leaves it, so that
its target is a string) and the `keys` left by the previous entry (`none` is `undefined`).
The body assigns to these two variables only. -/
def dropLoopBody (cat : Catalog) (modifier : Modifier) (keys : Option (List String))
    (entry : String × JSVal) : Option (List String) × JSVal :=
  let target : String :=
    match getProp modifier "target" with
    | some (JSVal.str t) => t
    | _ => ""
  let keys :=
    if entry.1 = "subTarget" then some (cat.subTargets target)
    else if entry.1 = "type" then some (cat.modifierTypes target)
    else if entry.1 = "critical" then some (cat.critical target)
    else keys
  match keys with
  | some ks => if includes ks entry.2 then (keys, entry.2)
      else (keys, match ks with
        | [] => JSVal.str ""
        | x :: _ => JSVal.str x)
  | none => (keys, JSVal.str "")

/-- What the outer loop of `_onDrop` does to one modifier: a target that is not among
`targets`, the keys of `getConditionalTargets()`, becomes the empty string. The inner
loop (`dropLoopBody`) writes nothing to the modifier. -/
def dropModifier (targets : List String) (modifier : Modifier) : Modifier :=
  if includes targets ((getProp modifier "target").getD JSVal.undefined) then modifier
  else setProp modifier "target" (JSVal.str "")

/-- The surface check of `_onDrop`:
`data.default != null && typeof data.name === "string" && Array.isArray(data.modifiers)`. -/
def surfaceCheck (data : Conditional) : Bool :=
  (match getProp data "default" with
    | none => false
    | some (CondVal.prim JSVal.undefined) => false
    | some (CondVal.prim JSVal.null) => false
    | some _ => true)
  && (match getProp data "name" with
    | some (CondVal.prim (JSVal.str _)) => true
    | _ => false)
  && (match getProp data "modifiers" with
    | some (CondVal.mods _) => true
    | _ => false)

/-- The method `_onDrop` for the parsed payload `data`: the list passed to `update` as
`data.conditionals`, where `conditionals` is `item.data.data.conditionals || []`. The
result is `none` when the method returns before the update, and when a modifier is
`null` (a `TypeError`). -/
def onDrop (targets : List String) (conditionals : List Conditional)
    (data : Conditional) : Option (List Conditional) :=
  if surfaceCheck data then
    match getProp data "modifiers" with
    | some (CondVal.mods ms) =>
      (ms.mapM (fun (modifier : Option Modifier) => modifier.map (dropModifier targets))).map
        (fun ms' => conditionals ++ [setProp data "modifiers" (CondVal.mods (ms'.map some))])
    | _ => none
  else none

/-- A batch without one of its entries. -/
def removeEntry (formData : List (Key × JSVal)) (e : Key × JSVal) : List (Key × JSVal) :=
  formData.filter (fun x => decide (x ≠ e))

/-- The content of the modifiers list of record `n` of a tree; the empty list when the
tree has no record there. -/
def modifiersAt (arr : JSArray Conditional) (n : Nat) : JSArray ModifierView :=
  modifiersOf ((getIdx (viewTree arr) n).getD (viewConditional defaultConditional))

/-- The content of modifier `m` of record `n` in the content of a tree, read with the
defaults that `applyEdit` starts from where the record or the modifier is missing. -/
def viewModifierAt (tv : TreeView) (n m : Nat) : ModifierView :=
  (getIdx (modifiersOf ((getIdx tv n).getD (viewConditional defaultConditional))) m).getD
    (getProp defaultConditionalModifier)

/-! ## Link edits (`// Handle links arrays`)

The links pass assigns to properties of objects that the form data holds by reference:
the array under `data.links.<linkType>` and the records in it. The embedding keeps the
arrays of link records in a heap, so that an array the item stores and an array the form
data holds are told apart by their address; a record, with the objects nested in it,
belongs to its array. -/

/-- The arrays of link records in existence, by address: `h.get? r` is the array at `r`. -/
abbrev Heap := List (List LinkRecord)

/-- A value of the form data during the links pass: a primitive, or the address of an
array of link records. -/
inductive FormVal
  | prim (v : JSVal)
  | ref (r : Nat)
  deriving DecidableEq

/-- The filter `e[0].startsWith("data.links")` on a segmented key. -/
def isLinksKey (key : Key) : Bool :=
  match key with
  | s0 :: s1 :: _ => decide (s0 = "data") && "links".toList.isPrefixOf s1.toList
  | _ => false

/-- Whether a primitive is truthy. -/
def truthy : JSVal → Bool
  | .undefined => false
  | .null => false
  | .bool b => b
  | .num n => decide (n ≠ 0)
  | .str s => decide (s ≠ "")

mutual
/-- The helper `duplicate` (a `JSON.parse(JSON.stringify(·))` copy) on a value of a link
record. -/
def LinkVal.duplicate : LinkVal → LinkVal
  | .prim v => .prim v
  | .obj o => .obj (duplicateProps o)
/-- The helper `duplicate` on the properties of an object: a property whose value is
`undefined` is left out, at every depth. -/
def duplicateProps : List (String × LinkVal) → List (String × LinkVal)
  | [] => []
  | (k, x) :: rest =>
    match x with
    | .prim .undefined => duplicateProps rest
    | _ => (k, x.duplicate) :: duplicateProps rest
end

/-- The helper `duplicate` on a link record. -/
def duplicateLink (o : LinkRecord) : LinkRecord := duplicateProps o

/-- The helper `duplicate` on the array at address `r`: the copy is a new array, at the
next free address. The result is `none` when there is no array at `r` (on `undefined` the
helper throws). -/
def duplicate (h : Heap) (r : Nat) : Option (Heap × Nat) :=
  (h.get? r).map (fun l => (h ++ [l.map duplicateLink], h.length))

/-- The read `formData[key]`; `none` is `undefined`. -/
def getEntry : List (Key × FormVal) → Key → Option FormVal
  | [], _ => none
  | (k', v) :: rest, k => if k' = k then some v else getEntry rest k

/-- The write `formData[key] = v`: an existing key keeps its place, a new one is appended. -/
def setEntry : List (Key × FormVal) → Key → FormVal → List (Key × FormVal)
  | [], k, v => [(k, v)]
  | (k', v') :: rest, k, v =>
    if k' = k then (k, v) :: rest else (k', v') :: setEntry rest k v

/-- The statement `delete formData[key]`. -/
def deleteEntry : List (Key × FormVal) → Key → List (Key × FormVal)
  | [], _ => []
  | (k', v) :: rest, k => if k' = k then deleteEntry rest k else (k', v) :: deleteEntry rest k

/-- The key `data.links.<linkType>`. -/
def listKey (linkType : String) : Key := ["data", "links", linkType]

/-- The property names that a plain object inherits from `Object.prototype`: a record
without such a property of its own does not read as `undefined` there. -/
def objectPrototypeNames : List String :=
  ["constructor", "hasOwnProperty", "isPrototypeOf", "propertyIsEnumerable",
   "toLocaleString", "toString", "valueOf", "__defineGetter__", "__defineSetter__",
   "__lookupGetter__", "__lookupSetter__", "__proto__"]

/-- The statement `if (target[key] !== value) target[key] = value` that ends
`setProperty`, for a primitive `value`: the name `__proto__` is not written (see
`assignProp`), and nothing is written where the record has no such property, inherits
none, and `value` is `undefined`; writing the value a property already has changes
nothing. -/
def assignLeaf (o : LinkRecord) (key : String) (value : JSVal) : LinkRecord :=
  if key = "__proto__" then o
  else if getProp o key = none ∧ value = JSVal.undefined ∧ key ∉ objectPrototypeNames then o
  else setProp o key (LinkVal.prim value)

/-- The helper `setProperty(object, key, value)` on a record, for the segments of `key`
(`key.split(".")`): every segment but the last is followed into the object it names, an
empty object being stored first where the record has no such property, and the last
segment is assigned. The result is `none` when a segment before the last names a
primitive (on `null` the helper throws a `TypeError`; on a number, a string or a boolean
it throws or drops the write) or is `__proto__` (the write goes to an object that is not
part of the record). -/
def setProperty : LinkRecord → List String → JSVal → Option LinkRecord
  | _, [], _ => none
  | o, [key], value => some (assignLeaf o key value)
  | o, part :: key :: rest, value =>
    if part = "__proto__" then none
    else
      match getProp o part with
      | none =>
        (setProperty [] (key :: rest) value).map (fun inner => setProp o part (LinkVal.obj inner))
      | some (LinkVal.obj inner) =>
        (setProperty inner (key :: rest) value).map
          (fun inner => setProp o part (LinkVal.obj inner))
      | some (LinkVal.prim _) => none

/-- The segments of `subPath = path.slice(4).join(".")` as `setProperty` splits it again:
without a fifth segment the sub-path is the empty string, whose only segment is empty. -/
def subPath (key : Key) : List String :=
  match key.drop 4 with
  | [] => [""]
  | segments => segments

/-- The test `!formData[key]` of the guard: an array is truthy. -/
def entryTruthy (formData : List (Key × FormVal)) (key : Key) : Bool :=
  match getEntry formData key with
  | some (.ref _) => true
  | some (.prim v) => truthy v
  | none => false

/-- The body of the loop over the link entries for one entry `e`, on the heap and the form
data; `stored linkType` is the address of the array
`getProperty(this.item.data, "data.links.<linkType>")`, `none` when the item has none.
The result is `none` for a thrown error (the item stores no array for the link type, so
that `duplicate` throws; there is no record at the index) and outside the embedding (an
index that is not an array index, a value that is not a primitive, a truthy primitive
under `data.links.<linkType>`, a path that `setProperty` does not cover). -/
def linksStep (stored : String → Option Nat) (st : Heap × List (Key × FormVal))
    (e : Key × FormVal) : Option (Heap × List (Key × FormVal)) :=
  match e.1.get? 3 with
  | none => some st
  | some index =>
    let linkType := (e.1.get? 2).getD "undefined"
    let formData := deleteEntry st.2 e.1
    let guarded : Option (Heap × List (Key × FormVal)) :=
      if entryTruthy formData (listKey linkType) then some (st.1, formData)
      else ((stored linkType).bind (duplicate st.1)).map
        (fun (p : Heap × Nat) => (p.1, setEntry formData (listKey linkType) (FormVal.ref p.2)))
    guarded.bind (fun (p : Heap × List (Key × FormVal)) =>
      match getEntry p.2 (listKey linkType), arrayIndex index, e.2 with
      | some (FormVal.ref r), some n, FormVal.prim value =>
        ((p.1.get? r).bind (fun l =>
          (l.get? n).bind (fun record =>
            (setProperty record (subPath e.1) value).map (fun record' => l.set n record')))).map
          (fun l' => (p.1.set r l', p.2))
      | _, _, _ => none)

/-- The loop `for (const e of links)` over the entries whose key starts with
`data.links`: the heap and the form data after the pass. -/
def linksPass (stored : String → Option Nat) (h : Heap) (formData : List (Key × FormVal)) :
    Option (Heap × List (Key × FormVal)) :=
  (formData.filter (fun e => isLinksKey e.1)).foldlM (linksStep stored) (h, formData)

/-- The value read at a path of own properties of a record; `undefined` where the record
has no such property. -/
def readPath : LinkRecord → List String → LinkVal
  | o, [] => LinkVal.obj o
  | o, [key] => (getProp o key).getD (LinkVal.prim JSVal.undefined)
  | o, part :: key :: rest =>
    match getProp o part with
    | some (LinkVal.obj inner) => readPath inner (key :: rest)
    | _ => LinkVal.prim JSVal.undefined

/-- A heap whose array 0 holds the class associations `a` (level 1, no image) and `b`
(level 3, with a hidden link), and whose array 1 holds `b` alone. -/
def sampleHeap : Heap :=
  [[[("id", LinkVal.prim (JSVal.str "a")), ("level", LinkVal.prim (JSVal.num 1)),
     ("img", LinkVal.prim JSVal.null)],
    [("id", LinkVal.prim (JSVal.str "b")), ("level", LinkVal.prim (JSVal.num 3)),
     ("hiddenLinks", LinkVal.obj [("x", LinkVal.prim (JSVal.bool true))])]],
   [[("id", LinkVal.prim (JSVal.str "b")), ("level", LinkVal.prim (JSVal.num 3))]]]

/-- An item that stores array 0 as its class associations and has no other links. -/
def sampleStoredLinks (linkType : String) : Option Nat :=
  if linkType = "classAssociations" then some 0 else none

/-- Whether `setProperty` reaches its assignment on a record for the segments of a path:
every segment before the last is other than `__proto__` and names an object of the
record, or nothing (the object is then created). -/
def reaches : LinkRecord → List String → Bool
  | _, [] => false
  | _, [_] => true
  | o, part :: key :: rest =>
    decide (part ≠ "__proto__") &&
      (match getProp o part with
        | none => reaches [] (key :: rest)
        | some (LinkVal.obj inner) => reaches inner (key :: rest)
        | some (LinkVal.prim _) => false)

/-- The place that an indexed link entry `data.links.<linkType>.<n>.<subPath>` writes to:
the link type, the index and the segments of the sub-path. -/
def linkEditOf (e : Key × FormVal) : Option (String × Nat × List String) :=
  match e.1 with
  | s0 :: s1 :: linkType :: index :: segment :: rest =>
    if s0 = "data" ∧ s1 = "links" then
      (arrayIndex index).map (fun n => (linkType, n, segment :: rest))
    else none
  | _ => none

/-- An entry with a `data.links` key as the sheet submits it, for an item with the given
stored arrays: either `data.links.<linkType>` for a link type that no indexed entry of the
batch addresses, with a primitive or an array of the heap as its value, or `data.links.<linkType>.<n>.<subPath>` with a primitive value, where
`n` is the index of a stored record of that link type, no segment of the sub-path is
`__proto__`, and `setProperty` reaches its assignment on the copy of that record. -/
def linkEntryOK (h : Heap) (stored : String → Option Nat)
    (formData : List (Key × FormVal)) (e : Key × FormVal) : Bool :=
  match e.1, e.2 with
  | [s0, s1, linkType], value =>
    decide (s0 = "data") && decide (s1 = "links") &&
      (match value with
        | FormVal.ref r => decide (r < h.length)
        | FormVal.prim _ => true) &&
      formData.all (fun x =>
        match linkEditOf x with
        | some (t, _, _) => decide (t ≠ linkType)
        | none => true)
  | s0 :: s1 :: linkType :: index :: segment :: rest, FormVal.prim _ =>
    decide (s0 = "data") && decide (s1 = "links") &&
      decide ("__proto__" ∉ segment :: rest) &&
      (match stored linkType, arrayIndex index with
        | some r, some n =>
          (match (h.get? r).bind (fun l => l.get? n) with
            | some record => reaches (duplicateLink record) (segment :: rest)
            | none => false)
        | _, _ => false)
  | _, _ => false

/-- No indexed entry of the batch writes to a place inside the place another one writes
to: of two entries for the same record, the sub-path of one is not the beginning of the
sub-path of the other. -/
def prefixFree (formData : List (Key × FormVal)) : Bool :=
  formData.all (fun x => formData.all (fun y =>
    match linkEditOf x, linkEditOf y with
    | some (t, n, p), some (t', n', q) =>
      !(decide (t = t') && decide (n = n') && p.isPrefixOf q) || decide (x = y)
    | _, _ => true))

/-- A form batch whose link entries are as the sheet submits them: pairwise distinct keys,
every entry that passes the `data.links` filter satisfies `linkEntryOK`, and the indexed
entries are `prefixFree`. -/
def LinksWellFormed (h : Heap) (stored : String → Option Nat)
    (formData : List (Key × FormVal)) : Prop :=
  (formData.map Prod.fst).Nodup ∧
    (∀ e ∈ formData, isLinksKey e.1 = true → linkEntryOK h stored formData e = true) ∧
    prefixFree formData = true

instance (h : Heap) (stored : String → Option Nat) (formData : List (Key × FormVal)) :
    Decidable (LinksWellFormed h stored formData) := by
  unfold LinksWellFormed; infer_instance

/-- The array that `formData["data.links.<linkType>"]` denotes once the guard
`if (!formData[...]) formData[...] = duplicate(getProperty(this.item.data, ...))` has
run: the array already there, or the copy of the stored one. -/
def currentLinks (stored : String → Option Nat) (st : Heap × List (Key × FormVal))
    (linkType : String) : Option (List LinkRecord) :=
  match getEntry st.2 (listKey linkType) with
  | some (FormVal.ref r) => st.1.get? r
  | some (FormVal.prim v) =>
    if truthy v then none
    else ((stored linkType).bind (fun r => st.1.get? r)).map (fun l => l.map duplicateLink)
  | none => ((stored linkType).bind (fun r => st.1.get? r)).map (fun l => l.map duplicateLink)

/-- The value read at a path of record `n` of the array of a link type. -/
def readAt (stored : String → Option Nat) (st : Heap × List (Key × FormVal))
    (linkType : String) (n : Nat) (path : List String) : Option LinkVal :=
  ((currentLinks stored st linkType).bind (fun l => l.get? n)).map
    (fun record => readPath record path)

/-- What holds of the heap and the form data `st` while the pass runs on the batch
`formData` from the heap `h`: the arrays of `h` are as they were; the array of a link type
that an indexed entry addresses is not yet in the form data, or is a new array; two such
link types have different arrays; and for every indexed entry the array of its link type
is as long as the stored one and `setProperty` reaches its assignment on its record. -/
def LinksInv (h : Heap) (stored : String → Option Nat) (formData : List (Key × FormVal))
    (st : Heap × List (Key × FormVal)) : Prop :=
  (h.length ≤ st.1.length ∧ ∀ a, a < h.length → st.1.get? a = h.get? a) ∧
  (∀ e ∈ formData, ∀ t n p, linkEditOf e = some (t, n, p) →
    getEntry st.2 (listKey t) = none ∨
      ∃ r l, getEntry st.2 (listKey t) = some (FormVal.ref r) ∧ h.length ≤ r ∧
        st.1.get? r = some l) ∧
  (∀ e ∈ formData, ∀ e' ∈ formData, ∀ t n p t' n' p' r, linkEditOf e = some (t, n, p) →
    linkEditOf e' = some (t', n', p') → getEntry st.2 (listKey t) = some (FormVal.ref r) →
    getEntry st.2 (listKey t') = some (FormVal.ref r) → t = t') ∧
  (∀ e ∈ formData, ∀ t n p, linkEditOf e = some (t, n, p) →
    ∃ r₀ l₀ l record, stored t = some r₀ ∧ h.get? r₀ = some l₀ ∧
      currentLinks stored st t = some l ∧ l.length = l₀.length ∧
      l.get? n = some record ∧ reaches record p = true)

/-- A batch for the sample item: a name, the level of class association `a`, a new hidden
link of class association `b`, and a submitted list of children (array 1). -/
def sampleLinkBatch : List (Key × FormVal) :=
  [(["name"], FormVal.prim (JSVal.str "Fighter")),
   (["data", "links", "classAssociations", "0", "level"], FormVal.prim (JSVal.num 5)),
   (["data", "links", "classAssociations", "1", "hiddenLinks", "y"],
     FormVal.prim (JSVal.bool true)),
   (["data", "links", "children"], FormVal.ref 1)]

/-! ### Lemmas on the two patterns -/

theorem takeWhile_isDigit_self {ds : List Char} (h : ∀ c ∈ ds, isDigit c = true) :
    ds.takeWhile isDigit = ds := by
  rw [List.takeWhile_eq_self_iff]; exact h

theorem digitsAt_digits {ds : List Char} (hne : ds ≠ [])
    (h : ∀ c ∈ ds, isDigit c = true) : digitsAt ds = some ds := by
  unfold digitsAt
  rw [takeWhile_isDigit_self h]
  cases ds with
  | nil => exact absurd rfl hne
  | cons c cs => simp

theorem isDigit_ne_plus {c : Char} (h : isDigit c = true) : c ≠ '+' := by
  rintro rfl; exact absurd h (by decide)

theorem isDigit_ne_minus {c : Char} (h : isDigit c = true) : c ≠ '-' := by
  rintro rfl; exact absurd h (by decide)

theorem searchOperator_plus {ds : List Char} (hne : ds ≠ [])
    (h : ∀ c ∈ ds, isDigit c = true) : searchOperator ('+' :: ds) = some ("+", ds) := by
  simp [searchOperator, matchOperatorAt, digitsAt_digits hne h]

theorem searchOperator_minus {ds : List Char} (hne : ds ≠ [])
    (h : ∀ c ∈ ds, isDigit c = true) : searchOperator ('-' :: ds) = some ("-", ds) := by
  cases ds with
  | nil => exact absurd rfl hne
  | cons d ds =>
    have hd : d ≠ '-' := isDigit_ne_minus (h d (List.mem_cons_self _ _))
    simp [searchOperator, matchOperatorAt, digitsAt_digits hne h, hd]

theorem searchOperator_minus_minus {ds : List Char} (hne : ds ≠ [])
    (h : ∀ c ∈ ds, isDigit c = true) :
    searchOperator ('-' :: '-' :: ds) = some ("--", ds) := by
  simp [searchOperator, matchOperatorAt, digitsAt_digits hne h]

theorem matchOperatorAt_digit {c : Char} (cs : List Char) (h : isDigit c = true) :
    matchOperatorAt (c :: cs) = none := by
  simp [matchOperatorAt, isDigit_ne_plus h, isDigit_ne_minus h]

theorem searchOperator_digits {ds : List Char} (h : ∀ c ∈ ds, isDigit c = true) :
    searchOperator ds = none := by
  induction ds with
  | nil => rfl
  | cons c cs ih =>
    have hc := h c (List.mem_cons_self _ _)
    simp only [searchOperator, matchOperatorAt_digit cs hc]
    exact ih (fun x hx => h x (List.mem_cons_of_mem _ hx))

theorem toList_ne_nil {N : String} (h : N ≠ "") : N.toList ≠ [] := by
  intro hl
  apply h
  cases N with
  | mk data => simp [String.toList] at hl; subst hl; rfl

theorem toList_plus (N : String) : ("+" ++ N).toList = '+' :: N.toList := by
  simp [String.toList]

theorem toList_minus (N : String) : ("-" ++ N).toList = '-' :: N.toList := by
  simp [String.toList]

theorem toList_minus_minus (N : String) : ("--" ++ N).toList = '-' :: '-' :: N.toList := by
  simp [String.toList]

/-! ### Objects and arrays -/

theorem getProp_setProp_same {α : Type} (o : Obj α) (k : String) (v : α) :
    getProp (setProp o k v) k = some v := by
  induction o with
  | nil => simp [setProp, getProp]
  | cons p rest ih =>
    obtain ⟨k', v'⟩ := p
    by_cases h : k' = k
    · simp [setProp, getProp, h]
    · simp [setProp, getProp, h, ih]

theorem getProp_setProp_ne {α : Type} (o : Obj α) {k k' : String} (v : α) (h : k' ≠ k) :
    getProp (setProp o k v) k' = getProp o k' := by
  induction o with
  | nil => simp [setProp, getProp, Ne.symm h]
  | cons p rest ih =>
    obtain ⟨k₀, v₀⟩ := p
    by_cases h0 : k₀ = k
    · subst h0
      simp [setProp, getProp, Ne.symm h]
    · by_cases h1 : k₀ = k'
      · subst h1
        simp [setProp, getProp, h0]
      · simp [setProp, getProp, h0, h1, ih]

theorem assignProp_of_ne {α : Type} (o : Obj α) {k : String} (v : α)
    (hk : k ≠ "__proto__") : assignProp o k v = setProp o k v := by
  rw [assignProp, if_neg hk]

theorem getProp_assignProp_same {α : Type} (o : Obj α) {k : String} (v : α)
    (hk : k ≠ "__proto__") : getProp (assignProp o k v) k = some v := by
  rw [assignProp_of_ne o v hk]
  exact getProp_setProp_same o k v

theorem getProp_assignProp_ne {α : Type} (o : Obj α) {k k' : String} (v : α) (h : k' ≠ k) :
    getProp (assignProp o k v) k' = getProp o k' := by
  unfold assignProp
  split
  · rfl
  · exact getProp_setProp_ne o v h

theorem getIdx_nil {α : Type} (n : Nat) : getIdx ([] : JSArray α) n = none := by
  cases n <;> rfl

theorem getIdx_setIdx_same {α : Type} (a : JSArray α) (n : Nat) (x : α) :
    getIdx (setIdx a n x) n = some x := by
  induction n generalizing a with
  | zero => cases a <;> rfl
  | succ n ih =>
    cases a with
    | nil => simpa [setIdx, getIdx] using ih []
    | cons hd tl => simpa [setIdx, getIdx] using ih tl

theorem getIdx_setIdx_ne {α : Type} (a : JSArray α) {n n' : Nat} (x : α) (h : n' ≠ n) :
    getIdx (setIdx a n x) n' = getIdx a n' := by
  induction n generalizing a n' with
  | zero =>
    cases n' with
    | zero => exact absurd rfl h
    | succ n' => cases a <;> simp [setIdx, getIdx, getIdx_nil]
  | succ n ih =>
    cases n' with
    | zero => cases a <;> simp [setIdx, getIdx]
    | succ n' =>
      have h' : n' ≠ n := fun e => h (by rw [e])
      cases a with
      | nil => simpa [setIdx, getIdx, getIdx_nil] using ih [] h'
      | cons hd tl => simpa [setIdx, getIdx] using ih tl h'

/-! ### Array indices are read without loss -/

theorem digitsValue_foldl (ds : List Char) (acc : Nat) :
    ds.foldl (fun a c => 10 * a + (c.toNat - 48)) acc = acc * 10 ^ ds.length + digitsValue ds := by
  induction ds generalizing acc with
  | nil => simp [digitsValue]
  | cons d ds ih =>
    simp only [List.foldl_cons, digitsValue, List.length_cons]
    rw [ih (10 * acc + (d.toNat - 48)), ih (10 * 0 + (d.toNat - 48))]
    ring

theorem digitsValue_cons (d : Char) (ds : List Char) :
    digitsValue (d :: ds) = (d.toNat - 48) * 10 ^ ds.length + digitsValue ds := by
  have h := digitsValue_foldl ds (10 * 0 + (d.toNat - 48))
  simp only [digitsValue, List.foldl_cons] at h ⊢
  rw [h]; simp

theorem isDigit_bounds {c : Char} (h : isDigit c = true) : 48 ≤ c.toNat ∧ c.toNat ≤ 57 := by
  simpa [isDigit] using h

theorem digitsValue_lt (ds : List Char) (h : ∀ c ∈ ds, isDigit c = true) :
    digitsValue ds < 10 ^ ds.length := by
  induction ds with
  | nil => simp [digitsValue]
  | cons d ds ih =>
    have hd := isDigit_bounds (h d (List.mem_cons_self _ _))
    have hr := ih (fun x hx => h x (List.mem_cons_of_mem _ hx))
    rw [digitsValue_cons, List.length_cons, pow_succ]
    have h9 : d.toNat - 48 ≤ 9 := by omega
    nlinarith [Nat.mul_le_mul_right (10 ^ ds.length) h9]

theorem char_eq_of_toNat {c d : Char} (h : c.toNat = d.toNat) : c = d := by
  rw [← Char.ofNat_toNat c, ← Char.ofNat_toNat d, h]

theorem digitsValue_ge (d : Char) (ds : List Char) (hd : isDigit d = true) (h0 : d ≠ '0') :
    10 ^ ds.length ≤ digitsValue (d :: ds) := by
  have hb := isDigit_bounds hd
  have hne : d.toNat ≠ 48 := fun e => h0 (char_eq_of_toNat (by rw [e]; rfl))
  rw [digitsValue_cons]
  have h1 : 1 ≤ d.toNat - 48 := by omega
  nlinarith [Nat.mul_le_mul_right (10 ^ ds.length) h1]

theorem digitsValue_inj_of_length (ds es : List Char) (hl : ds.length = es.length)
    (hds : ∀ c ∈ ds, isDigit c = true) (hes : ∀ c ∈ es, isDigit c = true)
    (h : digitsValue ds = digitsValue es) : ds = es := by
  induction ds generalizing es with
  | nil =>
    cases es with
    | nil => rfl
    | cons e es => simp at hl
  | cons d ds ih =>
    cases es with
    | nil => simp at hl
    | cons e es =>
      have hl' : ds.length = es.length := by simpa using hl
      have hd := isDigit_bounds (hds d (List.mem_cons_self _ _))
      have he := isDigit_bounds (hes e (List.mem_cons_self _ _))
      have hds' : ∀ c ∈ ds, isDigit c = true := fun x hx => hds x (List.mem_cons_of_mem _ hx)
      have hes' : ∀ c ∈ es, isDigit c = true := fun x hx => hes x (List.mem_cons_of_mem _ hx)
      have b1 := digitsValue_lt ds hds'
      have b2 := digitsValue_lt es hes'
      rw [digitsValue_cons, digitsValue_cons, hl'] at h
      rw [hl'] at b1
      have hp : 0 < 10 ^ es.length := by positivity
      have hq : d.toNat - 48 = e.toNat - 48 := by
        have e1 := congrArg (· / 10 ^ es.length) h
        simp only at e1
        rw [Nat.add_comm, Nat.add_mul_div_right _ _ hp, Nat.div_eq_of_lt b1,
          Nat.add_comm (_ * _), Nat.add_mul_div_right _ _ hp, Nat.div_eq_of_lt b2] at e1
        simpa using e1
      have hr : digitsValue ds = digitsValue es := by
        rw [hq] at h; omega
      have hde : d = e := char_eq_of_toNat (by omega)
      rw [hde, ih es hl' hds' hes' hr]

theorem arrayIndex_spec {s : String} {n : Nat} (h : arrayIndex s = some n) :
    digitsValue s.toList = n ∧ (∀ c ∈ s.toList, isDigit c = true) ∧
      (s.toList = ['0'] ∨ ∃ d ds, s.toList = d :: ds ∧ d ≠ '0') := by
  unfold arrayIndex at h
  split at h
  · rename_i hc
    simp only [Bool.and_eq_true, Bool.or_eq_true, matchBareInteger, List.all_eq_true,
      decide_eq_true_eq] at hc
    obtain ⟨⟨⟨hne, hall⟩, hcanon⟩, -⟩ := hc
    refine ⟨by simpa using h, hall, ?_⟩
    cases hcs : s.toList with
    | nil => rw [hcs] at hne; exact absurd hne (by decide)
    | cons d ds =>
      by_cases hd : d = '0'
      · left
        rw [hcs] at hcanon
        rcases hcanon with hlen | hhead
        · have : ds = [] := by simpa using hlen
          rw [hd, this]
        · simp [hd] at hhead
      · right
        exact ⟨d, ds, rfl, hd⟩
  · exact absurd h (by simp)

theorem arrayIndex_inj {s s' : String} {n : Nat}
    (h : arrayIndex s = some n) (h' : arrayIndex s' = some n) : s = s' := by
  obtain ⟨hv, hall, hc⟩ := arrayIndex_spec h
  obtain ⟨hv', hall', hc'⟩ := arrayIndex_spec h'
  have key : s.toList = s'.toList := by
    rcases hc with h0 | ⟨d, ds, hcs, hd⟩
    · rcases hc' with h0' | ⟨d', ds', hcs', hd'⟩
      · rw [h0, h0']
      · exfalso
        have hge := digitsValue_ge d' ds' (hall' d' (by rw [hcs']; exact List.mem_cons_self _ _)) hd'
        rw [← hcs', hv', ← hv, h0] at hge
        have hp : 0 < 10 ^ ds'.length := by positivity
        have hz : digitsValue ['0'] = 0 := by decide
        omega
    · rcases hc' with h0' | ⟨d', ds', hcs', hd'⟩
      · exfalso
        have hge := digitsValue_ge d ds (hall d (by rw [hcs]; exact List.mem_cons_self _ _)) hd
        rw [← hcs, hv, ← hv', h0'] at hge
        have hp : 0 < 10 ^ ds.length := by positivity
        have hz : digitsValue ['0'] = 0 := by decide
        omega
      · have hge := digitsValue_ge d ds (hall d (by rw [hcs]; exact List.mem_cons_self _ _)) hd
        have hge' :=
          digitsValue_ge d' ds' (hall' d' (by rw [hcs']; exact List.mem_cons_self _ _)) hd'
        have hlt := digitsValue_lt s.toList hall
        have hlt' := digitsValue_lt s'.toList hall'
        rw [← hcs, hv] at hge
        rw [← hcs', hv'] at hge'
        rw [hv, hcs, List.length_cons] at hlt
        rw [hv', hcs', List.length_cons] at hlt'
        have hlen : ds.length = ds'.length := by
          rcases Nat.lt_trichotomy ds.length ds'.length with hl | hl | hl
          · exfalso
            have := Nat.pow_le_pow_right (by decide : 0 < 10) (Nat.succ_le_of_lt hl)
            omega
          · exact hl
          · exfalso
            have := Nat.pow_le_pow_right (by decide : 0 < 10) (Nat.succ_le_of_lt hl)
            omega
        apply digitsValue_inj_of_length _ _ _ hall hall' (by rw [hv, hv'])
        rw [hcs, hcs', List.length_cons, List.length_cons, hlen]
  cases s with
  | mk data =>
    cases s' with
    | mk data' =>
      simp only [String.toList] at key
      rw [key]

/-! ### One step of the conditionals fold -/

theorem canonicalKey_cases {key : Key} (h : canonicalKey key = true) :
    (∃ i j n, key = ["data", "conditionals", i, j] ∧ arrayIndex i = some n ∧
        j ≠ "modifiers") ∨
    (∃ i j k n m, key = modifierKey i j k ∧ arrayIndex i = some n ∧
        arrayIndex j = some m ∧ k ≠ "") := by
  match key, h with
  | [s0, s1, i, j], h =>
    simp only [canonicalKey, Bool.and_eq_true, decide_eq_true_eq, Option.isSome_iff_exists] at h
    obtain ⟨⟨⟨h0, h1⟩, n, hn⟩, hj⟩ := h
    exact Or.inl ⟨i, j, n, by rw [h0, h1], hn, hj⟩
  | [s0, s1, i, j, k], h =>
    simp only [canonicalKey, Bool.and_eq_true, decide_eq_true_eq, Option.isSome_iff_exists] at h
    obtain ⟨⟨⟨⟨h0, h1⟩, n, hn⟩, m, hm⟩, hk⟩ := h
    exact Or.inr ⟨i, j, k, n, m, by rw [h0, h1]; rfl, hn, hm, hk⟩
  | [], h | [_], h | [_, _], h | [_, _, _], h | _ :: _ :: _ :: _ :: _ :: _ :: _, h =>
    simp [canonicalKey] at h

theorem recordAt_shaped {arr : JSArray Conditional} (hs : Shaped arr) (n : Nat) :
    ∃ ms, getProp ((getIdx arr n).getD defaultConditional) "modifiers"
      = some (CondVal.mods ms) := by
  cases hg : getIdx arr n with
  | none => exact ⟨[], by simp [defaultConditional, getProp]⟩
  | some record => simpa using hs n record hg

theorem shaped_setIdx {arr : JSArray Conditional} (hs : Shaped arr) (n : Nat)
    {record : Conditional} (hr : ∃ ms, getProp record "modifiers" = some (CondVal.mods ms)) :
    Shaped (setIdx arr n record) := by
  intro n' r hg
  by_cases hn : n' = n
  · subst hn
    rw [getIdx_setIdx_same] at hg
    cases hg
    exact hr
  · rw [getIdx_setIdx_ne _ _ hn] at hg
    exact hs n' r hg

theorem shaped_nil : Shaped ([] : JSArray Conditional) := by
  intro n r hg
  rw [getIdx_nil] at hg
  cases hg

theorem step_field {cat : Catalog} {conds : List (Key × JSVal)} (arr : JSArray Conditional)
    {i j : String} {n : Nat} (v : JSVal)
    (hi : arrayIndex i = some n) :
    conditionalStep cat conds arr (["data", "conditionals", i, j], v)
      = some (setIdx arr n
          (assignProp ((getIdx arr n).getD defaultConditional) j (CondVal.prim v))) := by
  simp [conditionalStep, hi]

theorem step_modifier {cat : Catalog} {conds : List (Key × JSVal)} (arr : JSArray Conditional)
    {i j k : String} {n m : Nat} (v : JSVal) {ms : JSArray Modifier}
    (hi : arrayIndex i = some n) (hj : arrayIndex j = some m)
    (hk : k ≠ "")
    (hms : getProp ((getIdx arr n).getD defaultConditional) "modifiers"
      = some (CondVal.mods ms)) :
    conditionalStep cat conds arr (modifierKey i j k, v)
      = some (setIdx arr n
          (setProp ((getIdx arr n).getD defaultConditional) "modifiers"
            (CondVal.mods (setIdx ms m
              (updateModifier cat conds i j k v
                ((getIdx ms m).getD defaultConditionalModifier)))))) := by
  simp [conditionalStep, modifierKey, hi, hj, hk, hms, Option.filter]

theorem modifierField_setIdx_ne (arr : JSArray Conditional) {n n' : Nat} (r : Conditional)
    (m : Nat) (k : String) (h : n' ≠ n) :
    modifierField (setIdx arr n r) n' m k = modifierField arr n' m k := by
  simp [modifierField, getIdx_setIdx_ne _ _ h]

theorem modifierField_setIdx_same (arr : JSArray Conditional) (n : Nat) (r : Conditional)
    (m : Nat) (k : String) {ms : JSArray Modifier}
    (hr : getProp r "modifiers" = some (CondVal.mods ms)) :
    modifierField (setIdx arr n r) n m k = (getIdx ms m).bind (fun md => getProp md k) := by
  simp [modifierField, getIdx_setIdx_same, hr]

theorem modifierField_recordAt (arr : JSArray Conditional) (n m : Nat) (k : String)
    {ms : JSArray Modifier}
    (hr : getProp ((getIdx arr n).getD defaultConditional) "modifiers"
      = some (CondVal.mods ms)) :
    modifierField arr n m k = (getIdx ms m).bind (fun md => getProp md k) := by
  cases hg : getIdx arr n with
  | none =>
    rw [hg] at hr
    have : ms = [] := by
      simp [defaultConditional, getProp] at hr
      exact hr
    simp [modifierField, hg, this, getIdx_nil]
  | some record =>
    rw [hg] at hr
    simp only [Option.getD_some] at hr
    simp [modifierField, hg, hr]

theorem getProp_updateModifier_ne (cat : Catalog) (conds : List (Key × JSVal))
    (i j : String) {k k' : String} (v : JSVal) (md : Modifier) (h : k' ≠ k) :
    getProp (updateModifier cat conds i j k v md) k' = getProp md k' := by
  unfold updateModifier
  simp only
  split
  · split
    · split
      · rw [getProp_setProp_ne _ _ h, getProp_assignProp_ne _ _ h]
      · rw [getProp_assignProp_ne _ _ h]
    · rw [getProp_assignProp_ne _ _ h]
  · rw [getProp_assignProp_ne _ _ h]

theorem step_frame (cat : Catalog) (conds : List (Key × JSVal)) {arr : JSArray Conditional}
    (hs : Shaped arr) {e : Key × JSVal} (hc : canonicalKey e.1 = true) :
    ∃ arr', conditionalStep cat conds arr e = some arr' ∧ Shaped arr' ∧
      ∀ i₀ j₀ k₀ n₀ m₀ x, e.1 ≠ modifierKey i₀ j₀ k₀ → arrayIndex i₀ = some n₀ →
        arrayIndex j₀ = some m₀ → modifierField arr n₀ m₀ k₀ = some x →
        modifierField arr' n₀ m₀ k₀ = some x := by
  obtain ⟨key, v⟩ := e
  rcases canonicalKey_cases hc with
    ⟨i, j, n, hkey, hi, hj⟩ | ⟨i, j, k, n, m, hkey, hi, hj, hk⟩
  · simp only at hkey
    subst hkey
    obtain ⟨ms, hms⟩ := recordAt_shaped hs n
    have hms' : getProp (assignProp ((getIdx arr n).getD defaultConditional) j (CondVal.prim v))
        "modifiers" = some (CondVal.mods ms) := by
      rw [getProp_assignProp_ne _ _ (Ne.symm hj), hms]
    refine ⟨_, step_field arr v hi, shaped_setIdx hs n ⟨ms, hms'⟩, ?_⟩
    intro i₀ j₀ k₀ n₀ m₀ x _ _ _ hx
    by_cases hn : n₀ = n
    · subst hn
      rw [modifierField_setIdx_same _ _ _ _ _ hms', ← modifierField_recordAt _ _ _ _ hms, hx]
    · rw [modifierField_setIdx_ne _ _ _ _ hn, hx]
  · simp only at hkey
    subst hkey
    obtain ⟨ms, hms⟩ := recordAt_shaped hs n
    have hms' : getProp (setProp ((getIdx arr n).getD defaultConditional) "modifiers"
        (CondVal.mods (setIdx ms m (updateModifier cat conds i j k v
          ((getIdx ms m).getD defaultConditionalModifier))))) "modifiers"
        = some (CondVal.mods (setIdx ms m (updateModifier cat conds i j k v
          ((getIdx ms m).getD defaultConditionalModifier)))) := getProp_setProp_same _ _ _
    refine ⟨_, step_modifier arr v hi hj hk hms, shaped_setIdx hs n ⟨_, hms'⟩, ?_⟩
    intro i₀ j₀ k₀ n₀ m₀ x hne hi₀ hj₀ hx
    by_cases hn : n₀ = n
    · subst hn
      rw [modifierField_setIdx_same _ _ _ _ _ hms']
      rw [modifierField_recordAt _ _ _ _ hms] at hx
      by_cases hm : m₀ = m
      · subst hm
        have hk₀ : k₀ ≠ k := by
          intro hkk
          apply hne
          rw [arrayIndex_inj hi hi₀, arrayIndex_inj hj hj₀, hkk]
        rw [getIdx_setIdx_same]
        simp only [Option.some_bind]
        rw [getProp_updateModifier_ne _ _ _ _ _ _ hk₀]
        cases hg : getIdx ms m₀ with
        | none => rw [hg] at hx; simp at hx
        | some md => rw [hg] at hx; simpa using hx
      · rw [getIdx_setIdx_ne _ _ hm, hx]
    · rw [modifierField_setIdx_ne _ _ _ _ hn, hx]

theorem step_own (cat : Catalog) (conds : List (Key × JSVal)) {arr : JSArray Conditional}
    (hs : Shaped arr) {i j k : String} {n m : Nat} (v : JSVal)
    (hi : arrayIndex i = some n) (hj : arrayIndex j = some m) (hk : k ≠ "") :
    ∃ arr' md, conditionalStep cat conds arr (modifierKey i j k, v) = some arr' ∧ Shaped arr' ∧
      modifierField arr' n m k = getProp (updateModifier cat conds i j k v md) k := by
  obtain ⟨ms, hms⟩ := recordAt_shaped hs n
  have hms' : getProp (setProp ((getIdx arr n).getD defaultConditional) "modifiers"
      (CondVal.mods (setIdx ms m (updateModifier cat conds i j k v
        ((getIdx ms m).getD defaultConditionalModifier))))) "modifiers"
      = some (CondVal.mods (setIdx ms m (updateModifier cat conds i j k v
        ((getIdx ms m).getD defaultConditionalModifier)))) := getProp_setProp_same _ _ _
  refine ⟨_, (getIdx ms m).getD defaultConditionalModifier,
    step_modifier arr v hi hj hk hms, shaped_setIdx hs n ⟨_, hms'⟩, ?_⟩
  rw [modifierField_setIdx_same _ _ _ _ _ hms', getIdx_setIdx_same]
  rfl

theorem fold_frame (cat : Catalog) (conds : List (Key × JSVal)) (es : List (Key × JSVal)) :
    ∀ {arr : JSArray Conditional}, Shaped arr → (∀ e ∈ es, canonicalKey e.1 = true) →
    ∃ arr', es.foldlM (conditionalStep cat conds) arr = some arr' ∧ Shaped arr' ∧
      ∀ i₀ j₀ k₀ n₀ m₀ x, (∀ e ∈ es, e.1 ≠ modifierKey i₀ j₀ k₀) → arrayIndex i₀ = some n₀ →
        arrayIndex j₀ = some m₀ → modifierField arr n₀ m₀ k₀ = some x →
        modifierField arr' n₀ m₀ k₀ = some x := by
  induction es with
  | nil =>
    intro arr hs _
    exact ⟨arr, rfl, hs, fun _ _ _ _ _ _ _ _ _ hx => hx⟩
  | cons e es ih =>
    intro arr hs hc
    obtain ⟨arr₁, h₁, hs₁, hf₁⟩ := step_frame cat conds hs (hc e (List.mem_cons_self _ _))
    obtain ⟨arr₂, h₂, hs₂, hf₂⟩ := ih hs₁ (fun x hx => hc x (List.mem_cons_of_mem _ hx))
    refine ⟨arr₂, ?_, hs₂, ?_⟩
    · rw [List.foldlM_cons, h₁]
      exact h₂
    · intro i₀ j₀ k₀ n₀ m₀ x hne hi₀ hj₀ hx
      exact hf₂ i₀ j₀ k₀ n₀ m₀ x (fun y hy => hne y (List.mem_cons_of_mem _ hy)) hi₀ hj₀
        (hf₁ i₀ j₀ k₀ n₀ m₀ x (hne e (List.mem_cons_self _ _)) hi₀ hj₀ hx)

/-! ### The whole fold -/

theorem isConditionalKey_modifierKey (i j k : String) :
    isConditionalKey (modifierKey i j k) = true := by
  simp [isConditionalKey, modifierKey]

theorem getProp_updateModifier_isSome (cat : Catalog) (conds : List (Key × JSVal))
    (i j : String) {k : String} (v : JSVal) (md : Modifier) (hk : k ≠ "__proto__") :
    ∃ x, getProp (updateModifier cat conds i j k v md) k = some x := by
  unfold updateModifier
  simp only [assignProp_of_ne _ _ hk]
  split
  · split
    · split
      · exact ⟨_, getProp_setProp_same _ _ _⟩
      · exact ⟨_, getProp_setProp_same _ _ _⟩
    · exact ⟨_, getProp_setProp_same _ _ _⟩
  · exact ⟨_, getProp_setProp_same _ _ _⟩

theorem wellFormed_filter {formData : List (Key × JSVal)} (hwf : WellFormed formData) :
    ((formData.filter (fun e => isConditionalKey e.1)).map Prod.fst).Nodup ∧
      ∀ e ∈ formData.filter (fun e => isConditionalKey e.1), canonicalKey e.1 = true := by
  constructor
  · exact hwf.1.sublist ((List.filter_sublist _).map _)
  · intro e he
    rw [List.mem_filter] at he
    exact hwf.2 e he.1 he.2

/-- In a well-formed batch, the field `k` of modifier `(i, j)` ends up holding what the
step of the batch's own entry for that field wrote. -/
theorem conditionalsPass_modifier (cat : Catalog) {formData : List (Key × JSVal)}
    (hwf : WellFormed formData) {i j k : String} {n m : Nat} {v : JSVal}
    (hmem : (modifierKey i j k, v) ∈ formData)
    (hi : arrayIndex i = some n) (hj : arrayIndex j = some m) (hk' : k ≠ "__proto__") :
    ∃ tree md, conditionalsPass cat formData = some tree ∧ Shaped tree ∧
      modifierField tree n m k = getProp
        (updateModifier cat (formData.filter (fun e => isConditionalKey e.1)) i j k v md) k := by
  obtain ⟨hnd, hcan⟩ := wellFormed_filter hwf
  have hmem' : (modifierKey i j k, v) ∈ formData.filter (fun e => isConditionalKey e.1) := by
    rw [List.mem_filter]
    exact ⟨hmem, isConditionalKey_modifierKey i j k⟩
  have hck := hcan _ hmem'
  have hk : k ≠ "" := by
    simp only [canonicalKey, modifierKey, Bool.and_eq_true, decide_eq_true_eq] at hck
    exact hck.2
  unfold conditionalsPass
  simp only
  generalize hconds : formData.filter (fun e => isConditionalKey e.1) = conds at *
  obtain ⟨pre, post, hsplit⟩ := List.append_of_mem hmem'
  have hnd' := hnd
  rw [hsplit, List.map_append, List.map_cons, List.nodup_append] at hnd'
  obtain ⟨-, hndpost, hdisj⟩ := hnd'
  rw [List.nodup_cons] at hndpost
  have hpre : ∀ e ∈ pre, canonicalKey e.1 = true := fun e he =>
    hcan e (by rw [hsplit]; exact List.mem_append_left _ he)
  have hpost : ∀ e ∈ post, canonicalKey e.1 = true := fun e he =>
    hcan e (by rw [hsplit]; exact List.mem_append_right _ (List.mem_cons_of_mem _ he))
  have hpostne : ∀ e ∈ post, e.1 ≠ modifierKey i j k := by
    intro e he heq
    have hin := List.mem_map_of_mem Prod.fst he
    rw [heq] at hin
    exact hndpost.1 hin
  obtain ⟨arr₁, h₁, hs₁, -⟩ := fold_frame cat conds pre shaped_nil hpre
  obtain ⟨arr₂, md, h₂, hs₂, hf₂⟩ := step_own cat conds hs₁ v hi hj hk
  obtain ⟨x, hx⟩ := getProp_updateModifier_isSome cat conds i j v md hk'
  obtain ⟨arr₃, h₃, hs₃, hf₃⟩ := fold_frame cat conds post hs₂ hpost
  refine ⟨arr₃, md, ?_, hs₃, ?_⟩
  · have hfold : ∀ l : List (Key × JSVal), l = pre ++ (modifierKey i j k, v) :: post →
        l.foldlM (conditionalStep cat conds) [] = some arr₃ := by
      intro l hl
      rw [hl, List.foldlM_append, h₁]
      simp only [Option.bind_eq_bind, Option.some_bind, List.foldlM_cons, h₂]
      exact h₃
    exact hfold conds hsplit
  · rw [hx]
    exact hf₃ i j k n m x hpostne hi hj (by rw [hf₂, hx])

theorem findTarget_of_mem {conds : List (Key × JSVal)} (hnd : (conds.map Prod.fst).Nodup)
    {i j : String} {w : JSVal} (hmem : (targetKey i j, w) ∈ conds) :
    findTarget conds i j = w := by
  unfold findTarget
  induction conds with
  | nil => cases hmem
  | cons e rest ih =>
    rw [List.map_cons, List.nodup_cons] at hnd
    by_cases he : e.1 = targetKey i j
    · simp only [List.find?_cons, he, decide_True]
      rcases List.mem_cons.mp hmem with h | h
      · rw [← h]
      · exfalso
        apply hnd.1
        rw [he]
        exact List.mem_map_of_mem Prod.fst h
    · simp only [List.find?_cons, he, decide_False]
      rcases List.mem_cons.mp hmem with h | h
      · exfalso
        apply he
        rw [← h]
      · exact ih hnd.2 h

theorem findTarget_filter {formData : List (Key × JSVal)} (hwf : WellFormed formData)
    {i j : String} {w : JSVal} (hmem : (modifierKey i j "target", w) ∈ formData) :
    findTarget (formData.filter (fun e => isConditionalKey e.1)) i j = w := by
  apply findTarget_of_mem (wellFormed_filter hwf).1
  rw [List.mem_filter]
  exact ⟨hmem, isConditionalKey_modifierKey i j "target"⟩

theorem includes_eq_false {keys : List String} {v : JSVal}
    (h : ∀ s ∈ keys, v ≠ JSVal.str s) : includes keys v = false := by
  cases v with
  | str s =>
    simp only [includes, decide_eq_false_iff_not]
    exact fun hs => h s hs rfl
  | undefined => rfl
  | null => rfl
  | bool b => rfl
  | num x => rfl

theorem getProp_updateModifier_reset (cat : Catalog) (conds : List (Key × JSVal))
    {i j k t : String} {v : JSVal} (md : Modifier)
    (hk : k = "subTarget" ∨ k = "critical") (ht : findTarget conds i j = JSVal.str t)
    (hd : t ≠ "damage") (hinc : includes (dependentKeys cat k t) v = false) :
    getProp (updateModifier cat conds i j k v md) k
      = some (firstKey (dependentKeys cat k t)) := by
  rcases hk with rfl | rfl <;>
    simp [updateModifier, assignProp, ht, hd, hinc, getProp_setProp_same]

theorem getProp_updateModifier_type (cat : Catalog) (conds : List (Key × JSVal))
    (i j : String) (v : JSVal) (md : Modifier) :
    getProp (updateModifier cat conds i j "type" v md) "type" = some v := by
  unfold updateModifier
  simp only [decide_not, decide_True, Bool.not_true, Bool.and_false,
    assignProp_of_ne _ _ (by decide : ("type" : String) ≠ "__proto__")]
  split
  · split <;> exact getProp_setProp_same _ _ _
  · exact getProp_setProp_same _ _ _

theorem getProp_updateModifier_legal (cat : Catalog) (conds : List (Key × JSVal))
    {i j k t : String} {v : JSVal} (md : Modifier)
    (ht : findTarget conds i j = JSVal.str t)
    (hinc : includes (dependentKeys cat k t) v = true) :
    getProp (updateModifier cat conds i j k v md) k = some v := by
  have hk : k ≠ "__proto__" := by
    rintro rfl
    cases v <;> simp [dependentKeys, includes] at hinc
  unfold updateModifier
  simp only [ht, hinc, assignProp_of_ne _ _ hk]
  split <;> simp [getProp_setProp_same]

theorem firstKey_of_ne_nil {keys : List String} (hne : keys ≠ []) :
    firstKey keys = JSVal.str (keys.head hne) := by
  cases keys with
  | nil => exact absurd rfl hne
  | cons x xs => rfl

/-! ## The claims on `_updateObject` -/

/-- C1. In a well-formed form batch that holds, for the same modifier `(i, j)`, a string
target `t` other than `damage` and a `subTarget` (or `critical`) value `v` that is not
among the catalog's keys for `t`, a non-empty list, the fold returns a tree in which that
field of the modifier is the first key of the list. -/
theorem dependent_field_reset (cat : Catalog) (formData : List (Key × JSVal))
    (i j k t : String) (v : JSVal) (n m : Nat)
    (hwf : WellFormed formData)
    (hi : arrayIndex i = some n) (hj : arrayIndex j = some m)
    (hk : k = "subTarget" ∨ k = "critical")
    (htarget : (modifierKey i j "target", JSVal.str t) ∈ formData)
    (hval : (modifierKey i j k, v) ∈ formData)
    (hdamage : t ≠ "damage")
    (hillegal : ∀ s ∈ dependentKeys cat k t, v ≠ JSVal.str s)
    (hne : dependentKeys cat k t ≠ []) :
    ∃ tree, conditionalsPass cat formData = some tree ∧
      modifierField tree n m k = some (JSVal.str ((dependentKeys cat k t).head hne)) := by
  obtain ⟨tree, md, hpass, -, hfield⟩ := conditionalsPass_modifier cat hwf hval hi hj
    (by rcases hk with rfl | rfl <;> decide)
  refine ⟨tree, hpass, ?_⟩
  rw [hfield, getProp_updateModifier_reset cat _ md hk (findTarget_filter hwf htarget) hdamage
    (includes_eq_false hillegal), firstKey_of_ne_nil hne]

/-- C1 at target `attack`, sub-target `bogus` and legal keys `atk1`, `atk2`: the
sub-target becomes `atk1`. -/
theorem dependent_field_reset_witness :
    ∃ tree, conditionalsPass sampleCatalog
        [(modifierKey "0" "0" "target", JSVal.str "attack"),
         (modifierKey "0" "0" "subTarget", JSVal.str "bogus")] = some tree ∧
      modifierField tree 0 0 "subTarget" = some (JSVal.str "atk1") :=
  dependent_field_reset sampleCatalog
    [(modifierKey "0" "0" "target", JSVal.str "attack"),
     (modifierKey "0" "0" "subTarget", JSVal.str "bogus")]
    "0" "0" "subTarget" "attack" (JSVal.str "bogus") 0 0
    (by decide) (by decide) (by decide) (by decide) (by decide) (by decide) (by decide)
    (by decide) (by decide)

/-- C2. With target `attack` and the type `bogus`, which is not among the type keys
`untyped`, `luck` of `attack`, the fold leaves the type at `bogus`: the reset condition
`target !== "damage" && k !== "type"` never holds for the type field. -/
theorem type_not_reset_for_attack :
    sampleCatalog.modifierTypes "attack" = ["untyped", "luck"] ∧
    (conditionalsPass sampleCatalog
        [(modifierKey "0" "0" "target", JSVal.str "attack"),
         (modifierKey "0" "0" "type", JSVal.str "bogus")]).map
      (fun tree => modifierField tree 0 0 "type") = some (some (JSVal.str "bogus")) := by
  decide

/-- C3. With target `damage` and the sub-target `bogus`, which is not the sub-target key
`allDamage` of `damage`, the fold leaves the sub-target at `bogus`; the same holds for
the critical field: the reset condition requires `target !== "damage"` for every field. -/
theorem damage_subTarget_not_reset :
    sampleCatalog.subTargets "damage" = ["allDamage"] ∧
    (conditionalsPass sampleCatalog
        [(modifierKey "0" "0" "target", JSVal.str "damage"),
         (modifierKey "0" "0" "subTarget", JSVal.str "bogus"),
         (modifierKey "0" "0" "critical", JSVal.str "bogus")]).map
      (fun tree => (modifierField tree 0 0 "subTarget", modifierField tree 0 0 "critical"))
      = some (some (JSVal.str "bogus"), some (JSVal.str "bogus")) := by
  decide

/-- C4. In a well-formed form batch that holds, for the same modifier `(i, j)`, the target
`damage` and a type value `v`, the fold returns a tree in which the type of the modifier
is `v`, whatever `v` is. -/
theorem damage_type_kept (cat : Catalog) (formData : List (Key × JSVal))
    (i j : String) (v : JSVal) (n m : Nat)
    (hwf : WellFormed formData)
    (hi : arrayIndex i = some n) (hj : arrayIndex j = some m)
    (htarget : (modifierKey i j "target", JSVal.str "damage") ∈ formData)
    (hval : (modifierKey i j "type", v) ∈ formData) :
    ∃ tree, conditionalsPass cat formData = some tree ∧
      modifierField tree n m "type" = some v := by
  have _ := htarget
  obtain ⟨tree, md, hpass, -, hfield⟩ := conditionalsPass_modifier cat hwf hval hi hj
    (by decide)
  exact ⟨tree, hpass, by rw [hfield, getProp_updateModifier_type]⟩

/-- C4 at the free-form damage type `5`, which no key list of the sample catalog holds. -/
theorem damage_type_kept_witness :
    ∃ tree, conditionalsPass sampleCatalog
        [(modifierKey "0" "0" "target", JSVal.str "damage"),
         (modifierKey "0" "0" "type", JSVal.str "5")] = some tree ∧
      modifierField tree 0 0 "type" = some (JSVal.str "5") :=
  damage_type_kept sampleCatalog
    [(modifierKey "0" "0" "target", JSVal.str "damage"),
     (modifierKey "0" "0" "type", JSVal.str "5")]
    "0" "0" (JSVal.str "5") 0 0 (by decide) (by decide) (by decide) (by decide) (by decide)

/-- C5. With the unrecognised target `nowhere`, for which the catalog has no keys, and the
sub-target `x`, the fold writes `keys[0]`, which is `undefined` and not the empty string:
the sub-target of the resulting modifier is not a string. -/
theorem empty_keys_fallback_undefined :
    sampleCatalog.subTargets "nowhere" = [] ∧
    (conditionalsPass sampleCatalog
        [(modifierKey "0" "0" "target", JSVal.str "nowhere"),
         (modifierKey "0" "0" "subTarget", JSVal.str "x")]).map
      (fun tree => modifierField tree 0 0 "subTarget") = some (some JSVal.undefined) := by
  decide

theorem wellFormed_perm {formData order : List (Key × JSVal)} (hperm : order.Perm formData)
    (hwf : WellFormed formData) : WellFormed order :=
  ⟨(hperm.map Prod.fst).nodup_iff.mpr hwf.1, fun e he => hwf.2 e (hperm.mem_iff.mp he)⟩

/-- C6. Take a well-formed form batch that holds, for the same modifier `(i, j)`, a string
target `t` and, for a dependent field `k` (`subTarget`, `type` or `critical`), a value `s`
that is among the catalog's keys for `t`. In whatever order the entries are enumerated,
the fold returns a tree in which field `k` of the modifier is `s`. -/
theorem no_spurious_reset (cat : Catalog) (formData order : List (Key × JSVal))
    (i j k t s : String) (n m : Nat)
    (hwf : WellFormed formData) (hperm : order.Perm formData)
    (hi : arrayIndex i = some n) (hj : arrayIndex j = some m)
    (hk : k = "subTarget" ∨ k = "type" ∨ k = "critical")
    (htarget : (modifierKey i j "target", JSVal.str t) ∈ formData)
    (hval : (modifierKey i j k, JSVal.str s) ∈ formData)
    (hlegal : s ∈ dependentKeys cat k t) :
    ∃ tree, conditionalsPass cat order = some tree ∧
      modifierField tree n m k = some (JSVal.str s) := by
  have hk' : k ≠ "__proto__" := by rcases hk with rfl | rfl | rfl <;> decide
  have hwf' := wellFormed_perm hperm hwf
  obtain ⟨tree, md, hpass, -, hfield⟩ :=
    conditionalsPass_modifier cat hwf' (hperm.mem_iff.mpr hval) hi hj hk'
  refine ⟨tree, hpass, ?_⟩
  rw [hfield]
  apply getProp_updateModifier_legal cat _ md
    (findTarget_filter hwf' (hperm.mem_iff.mpr htarget))
  simp [includes, hlegal]

/-- C6 at target `attack` and the compatible sub-target `atk2`, with the sub-target
enumerated before the target. -/
theorem no_spurious_reset_witness :
    ∃ tree, conditionalsPass sampleCatalog
        [(modifierKey "0" "0" "subTarget", JSVal.str "atk2"),
         (modifierKey "0" "0" "target", JSVal.str "attack")] = some tree ∧
      modifierField tree 0 0 "subTarget" = some (JSVal.str "atk2") :=
  no_spurious_reset sampleCatalog
    [(modifierKey "0" "0" "target", JSVal.str "attack"),
     (modifierKey "0" "0" "subTarget", JSVal.str "atk2")]
    [(modifierKey "0" "0" "subTarget", JSVal.str "atk2"),
     (modifierKey "0" "0" "target", JSVal.str "attack")]
    "0" "0" "subTarget" "attack" "atk2" 0 0
    (by decide) (List.Perm.swap _ _ _) (by decide) (by decide) (by decide) (by decide)
    (by decide) (by decide)

/-! ## The claims on relative values -/

theorem excessBits_of_lt (fuel : Nat) {n : Nat} (h : n < 9007199254740992) :
    excessBits fuel n = 0 := by
  cases fuel <;> simp [excessBits, h]

theorem roundNat_exact {n : Nat} (h : n < 9007199254740992) : roundNat n = some n := by
  simp [roundNat, excessBits_of_lt _ h, Nat.mod_one]

theorem toNumber_exact {z : Int} (h : z.natAbs < 2 ^ 53) : toNumber z = JSNumber.finite z := by
  have h' : z.natAbs < 9007199254740992 := by norm_num at h; exact h
  unfold toNumber
  rw [roundNat_exact h']
  simp only
  split
  · rw [Int.ofNat_natAbs_of_nonpos (by omega), neg_neg]
  · rw [Int.natAbs_of_nonneg (by omega)]

theorem parseInt_exact {ds : List Char} (h : digitsValue ds < 2 ^ 53) :
    parseInt ds = JSNumber.finite (digitsValue ds) :=
  toNumber_exact (by simpa using h)

theorem addNumber_exact {c n : Int} (hc : c.natAbs < 2 ^ 53) (h : (c + n).natAbs < 2 ^ 53) :
    addNumber (some c) (JSNumber.finite n) = JSNumber.finite (c + n) := by
  simp [addNumber, toNumber_exact hc, toNumber_exact h]

theorem resolveRelative_plus {N : String} (hN : N ≠ "")
    (hd : ∀ ch ∈ N.toList, isDigit ch = true) (ov max : Option Int) :
    resolveRelative ("+" ++ N) ov max = clampMax (addNumber ov (parseInt N.toList)) max := by
  unfold resolveRelative
  rw [toList_plus, searchOperator_plus (toList_ne_nil hN) hd]
  simp

theorem resolveRelative_minus {N : String} (hN : N ≠ "")
    (hd : ∀ ch ∈ N.toList, isDigit ch = true) (ov max : Option Int) :
    resolveRelative ("-" ++ N) ov max
      = clampMax (addNumber ov (negate (parseInt N.toList))) max := by
  unfold resolveRelative
  rw [toList_minus, searchOperator_minus (toList_ne_nil hN) hd]
  simp

theorem resolveRelative_minus_minus {N : String} (hN : N ≠ "")
    (hd : ∀ ch ∈ N.toList, isDigit ch = true) (ov max : Option Int) :
    resolveRelative ("--" ++ N) ov max = negate (parseInt N.toList) := by
  unfold resolveRelative
  rw [toList_minus_minus, searchOperator_minus_minus (toList_ne_nil hN) hd]
  simp

theorem resolveRelative_bare {N : String} (hN : N ≠ "")
    (hd : ∀ ch ∈ N.toList, isDigit ch = true) (ov max : Option Int) :
    resolveRelative N ov max = clampMax (parseInt N.toList) max := by
  have hb : matchBareInteger N.toList = true := by
    have hne := toList_ne_nil hN
    simp only [matchBareInteger, Bool.and_eq_true, Bool.not_eq_true', List.all_eq_true]
    exact ⟨by cases h : N.toList with
      | nil => exact absurd h hne
      | cons c cs => rfl, hd⟩
  unfold resolveRelative
  rw [searchOperator_digits hd]
  simp only [hb, if_true]

theorem maxKey_relativeKeys {k : Key} (hk : k ∈ relativeKeys) : maxKey k = k := by
  simp only [relativeKeys, List.mem_cons, List.mem_singleton, List.not_mem_nil, or_false] at hk
  rcases hk with rfl | rfl | rfl | rfl <;> decide

theorem relativeEntry_relativeKey (item : Key → Option Int) {k : Key} (hk : k ∈ relativeKeys)
    (s : String) :
    relativeEntry item k (JSVal.str s) = Resolved.number (resolveRelative s (item k) none) := by
  simp [relativeEntry, hk, maxKey_relativeKeys hk]

theorem relativePass_get (item : Key → Option Int) (formData : List (Key × JSVal))
    (idx : Nat) {k : Key} {v : JSVal} (h : formData.get? idx = some (k, v)) :
    (relativePass item formData).get? idx = some (k, relativeEntry item k v) := by
  unfold relativePass
  rw [List.get?_eq_getElem?] at h ⊢
  rw [List.getElem?_map, h]
  rfl

/-- C7 as stated fails beyond the integers a double holds exactly: for the stored value
`10`, the input `+9007199254740993` (that is `2^53 + 1`) leaves `9007199254741002` under
the key, which is not `10 + 9007199254740993`. -/
theorem relative_add_is_rounded :
    relativeEntry (fun _ => some 10) ["data", "currency", "gp"]
        (JSVal.str "+9007199254740993")
      = Resolved.number (JSNumber.finite 9007199254741002) ∧
    relativeEntry (fun _ => some 10) ["data", "currency", "gp"]
        (JSVal.str "+9007199254740993")
      ≠ Resolved.number (JSNumber.finite (10 + 9007199254740993)) := by
  decide

/-- C7, amended. For a relative key `k` under which the item stores the number `c`, and a
non-empty string of decimal digits `N`, the raw input `+N` leaves `c + parseInt(N)` under
the key and the raw input `-N` leaves `c + -parseInt(N)`, both in double arithmetic and
without a ceiling. These are exactly `c + N` and `c - N` when `N`, `c` and the result are
below `2^53` in absolute value. In the pass over a whole form batch the entry at any
position `idx` that carries such an input is rewritten to that number, whatever the other
entries of the batch are: `c` comes from the stored item. -/
theorem relative_add_subtract (item : Key → Option Int) (formData : List (Key × JSVal))
    (k : Key) (N : String) (c : Int) (idx : Nat)
    (hk : k ∈ relativeKeys) (hc : item k = some c)
    (hN : N ≠ "") (hd : ∀ ch ∈ N.toList, isDigit ch = true) :
    (relativeEntry item k (JSVal.str ("+" ++ N)) = Resolved.number (addNumber (some c) (parseInt N.toList)) ∧
      relativeEntry item k (JSVal.str ("-" ++ N))
        = Resolved.number (addNumber (some c) (negate (parseInt N.toList)))) ∧
    (digitsValue N.toList < 2 ^ 53 → c.natAbs < 2 ^ 53 →
      ((c + (digitsValue N.toList : Int)).natAbs < 2 ^ 53 →
        relativeEntry item k (JSVal.str ("+" ++ N))
          = Resolved.number (JSNumber.finite (c + (digitsValue N.toList : Int)))) ∧
      ((c - (digitsValue N.toList : Int)).natAbs < 2 ^ 53 →
        relativeEntry item k (JSVal.str ("-" ++ N))
          = Resolved.number (JSNumber.finite (c - (digitsValue N.toList : Int))))) ∧
    (formData.get? idx = some (k, JSVal.str ("+" ++ N)) →
      (relativePass item formData).get? idx
        = some (k, Resolved.number (addNumber (some c) (parseInt N.toList)))) ∧
    (formData.get? idx = some (k, JSVal.str ("-" ++ N)) →
      (relativePass item formData).get? idx
        = some (k, Resolved.number (addNumber (some c) (negate (parseInt N.toList))))) := by
  have hplus : relativeEntry item k (JSVal.str ("+" ++ N))
      = Resolved.number (addNumber (some c) (parseInt N.toList)) := by
    rw [relativeEntry_relativeKey item hk, hc, resolveRelative_plus hN hd]; rfl
  have hminus : relativeEntry item k (JSVal.str ("-" ++ N))
      = Resolved.number (addNumber (some c) (negate (parseInt N.toList))) := by
    rw [relativeEntry_relativeKey item hk, hc, resolveRelative_minus hN hd]; rfl
  refine ⟨⟨hplus, hminus⟩, ?_, ?_, ?_⟩
  · intro hNb hcb
    constructor
    · intro hb
      rw [hplus, parseInt_exact hNb, addNumber_exact hcb hb]
    · intro hb
      rw [hminus, parseInt_exact hNb]
      simp only [negate]
      rw [addNumber_exact hcb (by rwa [← Int.sub_eq_add_neg]), Int.sub_eq_add_neg]
  · intro h
    rw [relativePass_get item formData idx h, hplus]
  · intro h
    rw [relativePass_get item formData idx h, hminus]

/-- C7, amended, at the stored value `10` and `N = 5`: `+5` gives `15` and `-5` gives `5`,
also inside a batch whose other entry edits another currency. -/
theorem relative_add_subtract_witness :
    relativeEntry (fun _ => some 10) ["data", "currency", "gp"] (JSVal.str "+5")
      = Resolved.number (JSNumber.finite 15) ∧
    relativeEntry (fun _ => some 10) ["data", "currency", "gp"] (JSVal.str "-5")
      = Resolved.number (JSNumber.finite 5) ∧
    (relativePass (fun _ => some 10)
        [(["data", "currency", "gp"], JSVal.str "+5"),
         (["data", "currency", "pp"], JSVal.str "-3")]).get? 0
      = some (["data", "currency", "gp"], Resolved.number (JSNumber.finite 15)) :=
  have h := relative_add_subtract (fun _ => some 10)
    [(["data", "currency", "gp"], JSVal.str "+5"),
     (["data", "currency", "pp"], JSVal.str "-3")]
    ["data", "currency", "gp"] "5" 10 0 (by decide) rfl (by decide) (by decide)
  ⟨(h.2.1 (by decide) (by decide)).1 (by decide),
   (h.2.1 (by decide) (by decide)).2 (by decide),
   h.2.2.1 rfl⟩

/-- C9. The operator pattern carries no anchor, so inputs that merely contain an operator
followed by digits are resolved as relative edits and not as `0`: against the stored value
`10`, `abc+5` gives `15`, `1-2` gives `8` and `+5x` gives `15`. Inputs without such a
substring do resolve to `0`, as does the empty string. -/
theorem malformed_input_not_zero :
    resolveRelative "abc+5" (some 10) none = JSNumber.finite 15 ∧
    resolveRelative "1-2" (some 10) none = JSNumber.finite 8 ∧
    resolveRelative "+5x" (some 10) none = JSNumber.finite 15 ∧
    resolveRelative "abc" (some 10) none = JSNumber.finite 0 ∧
    resolveRelative "" (some 10) none = JSNumber.finite 0 := by
  decide

/-- C10 as stated fails beyond the integers a double holds exactly: `--9007199254740993`
leaves `-9007199254740992` under the key. -/
theorem absolute_negative_is_rounded :
    relativeEntry (fun _ => some 10) ["data", "currency", "gp"]
        (JSVal.str "--9007199254740993") = Resolved.number (JSNumber.finite (-9007199254740992)) ∧
    relativeEntry (fun _ => some 10) ["data", "currency", "gp"]
        (JSVal.str "--9007199254740993") ≠ Resolved.number (JSNumber.finite (-9007199254740993)) := by
  decide

/-- C10, amended. For a non-empty string of decimal digits `N`, the raw input `--N`
resolves to `-parseInt(N)`, whatever the stored value and the ceiling are; this is exactly
`-N` when `N` is below `2^53`. -/
theorem absolute_negative_override (N : String) (originalValue max : Option Int)
    (item : Key → Option Int) (k : Key)
    (hN : N ≠ "") (hd : ∀ ch ∈ N.toList, isDigit ch = true) (hk : k ∈ relativeKeys) :
    resolveRelative ("--" ++ N) originalValue max = negate (parseInt N.toList) ∧
    relativeEntry item k (JSVal.str ("--" ++ N))
      = Resolved.number (negate (parseInt N.toList)) ∧
    (digitsValue N.toList < 2 ^ 53 →
      relativeEntry item k (JSVal.str ("--" ++ N))
        = Resolved.number (JSNumber.finite (-(digitsValue N.toList : Int)))) := by
  have h : relativeEntry item k (JSVal.str ("--" ++ N))
      = Resolved.number (negate (parseInt N.toList)) := by
    rw [relativeEntry_relativeKey item hk, resolveRelative_minus_minus hN hd]
  refine ⟨resolveRelative_minus_minus hN hd originalValue max, h, ?_⟩
  intro hb
  rw [h, parseInt_exact hb]
  rfl

/-- C10, amended, at `--4`: the result is `-4` against the stored value `10`, against no
stored value, and with a ceiling. -/
theorem absolute_negative_override_witness :
    relativeEntry (fun _ => some 10) ["data", "currency", "gp"] (JSVal.str "--4")
      = Resolved.number (JSNumber.finite (-4)) ∧
    relativeEntry (fun _ => none) ["data", "currency", "gp"] (JSVal.str "--4")
      = Resolved.number (JSNumber.finite (-4)) ∧
    resolveRelative "--4" (some 10) (some (-9)) = negate (parseInt "4".toList) :=
  ⟨(absolute_negative_override "4" none none (fun _ => some 10) ["data", "currency", "gp"]
      (by decide) (by decide) (by decide)).2.2 (by decide),
   (absolute_negative_override "4" none none (fun _ => none) ["data", "currency", "gp"]
      (by decide) (by decide) (by decide)).2.2 (by decide),
   (absolute_negative_override "4" (some 10) (some (-9)) (fun _ => none)
      ["data", "currency", "gp"] (by decide) (by decide) (by decide)).1⟩

/-- C12 as stated fails beyond the integers a double holds exactly: the input
`9007199254740993` leaves `9007199254740992` under the key. -/
theorem bare_integer_is_rounded :
    relativeEntry (fun _ => some 10) ["data", "currency", "gp"]
        (JSVal.str "9007199254740993") = Resolved.number (JSNumber.finite 9007199254740992) ∧
    relativeEntry (fun _ => some 10) ["data", "currency", "gp"]
        (JSVal.str "9007199254740993") ≠ Resolved.number (JSNumber.finite 9007199254740993) := by
  decide

/-- C12, amended. A raw input `N` that is a non-empty string of decimal digits resolves,
on a relative key, to `parseInt(N)`, whatever the stored value is (also when none is
stored); this is exactly the integer `N` when `N` is below `2^53`. -/
theorem bare_integer (N : String) (originalValue : Option Int)
    (item : Key → Option Int) (k : Key)
    (hN : N ≠ "") (hd : ∀ ch ∈ N.toList, isDigit ch = true) (hk : k ∈ relativeKeys) :
    resolveRelative N originalValue none = parseInt N.toList ∧
    relativeEntry item k (JSVal.str N) = Resolved.number (parseInt N.toList) ∧
    (digitsValue N.toList < 2 ^ 53 →
      relativeEntry item k (JSVal.str N) = Resolved.number (JSNumber.finite (digitsValue N.toList))) := by
  have h : relativeEntry item k (JSVal.str N) = Resolved.number (parseInt N.toList) := by
    rw [relativeEntry_relativeKey item hk, resolveRelative_bare hN hd]; rfl
  refine ⟨by rw [resolveRelative_bare hN hd]; rfl, h, ?_⟩
  intro hb
  rw [h, parseInt_exact hb]

/-- C12, amended, at the input `12`: the result is `12` against the stored value `10` and
against no stored value. -/
theorem bare_integer_witness :
    relativeEntry (fun _ => some 10) ["data", "currency", "gp"] (JSVal.str "12")
      = Resolved.number (JSNumber.finite 12) ∧
    relativeEntry (fun _ => none) ["data", "currency", "gp"] (JSVal.str "12")
      = Resolved.number (JSNumber.finite 12) :=
  ⟨(bare_integer "12" (some 10) (fun _ => some 10) ["data", "currency", "gp"]
      (by decide) (by decide) (by decide)).2.2 (by decide),
   (bare_integer "12" none (fun _ => none) ["data", "currency", "gp"]
      (by decide) (by decide) (by decide)).2.2 (by decide)⟩

/-! ## The claims on links -/

theorem filter_length_eq_zero {α : Type} (p : α → Bool) (l : List α) :
    (l.filter p).length = 0 ↔ ∀ o ∈ l, p o = false := by
  rw [List.length_eq_zero, List.filter_eq_nil_iff]
  simp

theorem canCreateLink_eq_true_iff (item : LinkItem) (linkType dataType : String)
    (itemData : Obj JSVal) (itemLink : String) (data : Option (Obj JSVal)) :
    canCreateLink item linkType dataType itemData itemLink data = true ↔
      lastSegment itemLink ≠ item._id ∧
      (∀ o ∈ item.links linkType, getProp o "id" ≠ some (LinkVal.prim (JSVal.str itemLink))) ∧
      ((linkType ∈ ["children", "charges", "ammunition"] ∧ sameActor item data = true) ∨
        (linkType = "classAssociations" ∧ dataType = "compendium")) := by
  unfold canCreateLink
  simp only
  by_cases hself : lastSegment itemLink = item._id
  · simp [hself]
  · by_cases hdup : ∀ o ∈ item.links linkType,
        getProp o "id" ≠ some (LinkVal.prim (JSVal.str itemLink))
    · have hlen : (List.filter (fun o =>
          decide (getProp o "id" = some (LinkVal.prim (JSVal.str itemLink))))
          (item.links linkType)).length = 0 := by
        rw [filter_length_eq_zero]
        intro o ho
        simpa using hdup o ho
      simp only [hself, if_false, hlen, ne_eq, not_true_eq_false, not_false_eq_true,
        true_and]
      constructor
      · intro h
        refine ⟨hdup, ?_⟩
        by_cases h1 : linkType ∈ ["children", "charges", "ammunition"] ∧
            sameActor item data = true
        · exact Or.inl h1
        · by_cases h2 : linkType = "classAssociations" ∧ dataType = "compendium"
          · exact Or.inr h2
          · rw [if_neg h1, if_neg h2] at h
            exact absurd h (by decide)
      · rintro ⟨-, h1 | h2⟩
        · rw [if_pos h1]
        · by_cases h1 : linkType ∈ ["children", "charges", "ammunition"] ∧
              sameActor item data = true
          · rw [if_pos h1]
          · rw [if_neg h1, if_pos h2]
    · have hlen : (List.filter (fun o =>
          decide (getProp o "id" = some (LinkVal.prim (JSVal.str itemLink))))
          (item.links linkType)).length ≠ 0 := by
        rw [Ne, filter_length_eq_zero]
        intro hall
        apply hdup
        intro o ho
        simpa using hall o ho
      simp [hself, hlen, hdup]

theorem sameActor_eq_true_iff (item : LinkItem) (data : Option (Obj JSVal)) :
    sameActor item data = true ↔
      ∃ actorId d, item.actor = some actorId ∧ data = some d ∧
        (getProp d "actorId").getD JSVal.undefined = actorId := by
  unfold sameActor
  cases ha : item.actor with
  | none => simp
  | some a =>
    cases data with
    | none => simp
    | some d => simp

/-- C13. `canCreateLink` returns `true` exactly when the last segment of `itemLink` is not
the item's id, no existing link of that link type has the id `itemLink`, and either the
link type is `children`, `charges` or `ammunition` and the drop data names the item's
actor, or the link type is `classAssociations` and the data type is `compendium`. For
every other link type it returns `false`. -/
theorem link_policy (item : LinkItem) (linkType dataType : String)
    (itemData : Obj JSVal) (itemLink : String) (data : Option (Obj JSVal)) :
    (canCreateLink item linkType dataType itemData itemLink data = true ↔
      lastSegment itemLink ≠ item._id ∧
      (∀ o ∈ item.links linkType, getProp o "id" ≠ some (LinkVal.prim (JSVal.str itemLink))) ∧
      ((linkType ∈ ["children", "charges", "ammunition"] ∧
          ∃ actorId d, item.actor = some actorId ∧ data = some d ∧
            (getProp d "actorId").getD JSVal.undefined = actorId) ∨
        (linkType = "classAssociations" ∧ dataType = "compendium"))) ∧
    (linkType ∉ ["children", "charges", "ammunition", "classAssociations"] →
      canCreateLink item linkType dataType itemData itemLink data = false) := by
  constructor
  · rw [canCreateLink_eq_true_iff, sameActor_eq_true_iff]
  · intro hother
    rw [← Bool.not_eq_true, canCreateLink_eq_true_iff]
    rintro ⟨-, -, ⟨hmem, -⟩ | ⟨hcls, -⟩⟩
    · apply hother
      simp only [List.mem_cons, List.mem_singleton, List.not_mem_nil, or_false] at hmem ⊢
      rcases hmem with h | h | h
      · exact Or.inl h
      · exact Or.inr (Or.inl h)
      · exact Or.inr (Or.inr (Or.inl h))
    · apply hother
      simp [hcls]

/-- C13 on the sample item: a link type outside the policy table is refused even for a
drop from the item's own actor. -/
theorem link_policy_witness :
    canCreateLink sampleLinkItem "supplements" "compendium" [] "item3"
      (some [("actorId", JSVal.str "actor1")]) = false :=
  (link_policy sampleLinkItem "supplements" "compendium" [] "item3"
    (some [("actorId", JSVal.str "actor1")])).2 (by decide)

/-- C14. Whatever the link type, the data type and the drop data are, `canCreateLink`
returns `false` when the last segment of `itemLink` is the id of the item itself. -/
theorem self_link_rejected (item : LinkItem) (linkType dataType : String)
    (itemData : Obj JSVal) (itemLink : String) (data : Option (Obj JSVal))
    (hself : lastSegment itemLink = item._id) :
    canCreateLink item linkType dataType itemData itemLink data = false := by
  rw [← Bool.not_eq_true, canCreateLink_eq_true_iff]
  exact fun h => h.1 hself

/-- C14 on the sample item `item1`: a drop of `item1` from its own actor is refused as
a child, and the compendium entry `pf1.items.item1` is refused as a class association. -/
theorem self_link_rejected_witness :
    canCreateLink sampleLinkItem "children" "data" [] "item1"
      (some [("actorId", JSVal.str "actor1")]) = false ∧
    canCreateLink sampleLinkItem "classAssociations" "compendium" [] "pf1.items.item1"
      none = false :=
  ⟨self_link_rejected sampleLinkItem "children" "data" [] "item1"
    (some [("actorId", JSVal.str "actor1")]) (by decide),
   self_link_rejected sampleLinkItem "classAssociations" "compendium" [] "pf1.items.item1"
    none (by decide)⟩

/-- C15. When the existing links of the link type hold a record whose id is `itemLink`,
`canCreateLink` returns `false`, whatever the data type and the actor are. The answer
reads the links of that link type only: replacing the lists of the other link types does
not change it. -/
theorem duplicate_rejected (item : LinkItem) (linkType dataType : String)
    (itemData : Obj JSVal) (itemLink : String) (data : Option (Obj JSVal)) :
    ((∃ o ∈ item.links linkType, getProp o "id" = some (LinkVal.prim (JSVal.str itemLink))) →
      canCreateLink item linkType dataType itemData itemLink data = false) ∧
    (∀ links' : String → List LinkRecord, links' linkType = item.links linkType →
      canCreateLink { item with links := links' } linkType dataType itemData itemLink data
        = canCreateLink item linkType dataType itemData itemLink data) := by
  constructor
  · rintro ⟨o, ho, hid⟩
    rw [← Bool.not_eq_true, canCreateLink_eq_true_iff]
    exact fun h => h.2.1 o ho hid
  · intro links' hl
    simp only [canCreateLink, sameActor, hl]

/-- C15 on the sample item, whose children hold `item2`: `item2` is refused as a child,
also from a compendium, and accepted as a charge link. -/
theorem duplicate_rejected_witness :
    canCreateLink sampleLinkItem "children" "compendium" [] "item2" none = false ∧
    canCreateLink sampleLinkItem "charges" "data" [] "item2"
      (some [("actorId", JSVal.str "actor1")]) = true :=
  ⟨(duplicate_rejected sampleLinkItem "children" "compendium" [] "item2" none).1
    ⟨[("id", LinkVal.prim (JSVal.str "item2")), ("dataType", LinkVal.prim (JSVal.str "data"))],
      by decide, by decide⟩,
   by decide⟩

theorem generateInitialLinkData_eq (linkType dataType : String) (itemData : Obj JSVal)
    (itemLink : String) :
    generateInitialLinkData linkType dataType itemData itemLink =
      [("id", LinkVal.prim (JSVal.str itemLink)),
       ("dataType", LinkVal.prim (JSVal.str dataType)),
       ("name", LinkVal.prim ((getProp itemData "name").getD JSVal.undefined)),
       ("img", LinkVal.prim ((getProp itemData "img").getD JSVal.undefined)),
       ("hiddenLinks", LinkVal.obj [])]
      ++ (if linkType = "classAssociations" then [("level", LinkVal.prim (JSVal.num 1))]
          else [])
      ++ (if linkType = "ammunition" then [("recoverChance", LinkVal.prim (JSVal.num 50))]
          else []) := by
  unfold generateInitialLinkData
  by_cases h1 : linkType = "classAssociations"
  · have h2 : linkType ≠ "ammunition" := by rw [h1]; decide
    simp [h1, setProp]
  · by_cases h2 : linkType = "ammunition"
    · simp [h2, setProp]
    · simp [h1, h2]

theorem generateInitialLinkData_id (linkType dataType : String) (itemData : Obj JSVal)
    (itemLink : String) :
    getProp (generateInitialLinkData linkType dataType itemData itemLink) "id"
      = some (LinkVal.prim (JSVal.str itemLink)) := by
  rw [generateInitialLinkData_eq]
  simp [getProp]

/-- C16. When the existing links of the link type have pairwise distinct ids, none of them
is a link of the item to itself, and `canCreateLink` returns `true` for `itemLink`, the
list extended by `generateInitialLinkData` still has pairwise distinct ids and holds no
link of the item to itself. -/
theorem link_ids_stay_unique (item : LinkItem) (linkType dataType : String)
    (itemData : Obj JSVal) (itemLink : String) (data : Option (Obj JSVal))
    (hdistinct : ((item.links linkType).map (fun o => getProp o "id")).Nodup)
    (hnoself : ∀ o ∈ item.links linkType, isSelfLink item o = false)
    (hcan : canCreateLink item linkType dataType itemData itemLink data = true) :
    ((item.links linkType ++ [generateInitialLinkData linkType dataType itemData itemLink]).map
        (fun o => getProp o "id")).Nodup ∧
    ∀ o ∈ item.links linkType ++ [generateInitialLinkData linkType dataType itemData itemLink],
      isSelfLink item o = false := by
  rw [canCreateLink_eq_true_iff] at hcan
  obtain ⟨hself, hdup, -⟩ := hcan
  constructor
  · rw [List.map_append, List.nodup_append]
    refine ⟨hdistinct, by simp, ?_⟩
    intro x hx hx'
    simp only [List.map_cons, List.map_nil, List.mem_singleton] at hx'
    rw [generateInitialLinkData_id] at hx'
    rw [List.mem_map] at hx
    obtain ⟨o, ho, hox⟩ := hx
    exact hdup o ho (by rw [hox, hx'])
  · intro o ho
    rw [List.mem_append, List.mem_singleton] at ho
    rcases ho with ho | ho
    · exact hnoself o ho
    · rw [ho]
      simp only [isSelfLink, generateInitialLinkData_id, decide_eq_false_iff_not]
      exact hself

/-- C16 on the sample item: adding `item3` to the children `item2`. -/
theorem link_ids_stay_unique_witness :
    ((sampleLinkItem.links "children" ++
        [generateInitialLinkData "children" "data" [] "item3"]).map
        (fun o => getProp o "id")).Nodup ∧
    ∀ o ∈ sampleLinkItem.links "children" ++
        [generateInitialLinkData "children" "data" [] "item3"],
      isSelfLink sampleLinkItem o = false :=
  link_ids_stay_unique sampleLinkItem "children" "data" [] "item3"
    (some [("actorId", JSVal.str "actor1")]) (by decide) (by decide) (by decide)

/-- C17. `generateInitialLinkData` returns the record with `id = itemLink`, the given
`dataType`, `name` and `img` read from `itemData` and an empty `hiddenLinks` object,
followed by `level = 1` when the link type is `classAssociations` and by
`recoverChance = 50` when it is `ammunition`; it has a `level` for no other link type and
a `recoverChance` for no other link type. -/
theorem initial_link_data (linkType dataType : String) (itemData : Obj JSVal)
    (itemLink : String) :
    generateInitialLinkData linkType dataType itemData itemLink =
      [("id", LinkVal.prim (JSVal.str itemLink)),
       ("dataType", LinkVal.prim (JSVal.str dataType)),
       ("name", LinkVal.prim ((getProp itemData "name").getD JSVal.undefined)),
       ("img", LinkVal.prim ((getProp itemData "img").getD JSVal.undefined)),
       ("hiddenLinks", LinkVal.obj [])]
      ++ (if linkType = "classAssociations" then [("level", LinkVal.prim (JSVal.num 1))]
          else [])
      ++ (if linkType = "ammunition" then [("recoverChance", LinkVal.prim (JSVal.num 50))]
          else []) ∧
    getProp (generateInitialLinkData linkType dataType itemData itemLink) "level"
      = (if linkType = "classAssociations" then some (LinkVal.prim (JSVal.num 1)) else none) ∧
    getProp (generateInitialLinkData linkType dataType itemData itemLink) "recoverChance"
      = (if linkType = "ammunition" then some (LinkVal.prim (JSVal.num 50)) else none) := by
  refine ⟨generateInitialLinkData_eq _ _ _ _, ?_, ?_⟩
  · rw [generateInitialLinkData_eq]
    by_cases h1 : linkType = "classAssociations"
    · simp [h1, getProp]
    · by_cases h2 : linkType = "ammunition"
      · simp [h2, getProp]
      · simp [h1, h2, getProp]
  · rw [generateInitialLinkData_eq]
    by_cases h1 : linkType = "classAssociations"
    · simp [h1, getProp]
    · by_cases h2 : linkType = "ammunition"
      · simp [h2, getProp]
      · simp [h1, h2, getProp]

/-! ### Arrays with holes, and the content of a tree -/

theorem setIdx_setIdx_same {α : Type} (a : JSArray α) (n : Nat) (x y : α) :
    setIdx (setIdx a n x) n y = setIdx a n y := by
  induction n generalizing a with
  | zero => cases a <;> rfl
  | succ n ih =>
    cases a with
    | nil => simp [setIdx, ih]
    | cons hd tl => simp [setIdx, ih]

theorem setIdx_comm {α : Type} (a : JSArray α) {n n' : Nat} (x y : α) (h : n ≠ n') :
    setIdx (setIdx a n x) n' y = setIdx (setIdx a n' y) n x := by
  induction n generalizing a n' with
  | zero =>
    cases n' with
    | zero => exact absurd rfl h
    | succ n' => cases a <;> simp [setIdx]
  | succ n ih =>
    cases n' with
    | zero => cases a <;> simp [setIdx]
    | succ n' =>
      have h' : n ≠ n' := fun e => h (by rw [e])
      cases a with
      | nil => simp [setIdx, ih [] h']
      | cons hd tl => simp [setIdx, ih tl h']

theorem map_setIdx {α β : Type} (f : α → β) (a : JSArray α) (n : Nat) (x : α) :
    (setIdx a n x).map (Option.map f) = setIdx (a.map (Option.map f)) n (f x) := by
  induction n generalizing a with
  | zero => cases a <;> simp [setIdx]
  | succ n ih =>
    cases a with
    | nil => simpa [setIdx] using ih []
    | cons hd tl => simpa [setIdx] using ih tl

theorem getIdx_map {α β : Type} (f : α → β) (a : JSArray α) (n : Nat) :
    getIdx (a.map (Option.map f)) n = (getIdx a n).map f := by
  induction n generalizing a with
  | zero => cases a <;> simp [getIdx]
  | succ n ih =>
    cases a with
    | nil => simp [getIdx]
    | cons hd tl => simpa [getIdx] using ih tl

theorem getProp_setProp_update {α : Type} (o : Obj α) (k : String) (v : α) :
    getProp (setProp o k v) = Function.update (getProp o) k (some v) := by
  funext name
  by_cases h : name = k
  · rw [h, getProp_setProp_same, Function.update_same]
  · rw [getProp_setProp_ne _ _ h, Function.update_noteq h]

theorem assignView_of_ne {β : Type} (f : String → Option β) {k : String} (x : β)
    (hk : k ≠ "__proto__") : assignView f k x = Function.update f k (some x) := by
  rw [assignView, if_neg hk]

theorem assignView_apply_same {β : Type} (f : String → Option β) {k : String} (x : β)
    (hk : k ≠ "__proto__") : assignView f k x k = some x := by
  rw [assignView_of_ne f x hk, Function.update_same]

theorem assignView_apply_ne {β : Type} (f : String → Option β) {k k' : String} (x : β)
    (h : k' ≠ k) : assignView f k x k' = f k' := by
  unfold assignView
  split
  · rfl
  · exact Function.update_noteq h _ _

theorem assignView_comm {β : Type} (f : String → Option β) {j j' : String} (x y : β)
    (h : j ≠ j') : assignView (assignView f j x) j' y = assignView (assignView f j' y) j x := by
  unfold assignView
  split <;> split <;> first | rfl | exact Function.update_comm h _ _ _

theorem assignView_update_comm {β : Type} (f : String → Option β) {j j' : String} (x : β)
    (y : Option β) (h : j ≠ j') :
    assignView (Function.update f j' y) j x = Function.update (assignView f j x) j' y := by
  unfold assignView
  split
  · rfl
  · exact Function.update_comm (Ne.symm h) _ _ _

theorem getProp_assignProp_view {α : Type} (o : Obj α) (k : String) (v : α) :
    getProp (assignProp o k v) = assignView (getProp o) k v := by
  unfold assignProp assignView
  split
  · rfl
  · exact getProp_setProp_update o k v

theorem viewConditional_assignProp (record : Conditional) (k : String) (v : CondVal) :
    viewConditional (assignProp record k v)
      = assignView (viewConditional record) k (viewCondVal v) := by
  funext name
  unfold viewConditional
  by_cases h : name = k
  · by_cases hk : k = "__proto__"
    · simp [assignProp, assignView, hk]
    · rw [h, getProp_assignProp_same _ _ hk, assignView_apply_same _ _ hk]; rfl
  · rw [getProp_assignProp_ne _ _ h, assignView_apply_ne _ _ h]

theorem viewConditional_setProp (record : Conditional) (k : String) (v : CondVal) :
    viewConditional (setProp record k v)
      = Function.update (viewConditional record) k (some (viewCondVal v)) := by
  funext name
  unfold viewConditional
  by_cases h : name = k
  · rw [h, getProp_setProp_same, Function.update_same]; rfl
  · rw [getProp_setProp_ne _ _ h, Function.update_noteq h]

theorem getIdx_viewTree (arr : JSArray Conditional) (n : Nat) :
    (getIdx (viewTree arr) n).getD (viewConditional defaultConditional)
      = viewConditional ((getIdx arr n).getD defaultConditional) := by
  unfold viewTree
  rw [getIdx_map]
  cases getIdx arr n <;> rfl

theorem getProp_updateModifier (cat : Catalog) (conds : List (Key × JSVal))
    (i j k : String) (v : JSVal) (md : Modifier) :
    getProp (updateModifier cat conds i j k v md)
      = assignView (getProp md) k (writtenValue cat conds i j k v) := by
  by_cases hk : k = "__proto__"
  · subst hk
    simp [updateModifier, assignProp, assignView]
  rw [assignView_of_ne _ _ hk]
  unfold writtenValue updateModifier
  simp only [assignProp_of_ne _ _ hk]
  split
  · split
    · split
      · simp [getProp_setProp_update, getProp_setProp_same]
      · simp [getProp_setProp_update, getProp_setProp_same]
    · simp [getProp_setProp_update, getProp_setProp_same]
  · simp [getProp_setProp_update, getProp_setProp_same]

theorem editOf_field (cat : Catalog) (conds : List (Key × JSVal)) {i j : String} {n : Nat}
    (v : JSVal) (hi : arrayIndex i = some n) :
    editOf cat conds (["data", "conditionals", i, j], v) = Edit.field n j v := by
  simp [editOf, hi]

theorem editOf_modifier (cat : Catalog) (conds : List (Key × JSVal)) {i j : String}
    {n m : Nat} (k : String) (v : JSVal)
    (hi : arrayIndex i = some n) (hj : arrayIndex j = some m) :
    editOf cat conds (modifierKey i j k, v)
      = Edit.modifier n m k (writtenValue cat conds i j k v) := by
  simp [editOf, modifierKey, hi, hj]

theorem modifiersOf_viewConditional {record : Conditional} {ms : JSArray Modifier}
    (h : getProp record "modifiers" = some (CondVal.mods ms)) :
    modifiersOf (viewConditional record) = ms.map (Option.map getProp) := by
  simp [modifiersOf, viewConditional, h, viewCondVal]

/-- One step of the fold on a well-shaped tree, for an entry with one of the sheet's
keys: the step succeeds, and the content of its result is the entry's edit applied to the
content of the tree. -/
theorem step_view (cat : Catalog) (conds : List (Key × JSVal)) {arr : JSArray Conditional}
    (hs : Shaped arr) {e : Key × JSVal} (hc : canonicalKey e.1 = true) :
    ∃ arr', conditionalStep cat conds arr e = some arr' ∧ Shaped arr' ∧
      viewTree arr' = applyEdit (viewTree arr) (editOf cat conds e) := by
  obtain ⟨key, v⟩ := e
  rcases canonicalKey_cases hc with
    ⟨i, j, n, hkey, hi, hj⟩ | ⟨i, j, k, n, m, hkey, hi, hj, hk⟩
  · simp only at hkey
    subst hkey
    obtain ⟨ms, hms⟩ := recordAt_shaped hs n
    have hms' : getProp (assignProp ((getIdx arr n).getD defaultConditional) j (CondVal.prim v))
        "modifiers" = some (CondVal.mods ms) := by
      rw [getProp_assignProp_ne _ _ (Ne.symm hj), hms]
    refine ⟨_, step_field arr v hi, shaped_setIdx hs n ⟨ms, hms'⟩, ?_⟩
    rw [editOf_field cat conds v hi]
    simp only [applyEdit, editRecord, Edit.index]
    rw [getIdx_viewTree]
    unfold viewTree
    rw [map_setIdx, viewConditional_assignProp]
    rfl
  · simp only at hkey
    subst hkey
    obtain ⟨ms, hms⟩ := recordAt_shaped hs n
    have hms' : getProp (setProp ((getIdx arr n).getD defaultConditional) "modifiers"
        (CondVal.mods (setIdx ms m (updateModifier cat conds i j k v
          ((getIdx ms m).getD defaultConditionalModifier))))) "modifiers"
        = some (CondVal.mods (setIdx ms m (updateModifier cat conds i j k v
          ((getIdx ms m).getD defaultConditionalModifier)))) := getProp_setProp_same _ _ _
    refine ⟨_, step_modifier arr v hi hj hk hms, shaped_setIdx hs n ⟨_, hms'⟩, ?_⟩
    rw [editOf_modifier cat conds k v hi hj]
    simp only [applyEdit, editRecord, Edit.index]
    rw [getIdx_viewTree, modifiersOf_viewConditional hms]
    have hmv : (getIdx (ms.map (Option.map getProp)) m).getD (getProp defaultConditionalModifier)
        = getProp ((getIdx ms m).getD defaultConditionalModifier) := by
      rw [getIdx_map]
      cases getIdx ms m <;> rfl
    rw [hmv]
    unfold viewTree
    rw [map_setIdx, viewConditional_setProp]
    simp only [viewCondVal, map_setIdx, getProp_updateModifier]

theorem fold_view (cat : Catalog) (conds : List (Key × JSVal)) (es : List (Key × JSVal)) :
    ∀ {arr : JSArray Conditional}, Shaped arr → (∀ e ∈ es, canonicalKey e.1 = true) →
    ∃ arr', es.foldlM (conditionalStep cat conds) arr = some arr' ∧ Shaped arr' ∧
      viewTree arr' = es.foldl (fun tv e => applyEdit tv (editOf cat conds e)) (viewTree arr) := by
  induction es with
  | nil =>
    intro arr hs _
    exact ⟨arr, rfl, hs, rfl⟩
  | cons e es ih =>
    intro arr hs hc
    obtain ⟨arr₁, h₁, hs₁, hv₁⟩ := step_view cat conds hs (hc e (List.mem_cons_self _ _))
    obtain ⟨arr₂, h₂, hs₂, hv₂⟩ := ih hs₁ (fun x hx => hc x (List.mem_cons_of_mem _ hx))
    refine ⟨arr₂, ?_, hs₂, ?_⟩
    · rw [List.foldlM_cons, h₁]
      exact h₂
    · rw [hv₂, hv₁, List.foldl_cons]

theorem modifiersOf_update_ne (rv : ConditionalView) {j : String} (x : Option CondValView)
    (h : j ≠ "modifiers") : modifiersOf (Function.update rv j x) = modifiersOf rv := by
  unfold modifiersOf
  rw [Function.update_noteq (Ne.symm h)]

theorem modifiersOf_assignView_ne (rv : ConditionalView) {j : String} (x : CondValView)
    (h : j ≠ "modifiers") : modifiersOf (assignView rv j x) = modifiersOf rv := by
  unfold modifiersOf
  rw [assignView_apply_ne _ _ (Ne.symm h)]

theorem modifiersOf_update_same (rv : ConditionalView) (ms : JSArray ModifierView) :
    modifiersOf (Function.update rv "modifiers" (some (CondValView.mods ms))) = ms := by
  unfold modifiersOf
  rw [Function.update_same]

theorem editRecord_comm (rv : ConditionalView) {ed₁ ed₂ : Edit}
    (hidx : ed₁.index = ed₂.index) (h : ed₁.Independent ed₂) :
    editRecord (editRecord rv ed₁) ed₂ = editRecord (editRecord rv ed₂) ed₁ := by
  cases ed₁ with
  | field n j v =>
    cases ed₂ with
    | field n' j' v' =>
      have hj : j ≠ j' := by
        rcases h with h | h
        · exact absurd hidx h
        · exact h
      simp only [editRecord]
      exact assignView_comm _ _ _ hj
    | modifier n' m' k' w' =>
      have hj : j ≠ "modifiers" := by
        rcases h with h | h
        · exact absurd hidx h
        · exact h
      simp only [editRecord]
      rw [modifiersOf_assignView_ne _ _ hj]
      exact (assignView_update_comm _ _ _ hj).symm
  | modifier n m k w =>
    cases ed₂ with
    | field n' j' v' =>
      have hj : j' ≠ "modifiers" := by
        rcases h with h | h
        · exact absurd hidx h
        · exact h
      simp only [editRecord]
      rw [modifiersOf_assignView_ne _ _ hj]
      exact assignView_update_comm _ _ _ hj
    | modifier n' m' k' w' =>
      simp only [editRecord, modifiersOf_update_same, Function.update_idem]
      by_cases hm : m = m'
      · subst hm
        have hk : k ≠ k' := by
          rcases h with h | h | h
          · exact absurd hidx h
          · exact absurd rfl h
          · exact h
        simp only [getIdx_setIdx_same, Option.getD_some, setIdx_setIdx_same]
        rw [assignView_comm _ _ _ hk]
      · have hm' : m' ≠ m := fun e => hm e.symm
        rw [getIdx_setIdx_ne _ _ hm', getIdx_setIdx_ne _ _ hm, setIdx_comm _ _ _ hm]

theorem applyEdit_comm (tv : TreeView) {ed₁ ed₂ : Edit} (h : ed₁.Independent ed₂) :
    applyEdit (applyEdit tv ed₁) ed₂ = applyEdit (applyEdit tv ed₂) ed₁ := by
  unfold applyEdit
  by_cases hidx : ed₁.index = ed₂.index
  · rw [← hidx]
    simp only [getIdx_setIdx_same, Option.getD_some, setIdx_setIdx_same]
    rw [editRecord_comm _ hidx h]
  · have hidx' : ed₂.index ≠ ed₁.index := fun e => hidx e.symm
    rw [getIdx_setIdx_ne _ _ hidx', getIdx_setIdx_ne _ _ hidx, setIdx_comm _ _ _ hidx]

theorem editOf_independent (cat : Catalog) (conds : List (Key × JSVal)) {x y : Key × JSVal}
    (hx : canonicalKey x.1 = true) (hy : canonicalKey y.1 = true) (hne : x.1 ≠ y.1) :
    (editOf cat conds x).Independent (editOf cat conds y) := by
  obtain ⟨kx, vx⟩ := x
  obtain ⟨ky, vy⟩ := y
  simp only at hx hy hne
  rcases canonicalKey_cases hx with
    ⟨i, j, n, hkx, hi, hj⟩ | ⟨i, j, k, n, m, hkx, hi, hj, -⟩ <;>
  rcases canonicalKey_cases hy with
    ⟨i', j', n', hky, hi', hj'⟩ | ⟨i', j', k', n', m', hky, hi', hj', -⟩
  · subst hkx hky
    rw [editOf_field cat conds vx hi, editOf_field cat conds vy hi']
    by_cases hn : n = n'
    · right
      intro hjj
      subst hn
      exact hne (by rw [arrayIndex_inj hi hi', hjj])
    · exact Or.inl hn
  · subst hkx hky
    rw [editOf_field cat conds vx hi, editOf_modifier cat conds k' vy hi' hj']
    exact Or.inr hj
  · subst hkx hky
    rw [editOf_modifier cat conds k vx hi hj, editOf_field cat conds vy hi']
    exact Or.inr hj'
  · subst hkx hky
    rw [editOf_modifier cat conds k vx hi hj, editOf_modifier cat conds k' vy hi' hj']
    by_cases hn : n = n'
    · by_cases hm : m = m'
      · right; right
        intro hkk
        subst hn hm
        exact hne (by rw [arrayIndex_inj hi hi', arrayIndex_inj hj hj', hkk])
      · exact Or.inr (Or.inl hm)
    · exact Or.inl hn

theorem findTarget_of_not_mem {conds : List (Key × JSVal)} {i j : String}
    (h : ∀ w, (targetKey i j, w) ∉ conds) : findTarget conds i j = JSVal.undefined := by
  unfold findTarget
  have : conds.find? (fun o => decide (o.1 = targetKey i j)) = none := by
    rw [List.find?_eq_none]
    intro o ho
    simp only [decide_eq_true_eq]
    intro hk
    exact h o.2 (by rw [← hk]; exact ho)
  rw [this]

theorem findTarget_perm {conds conds' : List (Key × JSVal)} (hp : conds'.Perm conds)
    (hnd : (conds.map Prod.fst).Nodup) (i j : String) :
    findTarget conds' i j = findTarget conds i j := by
  have hnd' : (conds'.map Prod.fst).Nodup := (hp.map Prod.fst).nodup_iff.mpr hnd
  by_cases h : ∃ w, (targetKey i j, w) ∈ conds
  · obtain ⟨w, hw⟩ := h
    rw [findTarget_of_mem hnd hw, findTarget_of_mem hnd' (hp.mem_iff.mpr hw)]
  · have h1 : ∀ w, (targetKey i j, w) ∉ conds := fun w hw => h ⟨w, hw⟩
    have h2 : ∀ w, (targetKey i j, w) ∉ conds' := fun w hw => h ⟨w, hp.mem_iff.mp hw⟩
    rw [findTarget_of_not_mem h1, findTarget_of_not_mem h2]

theorem editOf_congr (cat : Catalog) {conds conds' : List (Key × JSVal)}
    (h : ∀ i j, findTarget conds' i j = findTarget conds i j) (e : Key × JSVal) :
    editOf cat conds' e = editOf cat conds e := by
  simp only [editOf, writtenValue, updateModifier, h]

/-- The content of the tree the fold returns for a well-formed batch: the edits of the
batch's conditional entries applied, in order, to the empty tree. -/
theorem conditionalsPass_view (cat : Catalog) {formData : List (Key × JSVal)}
    (hwf : WellFormed formData) :
    ∃ tree, conditionalsPass cat formData = some tree ∧ Shaped tree ∧
      viewTree tree = (formData.filter (fun e => isConditionalKey e.1)).foldl
        (fun tv e => applyEdit tv
          (editOf cat (formData.filter (fun e => isConditionalKey e.1)) e)) [] := by
  obtain ⟨tree, h, hs, hv⟩ := fold_view cat (formData.filter (fun e => isConditionalKey e.1))
    (formData.filter (fun e => isConditionalKey e.1)) shaped_nil (wellFormed_filter hwf).2
  exact ⟨tree, h, hs, hv⟩

/-- C18 as stated fails: distinct keys do not make the fold independent of the order.
The keys `data.conditionals.0.name` and `data.conditionalsX.0.name` both pass the filter
and both write the name of record 0, so the entry folded last wins. The key
`data.conditionals.0.modifiers` replaces the modifiers list of record 0: folded before an
edit of a modifier of that record it makes the fold raise an error, folded after it the
fold returns. Also for keys of the sheet's shape the order shows in the tree: a record
lists the properties `foo` and `bar` in the order in which their entries were folded. -/
theorem order_dependence :
    (conditionalsPass sampleCatalog
        [(["data", "conditionals", "0", "name"], JSVal.str "A"),
         (["data", "conditionalsX", "0", "name"], JSVal.str "B")]).map
      (fun tree => (getIdx tree 0).map (fun record => getProp record "name"))
      = some (some (some (CondVal.prim (JSVal.str "B")))) ∧
    (conditionalsPass sampleCatalog
        [(["data", "conditionalsX", "0", "name"], JSVal.str "B"),
         (["data", "conditionals", "0", "name"], JSVal.str "A")]).map
      (fun tree => (getIdx tree 0).map (fun record => getProp record "name"))
      = some (some (some (CondVal.prim (JSVal.str "A")))) ∧
    conditionalsPass sampleCatalog
        [(["data", "conditionals", "0", "modifiers"], JSVal.str "x"),
         (modifierKey "0" "0" "target", JSVal.str "attack")] = none ∧
    conditionalsPass sampleCatalog
        [(modifierKey "0" "0" "target", JSVal.str "attack"),
         (["data", "conditionals", "0", "modifiers"], JSVal.str "x")]
      = some [some [("default", CondVal.prim (JSVal.bool false)),
          ("name", CondVal.prim (JSVal.str "")),
          ("modifiers", CondVal.prim (JSVal.str "x"))]] ∧
    conditionalsPass sampleCatalog
        [(["data", "conditionals", "0", "foo"], JSVal.str "x"),
         (["data", "conditionals", "0", "bar"], JSVal.str "y")]
      = some [some [("default", CondVal.prim (JSVal.bool false)),
          ("name", CondVal.prim (JSVal.str "")), ("modifiers", CondVal.mods []),
          ("foo", CondVal.prim (JSVal.str "x")), ("bar", CondVal.prim (JSVal.str "y"))]] ∧
    conditionalsPass sampleCatalog
        [(["data", "conditionals", "0", "bar"], JSVal.str "y"),
         (["data", "conditionals", "0", "foo"], JSVal.str "x")]
      = some [some [("default", CondVal.prim (JSVal.bool false)),
          ("name", CondVal.prim (JSVal.str "")), ("modifiers", CondVal.mods []),
          ("bar", CondVal.prim (JSVal.str "y")), ("foo", CondVal.prim (JSVal.str "x"))]] := by
  refine ⟨by decide, by decide, by decide, by decide, by decide, by decide⟩

/-- C18, amended. For a batch of conditional edits whose keys are pairwise distinct and
have the sheet's shape (`WellFormed`), folding the entries in any other order returns too,
and the two trees have the same content: the same length, the same holes and, in every
record and modifier, the same value for every property. -/
theorem order_independence (cat : Catalog) (formData order : List (Key × JSVal))
    (hwf : WellFormed formData) (hperm : order.Perm formData) :
    ∃ t₁ t₂, conditionalsPass cat formData = some t₁ ∧ conditionalsPass cat order = some t₂ ∧
      viewTree t₁ = viewTree t₂ := by
  have hwf' := wellFormed_perm hperm hwf
  obtain ⟨t₁, h₁, -, hv₁⟩ := conditionalsPass_view cat hwf
  obtain ⟨t₂, h₂, -, hv₂⟩ := conditionalsPass_view cat hwf'
  refine ⟨t₁, t₂, h₁, h₂, ?_⟩
  have hp : (order.filter (fun e => isConditionalKey e.1)).Perm
      (formData.filter (fun e => isConditionalKey e.1)) := hperm.filter _
  obtain ⟨hnd, hcan⟩ := wellFormed_filter hwf
  obtain ⟨hnd', hcan'⟩ := wellFormed_filter hwf'
  have hf : (fun (tv : TreeView) (e : Key × JSVal) => applyEdit tv
        (editOf cat (order.filter (fun e => isConditionalKey e.1)) e))
      = (fun tv e => applyEdit tv
        (editOf cat (formData.filter (fun e => isConditionalKey e.1)) e)) := by
    funext tv e
    rw [editOf_congr cat (findTarget_perm hp hnd) e]
  rw [hv₁, hv₂, hf]
  symm
  apply List.Perm.foldl_eq' hp
  intro x hx y hy tv
  by_cases hxy : x = y
  · rw [hxy]
  · have hk : x.1 ≠ y.1 := fun hk => hxy (List.inj_on_of_nodup_map hnd' hx hy hk)
    exact applyEdit_comm tv (editOf_independent cat _ (hcan' x hx) (hcan' y hy) hk)

/-- C18, amended, on a batch of four edits of two conditionals, enumerated in reverse. -/
theorem order_independence_witness :
    ∃ t₁ t₂,
      conditionalsPass sampleCatalog
        [(["data", "conditionals", "0", "name"], JSVal.str "Flanking"),
         (modifierKey "0" "0" "target", JSVal.str "attack"),
         (modifierKey "0" "0" "subTarget", JSVal.str "bogus"),
         (modifierKey "1" "0" "formula", JSVal.str "2")] = some t₁ ∧
      conditionalsPass sampleCatalog
        [(modifierKey "1" "0" "formula", JSVal.str "2"),
         (modifierKey "0" "0" "subTarget", JSVal.str "bogus"),
         (modifierKey "0" "0" "target", JSVal.str "attack"),
         (["data", "conditionals", "0", "name"], JSVal.str "Flanking")] = some t₂ ∧
      viewTree t₁ = viewTree t₂ :=
  order_independence sampleCatalog
    [(["data", "conditionals", "0", "name"], JSVal.str "Flanking"),
     (modifierKey "0" "0" "target", JSVal.str "attack"),
     (modifierKey "0" "0" "subTarget", JSVal.str "bogus"),
     (modifierKey "1" "0" "formula", JSVal.str "2")]
    [(modifierKey "1" "0" "formula", JSVal.str "2"),
     (modifierKey "0" "0" "subTarget", JSVal.str "bogus"),
     (modifierKey "0" "0" "target", JSVal.str "attack"),
     (["data", "conditionals", "0", "name"], JSVal.str "Flanking")]
    (by decide) (by decide)

/-- C19 as stated fails: the tree that the fold builds for one edited conditional is not
what the fold returns for a later batch without conditional edits. -/
theorem empty_batch_drops_stored_tree :
    conditionalsPass sampleCatalog
        [(["data", "conditionals", "0", "name"], JSVal.str "Flanking")]
      = some [some [("default", CondVal.prim (JSVal.bool false)),
          ("name", CondVal.prim (JSVal.str "Flanking")), ("modifiers", CondVal.mods [])]] ∧
    conditionalsPass sampleCatalog [(["name"], JSVal.str "Sword")]
      ≠ some [some [("default", CondVal.prim (JSVal.bool false)),
          ("name", CondVal.prim (JSVal.str "Flanking")), ("modifiers", CondVal.mods [])]] := by
  decide

/-- C19, amended. For a form batch without conditional edits the fold returns the empty
list: it starts from `[]` and reads no stored tree. -/
theorem empty_batch_yields_empty_list (cat : Catalog) (formData : List (Key × JSVal))
    (hnone : ∀ e ∈ formData, isConditionalKey e.1 = false) :
    conditionalsPass cat formData = some [] := by
  have hf : formData.filter (fun e => isConditionalKey e.1) = [] := by
    rw [List.filter_eq_nil_iff]
    intro e he
    simp [hnone e he]
  unfold conditionalsPass
  simp only [hf]
  rfl

/-- C19, amended, on a batch that edits the name and a currency of the item. -/
theorem empty_batch_yields_empty_list_witness :
    conditionalsPass sampleCatalog
      [(["name"], JSVal.str "Sword"), (["data", "currency", "gp"], JSVal.str "+5")]
      = some [] :=
  empty_batch_yields_empty_list sampleCatalog
    [(["name"], JSVal.str "Sword"), (["data", "currency", "gp"], JSVal.str "+5")]
    (by decide)

/-- C20 as stated fails: for the single edit `data.conditionals.2.0.target` the array has
length 3, but its indices 0 and 1 are holes and not default-shaped records. -/
theorem sparse_lower_indices_are_holes :
    (conditionalsPass sampleCatalog [(modifierKey "2" "0" "target", JSVal.str "attack")]).map
      (fun tree => tree.length) = some 3 ∧
    (conditionalsPass sampleCatalog [(modifierKey "2" "0" "target", JSVal.str "attack")]).map
      (fun tree => getIdx tree 0) = some none ∧
    (conditionalsPass sampleCatalog [(modifierKey "2" "0" "target", JSVal.str "attack")]).map
      (fun tree => getIdx tree 1) = some none ∧
    (conditionalsPass sampleCatalog [(modifierKey "2" "0" "target", JSVal.str "attack")]).map
      (fun tree => getIdx tree 0) ≠ some (some defaultConditional) := by
  refine ⟨by decide, by decide, by decide, by decide⟩

theorem editOf_index (cat : Catalog) (conds : List (Key × JSVal)) (e : Key × JSVal) :
    (editOf cat conds e).index = (arrayIndex ((e.1.get? 2).getD "undefined")).getD 0 := by
  unfold editOf
  simp only
  split <;> rfl

theorem getIdx_applyEdit_ne (tv : TreeView) (ed : Edit) {n : Nat} (h : ed.index ≠ n) :
    getIdx (applyEdit tv ed) n = getIdx tv n := by
  unfold applyEdit
  exact getIdx_setIdx_ne _ _ (Ne.symm h)

theorem getIdx_foldl_applyEdit (f : Key × JSVal → Edit) (es : List (Key × JSVal)) {n : Nat}
    (h : ∀ e ∈ es, (f e).index ≠ n) (tv : TreeView) :
    getIdx (es.foldl (fun tv e => applyEdit tv (f e)) tv) n = getIdx tv n := by
  induction es generalizing tv with
  | nil => rfl
  | cons e es ih =>
    rw [List.foldl_cons, ih (fun x hx => h x (List.mem_cons_of_mem _ hx)),
      getIdx_applyEdit_ne _ _ (h e (List.mem_cons_self _ _))]

theorem arrayIndex_of_canonicalKey {key : Key} (h : canonicalKey key = true) :
    ∃ n, arrayIndex ((key.get? 2).getD "undefined") = some n := by
  rcases canonicalKey_cases h with ⟨i, j, n, hkey, hi, -⟩ | ⟨i, j, k, n, m, hkey, hi, -⟩
  · subst hkey; exact ⟨n, by simpa using hi⟩
  · subst hkey; exact ⟨n, by simpa [modifierKey] using hi⟩

/-- C20, amended. For the single edit `data.conditionals.2.0.target` with value `v` the
fold returns an array of length 3 whose indices 0 and 1 are holes and whose index 2 is a
default-shaped record with one modifier, a default modifier with target `v`. In general,
in the tree of a well-formed batch every index that no entry of the batch edits is a
hole. -/
theorem sparse_materialisation (cat : Catalog) (v : JSVal) (formData : List (Key × JSVal))
    (n : Nat) (hwf : WellFormed formData)
    (hunedited : ∀ e ∈ formData, isConditionalKey e.1 = true →
      arrayIndex ((e.1.get? 2).getD "undefined") ≠ some n) :
    conditionalsPass cat [(modifierKey "2" "0" "target", v)]
      = some [none, none,
          some [("default", CondVal.prim (JSVal.bool false)),
            ("name", CondVal.prim (JSVal.str "")),
            ("modifiers", CondVal.mods
              [some [("formula", JSVal.str ""), ("target", v), ("subTarget", JSVal.str ""),
                ("type", JSVal.str ""), ("critical", JSVal.str "")]])]] ∧
    ∃ tree, conditionalsPass cat formData = some tree ∧ getIdx tree n = none := by
  constructor
  · rfl
  · obtain ⟨tree, h, -, hv⟩ := conditionalsPass_view cat hwf
    refine ⟨tree, h, ?_⟩
    have hview : getIdx (viewTree tree) n = none := by
      rw [hv, getIdx_foldl_applyEdit]
      · rfl
      · intro e he
        rw [List.mem_filter] at he
        obtain ⟨m, hm⟩ := arrayIndex_of_canonicalKey (hwf.2 e he.1 he.2)
        rw [editOf_index, hm]
        intro hmn
        apply hunedited e he.1 he.2
        rw [hm]
        exact congrArg some hmn
    unfold viewTree at hview
    rw [getIdx_map] at hview
    cases hg : getIdx tree n with
    | none => rfl
    | some r => rw [hg] at hview; cases hview

/-- C20, amended, on a batch that edits the conditionals 0 and 3: index 1 is a hole. -/
theorem sparse_materialisation_witness :
    conditionalsPass sampleCatalog [(modifierKey "2" "0" "target", JSVal.str "attack")]
      = some [none, none,
          some [("default", CondVal.prim (JSVal.bool false)),
            ("name", CondVal.prim (JSVal.str "")),
            ("modifiers", CondVal.mods
              [some [("formula", JSVal.str ""), ("target", JSVal.str "attack"),
                ("subTarget", JSVal.str ""), ("type", JSVal.str ""),
                ("critical", JSVal.str "")]])]] ∧
    ∃ tree, conditionalsPass sampleCatalog
        [(["data", "conditionals", "0", "name"], JSVal.str "Flanking"),
         (modifierKey "3" "0" "formula", JSVal.str "2")] = some tree ∧
      getIdx tree 1 = none :=
  sparse_materialisation sampleCatalog (JSVal.str "attack")
    [(["data", "conditionals", "0", "name"], JSVal.str "Flanking"),
     (modifierKey "3" "0" "formula", JSVal.str "2")] 1 (by decide) (by decide)

/-! ## The remaining claims on `_updateObject`, `_onDrop` and `_onBuffControl` -/

/-- C22. A dropped conditional that passes the surface check, with a modifier of target
`attack` and the sub-target `bogus` (not among `atk1`, `atk2`), is appended with that
sub-target unchanged: the loop computes the replacement `atk1` in its variable `v` and
never writes it to the modifier. -/
theorem dropped_modifier_fields_not_reset :
    surfaceCheck
      [("default", CondVal.prim (JSVal.bool false)), ("name", CondVal.prim (JSVal.str "c")),
       ("modifiers", CondVal.mods [some [("target", JSVal.str "attack"),
          ("subTarget", JSVal.str "bogus")]])] = true ∧
    onDrop ["attack", "damage"] []
      [("default", CondVal.prim (JSVal.bool false)), ("name", CondVal.prim (JSVal.str "c")),
       ("modifiers", CondVal.mods [some [("target", JSVal.str "attack"),
          ("subTarget", JSVal.str "bogus")]])]
      = some [[("default", CondVal.prim (JSVal.bool false)),
          ("name", CondVal.prim (JSVal.str "c")),
          ("modifiers", CondVal.mods [some [("target", JSVal.str "attack"),
            ("subTarget", JSVal.str "bogus")]])]] ∧
    dropLoopBody sampleCatalog [("target", JSVal.str "attack"), ("subTarget", JSVal.str "bogus")]
      none ("subTarget", JSVal.str "bogus") = (some ["atk1", "atk2"], JSVal.str "atk1") := by
  decide

/-- C25. For each of the four relative keys the sibling key derived for the ceiling is
the key itself, so the entry of such a key is resolved without a ceiling, whatever the
item stores (two items that store the same value under the key give the same result):
`+N`, `-N` and `N` leave the unclamped `c + parseInt(N)`, `c + -parseInt(N)` and
`parseInt(N)`. An entry whose key is not one of the four, or whose value is not a string,
is left as it is, by the loop body and by the pass over a whole batch. -/
theorem ceiling_never_in_effect (item item' : Key → Option Int)
    (formData : List (Key × JSVal))
    (k : Key) (s N : String) (idx : Nat) (k' : Key) (v' : JSVal)
    (hk : k ∈ relativeKeys) (hsame : item' k = item k)
    (hN : N ≠ "") (hd : ∀ ch ∈ N.toList, isDigit ch = true)
    (hother : k' ∉ relativeKeys ∨ ∀ s', v' ≠ JSVal.str s') :
    maxKey k = k ∧
    relativeEntry item k (JSVal.str s)
      = Resolved.number (resolveRelative s (item k) none) ∧
    relativeEntry item' k (JSVal.str s) = relativeEntry item k (JSVal.str s) ∧
    relativeEntry item k (JSVal.str ("+" ++ N)) = Resolved.number (addNumber (item k) (parseInt N.toList)) ∧
    relativeEntry item k (JSVal.str ("-" ++ N))
      = Resolved.number (addNumber (item k) (negate (parseInt N.toList))) ∧
    relativeEntry item k (JSVal.str N) = Resolved.number (parseInt N.toList) ∧
    relativeEntry item k' v' = Resolved.unchanged v' ∧
    (formData.get? idx = some (k', v') →
      (relativePass item formData).get? idx = some (k', Resolved.unchanged v')) := by
  have hmax := maxKey_relativeKeys hk
  have hentry := relativeEntry_relativeKey item hk
  have hkeep : relativeEntry item k' v' = Resolved.unchanged v' := by
    rcases hother with h | h
    · cases v' <;> simp [relativeEntry, h]
    · cases v' with
      | str t => exact absurd rfl (h t)
      | undefined => rfl
      | null => rfl
      | bool b => rfl
      | num x => rfl
  refine ⟨hmax, hentry s, ?_, ?_, ?_, ?_, hkeep, ?_⟩
  · rw [hentry, relativeEntry_relativeKey item' hk, hsame]
  · rw [hentry, resolveRelative_plus hN hd]; rfl
  · rw [hentry, resolveRelative_minus hN hd]; rfl
  · rw [hentry, resolveRelative_bare hN hd]; rfl
  · intro h
    rw [relativePass_get item formData idx h, hkeep]

/-- C25 at the key `data.currency.gp` with the stored value `10`, whatever else the item
stores, and an entry `name` that the pass leaves alone. -/
theorem ceiling_never_in_effect_witness :
    maxKey ["data", "currency", "gp"] = ["data", "currency", "gp"] ∧
    relativeEntry (fun key => if key = ["data", "currency", "gp"] then some 10 else some 3)
        ["data", "currency", "gp"] (JSVal.str "+50")
      = relativeEntry (fun _ => some 10) ["data", "currency", "gp"] (JSVal.str "+50") ∧
    relativeEntry (fun _ => some 10) ["name"] (JSVal.str "+5") = Resolved.unchanged (JSVal.str "+5") ∧
    (relativePass (fun _ => some 10) [(["name"], JSVal.str "+5")]).get? 0
      = some (["name"], Resolved.unchanged (JSVal.str "+5")) :=
  have h := ceiling_never_in_effect (fun _ => some 10)
    (fun key => if key = ["data", "currency", "gp"] then some 10 else some 3)
    [(["name"], JSVal.str "+5")] ["data", "currency", "gp"] "+50" "50" 0
    ["name"] (JSVal.str "+5") (by decide) (by decide) (by decide) (by decide)
    (Or.inl (by decide))
  ⟨h.1, h.2.2.1, h.2.2.2.2.2.2.1, h.2.2.2.2.2.2.2 rfl⟩

theorem findTarget_not_str {conds : List (Key × JSVal)} {i j : String}
    (h : ∀ t, (targetKey i j, JSVal.str t) ∉ conds) (t : String) :
    findTarget conds i j ≠ JSVal.str t := by
  unfold findTarget
  cases hf : conds.find? (fun o => decide (o.1 = targetKey i j)) with
  | none => simp
  | some o =>
    simp only
    intro ho
    have hmem := List.mem_of_find?_eq_some hf
    have hkey : o.1 = targetKey i j := by simpa using List.find?_some hf
    apply h t
    rw [← hkey, ← ho]
    exact hmem

theorem getProp_updateModifier_no_target (cat : Catalog) (conds : List (Key × JSVal))
    {i j : String} {k : String} (v : JSVal) (md : Modifier)
    (h : ∀ t, findTarget conds i j ≠ JSVal.str t) (hk : k ≠ "__proto__") :
    getProp (updateModifier cat conds i j k v md) k = some v := by
  unfold updateModifier
  rw [assignProp_of_ne _ _ hk]
  cases hft : findTarget conds i j with
  | str t => exact absurd hft (h t)
  | undefined => simp only; split <;> exact getProp_setProp_same _ _ _
  | null => simp only; split <;> exact getProp_setProp_same _ _ _
  | bool b => simp only; split <;> exact getProp_setProp_same _ _ _
  | num x => simp only; split <;> exact getProp_setProp_same _ _ _

theorem getProp_updateModifier_other (cat : Catalog) (conds : List (Key × JSVal))
    (i j : String) {k : String} (v : JSVal) (md : Modifier)
    (hk : k ∉ ["subTarget", "critical", "type"]) (hk' : k ≠ "__proto__") :
    getProp (updateModifier cat conds i j k v md) k = some v := by
  unfold updateModifier
  simp only [if_neg hk]
  exact getProp_assignProp_same _ _ hk'

/-- C26. In a well-formed batch that sets a dependent field `k` (`subTarget`, `type` or
`critical`) of modifier `(i, j)` to `v` and holds no string-valued entry
`data.conditionals.i.j.target`, the fold returns a tree in which that field is `v`,
whatever `v` and the catalog are. A target value `w` is stored as it is. -/
theorem no_validation_without_target (cat : Catalog) (formData : List (Key × JSVal))
    (i j : String) (n m : Nat)
    (hwf : WellFormed formData)
    (hi : arrayIndex i = some n) (hj : arrayIndex j = some m) :
    (∀ k v, (k = "subTarget" ∨ k = "type" ∨ k = "critical") →
      (modifierKey i j k, v) ∈ formData →
      (∀ t, (modifierKey i j "target", JSVal.str t) ∉ formData) →
      ∃ tree, conditionalsPass cat formData = some tree ∧
        modifierField tree n m k = some v) ∧
    (∀ w, (modifierKey i j "target", w) ∈ formData →
      ∃ tree, conditionalsPass cat formData = some tree ∧
        modifierField tree n m "target" = some w) := by
  constructor
  · intro k v hk hval hnone
    have hk' : k ≠ "__proto__" := by rcases hk with rfl | rfl | rfl <;> decide
    obtain ⟨tree, md, hpass, -, hfield⟩ := conditionalsPass_modifier cat hwf hval hi hj hk'
    refine ⟨tree, hpass, ?_⟩
    rw [hfield]
    apply getProp_updateModifier_no_target _ _ _ _ _ hk'
    apply findTarget_not_str
    intro t ht
    exact hnone t (List.mem_filter.mp ht).1
  · intro w hval
    obtain ⟨tree, md, hpass, -, hfield⟩ :=
      conditionalsPass_modifier cat hwf hval hi hj (by decide)
    refine ⟨tree, hpass, ?_⟩
    rw [hfield]
    exact getProp_updateModifier_other cat _ i j w md (by decide) (by decide)

/-- C26 on a batch without a target entry, whose sub-target `bogus` is kept, and on a
batch with the unrecognised target `nowhere`, which is kept. -/
theorem no_validation_without_target_witness :
    (∃ tree, conditionalsPass sampleCatalog
        [(modifierKey "0" "0" "subTarget", JSVal.str "bogus")] = some tree ∧
      modifierField tree 0 0 "subTarget" = some (JSVal.str "bogus")) ∧
    (∃ tree, conditionalsPass sampleCatalog
        [(modifierKey "0" "0" "target", JSVal.str "nowhere")] = some tree ∧
      modifierField tree 0 0 "target" = some (JSVal.str "nowhere")) :=
  ⟨(no_validation_without_target sampleCatalog
      [(modifierKey "0" "0" "subTarget", JSVal.str "bogus")] "0" "0" 0 0
      (by decide) (by decide) (by decide)).1 "subTarget" (JSVal.str "bogus")
      (Or.inl rfl) (by decide) (by intro t ht; simp [modifierKey] at ht),
   (no_validation_without_target sampleCatalog
      [(modifierKey "0" "0" "target", JSVal.str "nowhere")] "0" "0" 0 0
      (by decide) (by decide) (by decide)).2 (JSVal.str "nowhere") (by decide)⟩

/-- C27. With the stored changes `a`, `b`, `c`, deleting `b` submits `a`, `c`. Deleting an
id that no stored change has does not submit the stored list: `indexOf` gives `-1` and
`splice(-1, 1)` removes the last change. -/
theorem delete_unknown_change_removes_last :
    deleteChange [[("_id", JSVal.str "a")], [("_id", JSVal.str "b")], [("_id", JSVal.str "c")]]
      "b" = [[("_id", JSVal.str "a")], [("_id", JSVal.str "c")]] ∧
    deleteChange [[("_id", JSVal.str "a")], [("_id", JSVal.str "b")]] "zzz"
      = [[("_id", JSVal.str "a")]] ∧
    deleteChange [[("_id", JSVal.str "a")], [("_id", JSVal.str "b")]] "zzz"
      ≠ [[("_id", JSVal.str "a")], [("_id", JSVal.str "b")]] := by
  decide

/-! ### A batch and the same batch without one entry -/

theorem applyEdit_comm_of_mem (cat : Catalog) (c : List (Key × JSVal))
    {l : List (Key × JSVal)} (hnd : (l.map Prod.fst).Nodup)
    (hcan : ∀ e ∈ l, canonicalKey e.1 = true) :
    ∀ x ∈ l, ∀ y ∈ l, ∀ tv : TreeView,
      applyEdit (applyEdit tv (editOf cat c x)) (editOf cat c y)
        = applyEdit (applyEdit tv (editOf cat c y)) (editOf cat c x) := by
  intro x hx y hy tv
  by_cases hxy : x = y
  · rw [hxy]
  · have hk : x.1 ≠ y.1 := fun hk => hxy (List.inj_on_of_nodup_map hnd hx hy hk)
    exact applyEdit_comm tv (editOf_independent cat c (hcan x hx) (hcan y hy) hk)

theorem wellFormed_removeEntry {formData : List (Key × JSVal)} (hwf : WellFormed formData)
    (e : Key × JSVal) : WellFormed (removeEntry formData e) :=
  ⟨hwf.1.sublist ((List.filter_sublist _).map _),
   fun x hx => hwf.2 x (List.mem_filter.mp hx).1⟩

theorem perm_cons_removeEntry {l : List (Key × JSVal)} (hnd : l.Nodup) {e : Key × JSVal}
    (he : e ∈ l) : l.Perm (e :: removeEntry l e) := by
  unfold removeEntry
  induction l with
  | nil => cases he
  | cons x xs ih =>
    rw [List.nodup_cons] at hnd
    by_cases hx : x = e
    · subst hx
      have hxs : xs.filter (fun y => decide (y ≠ x)) = xs := by
        rw [List.filter_eq_self]
        intro y hy
        simp only [ne_eq, decide_not, Bool.not_eq_true', decide_eq_false_iff_not]
        intro hyx
        exact hnd.1 (hyx ▸ hy)
      have hf : (x :: xs).filter (fun y => decide (y ≠ x)) = xs := by
        rw [List.filter_cons_of_neg (by simp), hxs]
      rw [hf]
    · have he' : e ∈ xs := by
        rcases List.mem_cons.mp he with h | h
        · exact absurd h.symm hx
        · exact h
      have hf : (x :: xs).filter (fun y => decide (y ≠ e))
          = x :: xs.filter (fun y => decide (y ≠ e)) := by
        simp [List.filter_cons, hx]
      rw [hf]
      exact ((ih hnd.2 he').cons x).trans (List.Perm.swap _ _ _)

theorem findTarget_cons_ne {e : Key × JSVal} (conds : List (Key × JSVal)) {i j : String}
    (h : e.1 ≠ targetKey i j) : findTarget (e :: conds) i j = findTarget conds i j := by
  simp [findTarget, List.find?_cons, h]

/-- The tree of a well-formed batch has the content of the tree of the batch without one
of its conditional entries (not a target entry), with the edit of that entry applied. -/
theorem conditionalsPass_removeEntry (cat : Catalog) {formData : List (Key × JSVal)}
    (hwf : WellFormed formData) {e : Key × JSVal} (he : e ∈ formData)
    (hc : isConditionalKey e.1 = true) (hnt : ∀ i j, e.1 ≠ targetKey i j) :
    ∃ t t', conditionalsPass cat formData = some t ∧
      conditionalsPass cat (removeEntry formData e) = some t' ∧
      viewTree t = applyEdit (viewTree t')
        (editOf cat (formData.filter (fun x => isConditionalKey x.1)) e) := by
  have hwf' := wellFormed_removeEntry hwf e
  obtain ⟨t, h, -, hv⟩ := conditionalsPass_view cat hwf
  obtain ⟨t', h', -, hv'⟩ := conditionalsPass_view cat hwf'
  refine ⟨t, t', h, h', ?_⟩
  obtain ⟨hnd, hcan⟩ := wellFormed_filter hwf
  have hp : (formData.filter (fun x => isConditionalKey x.1)).Perm
      (e :: (removeEntry formData e).filter (fun x => isConditionalKey x.1)) := by
    have := (perm_cons_removeEntry (List.Nodup.of_map _ hwf.1) he).filter
      (fun x => isConditionalKey x.1)
    rw [List.filter_cons_of_pos (by simpa using hc)] at this
    exact this
  have hft : ∀ i j,
      findTarget ((removeEntry formData e).filter (fun x => isConditionalKey x.1)) i j
        = findTarget (formData.filter (fun x => isConditionalKey x.1)) i j := by
    intro i j
    rw [← findTarget_cons_ne _ (hnt i j)]
    exact findTarget_perm hp.symm hnd i j
  have hf : (fun (tv : TreeView) (x : Key × JSVal) => applyEdit tv
        (editOf cat ((removeEntry formData e).filter (fun x => isConditionalKey x.1)) x))
      = (fun tv x => applyEdit tv
        (editOf cat (formData.filter (fun x => isConditionalKey x.1)) x)) := by
    funext tv x
    rw [editOf_congr cat hft x]
  have hp' : (formData.filter (fun x => isConditionalKey x.1)).Perm
      ((removeEntry formData e).filter (fun x => isConditionalKey x.1) ++ [e]) :=
    hp.trans (List.perm_append_singleton _ _).symm
  rw [hv, hv', hf, List.Perm.foldl_eq' hp' (applyEdit_comm_of_mem cat _ hnd hcan),
    List.foldl_append]
  rfl

theorem viewCondVal_eq_prim {x : CondVal} {v : JSVal}
    (h : viewCondVal x = CondValView.prim v) : x = CondVal.prim v := by
  cases x with
  | prim w => simp only [viewCondVal, CondValView.prim.injEq] at h; rw [h]
  | mods ms => simp [viewCondVal] at h

theorem field_of_view {t : JSArray Conditional} {tv : TreeView} {n : Nat} {j : String}
    {v : JSVal} (hj : j ≠ "__proto__") (h : viewTree t = applyEdit tv (Edit.field n j v)) :
    ∃ record, getIdx t n = some record ∧ getProp record j = some (CondVal.prim v) := by
  have hg : getIdx (viewTree t) n = some (Function.update
      ((getIdx tv n).getD (viewConditional defaultConditional)) j
      (some (CondValView.prim v))) := by
    rw [h]
    simp only [applyEdit, Edit.index, editRecord, assignView_of_ne _ _ hj]
    exact getIdx_setIdx_same _ _ _
  unfold viewTree at hg
  rw [getIdx_map] at hg
  cases hr : getIdx t n with
  | none => rw [hr] at hg; cases hg
  | some record =>
    refine ⟨record, rfl, ?_⟩
    rw [hr] at hg
    simp only [Option.map_some', Option.some.injEq] at hg
    have hj := congrFun hg j
    rw [Function.update_same] at hj
    unfold viewConditional at hj
    cases hp : getProp record j with
    | none => rw [hp] at hj; cases hj
    | some x =>
      rw [hp] at hj
      simp only [Option.map_some', Option.some.injEq] at hj
      rw [viewCondVal_eq_prim hj]

theorem field_edit_view (cat : Catalog) {formData : List (Key × JSVal)}
    (hwf : WellFormed formData) {i j : String} {n : Nat} {v : JSVal}
    (hmem : (["data", "conditionals", i, j], v) ∈ formData) (hi : arrayIndex i = some n) :
    ∃ t t', conditionalsPass cat formData = some t ∧
      conditionalsPass cat (removeEntry formData (["data", "conditionals", i, j], v)) = some t' ∧
      viewTree t = applyEdit (viewTree t') (Edit.field n j v) := by
  obtain ⟨t, t', h, h', hv⟩ := conditionalsPass_removeEntry cat hwf hmem
    (by simp [isConditionalKey]) (by intro i' j'; simp [targetKey])
  rw [editOf_field cat _ v hi] at hv
  exact ⟨t, t', h, h', hv⟩

theorem writtenValue_other (cat : Catalog) (conds : List (Key × JSVal)) (i j : String)
    {k : String} (v : JSVal) (hk : k ∉ ["subTarget", "critical", "type"])
    (hk' : k ≠ "__proto__") : writtenValue cat conds i j k v = v := by
  unfold writtenValue
  rw [getProp_updateModifier_other cat conds i j v [] hk hk']
  rfl

theorem applyEdit_modifier_proto (tv : TreeView) (n m : Nat) (w w' : JSVal) :
    applyEdit tv (Edit.modifier n m "__proto__" w)
      = applyEdit tv (Edit.modifier n m "__proto__" w') := by
  simp [applyEdit, editRecord, assignView, Edit.index]

theorem modifier_edit_view (cat : Catalog) {formData : List (Key × JSVal)}
    (hwf : WellFormed formData) {i j k : String} {n m : Nat} {v : JSVal}
    (hmem : (modifierKey i j k, v) ∈ formData)
    (hi : arrayIndex i = some n) (hj : arrayIndex j = some m)
    (hk : k ∉ ["subTarget", "critical", "type"]) (hkt : k ≠ "target") :
    ∃ t t', conditionalsPass cat formData = some t ∧
      conditionalsPass cat (removeEntry formData (modifierKey i j k, v)) = some t' ∧
      viewTree t = applyEdit (viewTree t') (Edit.modifier n m k v) ∧
      (k ≠ "__proto__" → modifierField t n m k = some v) := by
  obtain ⟨t, t', h, h', hv⟩ := conditionalsPass_removeEntry cat hwf hmem
    (isConditionalKey_modifierKey i j k)
    (by intro i' j'; simp only [modifierKey, targetKey, ne_eq, List.cons.injEq, and_true,
          true_and, not_and]; intro _ _; exact hkt)
  rw [editOf_modifier cat _ k v hi hj] at hv
  refine ⟨t, t', h, h', ?_, ?_⟩
  · by_cases hk' : k = "__proto__"
    · subst hk'
      rw [hv]
      exact applyEdit_modifier_proto _ _ _ _ _
    · rw [hv, writtenValue_other cat _ i j v hk hk']
  · intro hk'
    obtain ⟨tree, md, hpass, -, hfield⟩ := conditionalsPass_modifier cat hwf hmem hi hj hk'
    have htree : tree = t := Option.some.inj (hpass.symm.trans h)
    subst htree
    rw [hfield, getProp_updateModifier_other cat _ i j v md hk hk']

/-! ### The fields of a modifier that the batch does not edit -/

theorem viewModifierAt_applyEdit (tv : TreeView) (ed : Edit) {n m : Nat} {k' : String}
    (w : JSVal) (h : ed.Independent (Edit.modifier n m k' w)) :
    viewModifierAt (applyEdit tv ed) n m k' = viewModifierAt tv n m k' := by
  unfold viewModifierAt applyEdit
  by_cases hidx : ed.index = n
  · rw [hidx, getIdx_setIdx_same, Option.getD_some]
    cases ed with
    | field n₁ j v =>
      have hj : j ≠ "modifiers" := by
        rcases h with h | h
        · exact absurd hidx h
        · exact h
      simp only [editRecord]
      rw [modifiersOf_assignView_ne _ _ hj]
    | modifier n₁ m₁ k₁ w₁ =>
      simp only [editRecord, modifiersOf_update_same]
      by_cases hm : m₁ = m
      · have hk : k' ≠ k₁ := by
          rcases h with h | h | h
          · exact absurd hidx h
          · exact absurd hm h
          · exact Ne.symm h
        rw [hm, getIdx_setIdx_same, Option.getD_some, assignView_apply_ne _ _ hk]
      · rw [getIdx_setIdx_ne _ _ (Ne.symm hm)]
  · rw [getIdx_setIdx_ne _ _ (Ne.symm hidx)]

theorem viewModifierAt_applyEdit_proto (tv : TreeView) (n m : Nat) (w : JSVal) :
    viewModifierAt (applyEdit tv (Edit.modifier n m "__proto__" w)) n m
      = viewModifierAt tv n m := by
  simp [viewModifierAt, applyEdit, editRecord, assignView, Edit.index, getIdx_setIdx_same,
    modifiersOf_update_same]

theorem viewModifierAt_foldl (f : Key × JSVal → Edit) (es : List (Key × JSVal))
    {n m : Nat} {k' : String} (w : JSVal)
    (h : ∀ e ∈ es, (f e).Independent (Edit.modifier n m k' w)) (tv : TreeView) :
    viewModifierAt (es.foldl (fun tv e => applyEdit tv (f e)) tv) n m k'
      = viewModifierAt tv n m k' := by
  induction es generalizing tv with
  | nil => rfl
  | cons e es ih =>
    rw [List.foldl_cons, ih (fun x hx => h x (List.mem_cons_of_mem _ hx)),
      viewModifierAt_applyEdit _ _ w (h e (List.mem_cons_self _ _))]

theorem viewModifierAt_nil (n m : Nat) :
    viewModifierAt [] n m = getProp defaultConditionalModifier := by
  simp [viewModifierAt, getIdx_nil, modifiersOf, viewConditional, defaultConditional, getProp,
    viewCondVal]

theorem editOf_independent_modifier (cat : Catalog) (c : List (Key × JSVal))
    {x : Key × JSVal} (hx : canonicalKey x.1 = true) {i j k' : String} {n m : Nat}
    (hi : arrayIndex i = some n) (hj : arrayIndex j = some m)
    (hne : x.1 ≠ modifierKey i j k') (w : JSVal) :
    (editOf cat c x).Independent (Edit.modifier n m k' w) := by
  obtain ⟨kx, vx⟩ := x
  simp only at hx hne
  rcases canonicalKey_cases hx with
    ⟨i₁, j₁, n₁, hkx, hi₁, hj₁⟩ | ⟨i₁, j₁, k₁, n₁, m₁, hkx, hi₁, hj₁, -⟩
  · subst hkx
    rw [editOf_field cat c vx hi₁]
    exact Or.inr hj₁
  · subst hkx
    rw [editOf_modifier cat c k₁ vx hi₁ hj₁]
    by_cases hn : n₁ = n
    · by_cases hm : m₁ = m
      · right; right
        intro hkk
        subst hn hm
        exact hne (by rw [arrayIndex_inj hi₁ hi, arrayIndex_inj hj₁ hj, hkk])
      · exact Or.inr (Or.inl hm)
    · exact Or.inl hn

theorem modifierField_eq_view {tree : JSArray Conditional} {n m : Nat} {k : String}
    {v : JSVal} (h : modifierField tree n m k = some v) (k' : String) :
    modifierField tree n m k' = viewModifierAt (viewTree tree) n m k' := by
  unfold modifierField at h
  cases hg : getIdx tree n with
  | none => rw [hg] at h; cases h
  | some record =>
    rw [hg] at h
    simp only at h
    cases hp : getProp record "modifiers" with
    | none => rw [hp] at h; cases h
    | some x =>
      cases x with
      | prim p => rw [hp] at h; cases h
      | mods ms =>
        rw [hp] at h
        simp only at h
        cases hm : getIdx ms m with
        | none => rw [hm] at h; cases h
        | some md =>
          have h1 : modifierField tree n m k' = getProp md k' := by
            simp [modifierField, hg, hp, hm]
          have h2 : viewModifierAt (viewTree tree) n m = getProp md := by
            unfold viewModifierAt viewTree
            rw [getIdx_map, hg]
            simp only [Option.map_some', Option.getD_some]
            rw [modifiersOf_viewConditional hp, getIdx_map, hm]
            rfl
          rw [h1, h2]

theorem modifiersAt_of_field {t t' : JSArray Conditional} {n : Nat} {j : String} {v : JSVal}
    (hj : j ≠ "modifiers") (hv : viewTree t = applyEdit (viewTree t') (Edit.field n j v))
    (n' : Nat) : modifiersAt t n' = modifiersAt t' n' := by
  unfold modifiersAt
  rw [hv]
  simp only [applyEdit, Edit.index, editRecord]
  by_cases hn : n' = n
  · rw [hn, getIdx_setIdx_same, Option.getD_some, modifiersOf_assignView_ne _ _ hj]
  · rw [getIdx_setIdx_ne _ _ hn]

/-- C21 as stated fails: the edit `data.conditionals.0.foo`, whose leaf name is not in the
schema, is written to the record, and so is `data.conditionals.0.0.foo` to the modifier;
the tree differs from the tree of the batch without that edit. An edit of the field
`modifiers` of a record replaces the list, and a later edit of one of its modifiers then
raises an error. -/
theorem unknown_field_not_ignored :
    conditionalsPass sampleCatalog
        [(["data", "conditionals", "0", "name"], JSVal.str "Flanking"),
         (["data", "conditionals", "0", "foo"], JSVal.str "x")]
      = some [some [("default", CondVal.prim (JSVal.bool false)),
          ("name", CondVal.prim (JSVal.str "Flanking")), ("modifiers", CondVal.mods []),
          ("foo", CondVal.prim (JSVal.str "x"))]] ∧
    conditionalsPass sampleCatalog
        [(["data", "conditionals", "0", "name"], JSVal.str "Flanking")]
      = some [some [("default", CondVal.prim (JSVal.bool false)),
          ("name", CondVal.prim (JSVal.str "Flanking")), ("modifiers", CondVal.mods [])]] ∧
    conditionalsPass sampleCatalog
        [(["data", "conditionals", "0", "name"], JSVal.str "Flanking"),
         (["data", "conditionals", "0", "foo"], JSVal.str "x")]
      ≠ conditionalsPass sampleCatalog
        [(["data", "conditionals", "0", "name"], JSVal.str "Flanking")] ∧
    (conditionalsPass sampleCatalog
        [(modifierKey "0" "0" "formula", JSVal.str "1"),
         (modifierKey "0" "0" "foo", JSVal.str "x")]).map
      (fun tree => modifierField tree 0 0 "foo") = some (some (JSVal.str "x")) ∧
    conditionalsPass sampleCatalog
        [(["data", "conditionals", "0", "modifiers"], JSVal.str "x"),
         (modifierKey "0" "0" "formula", JSVal.str "1")] = none := by
  refine ⟨by decide, by decide, by decide, by decide, by decide⟩

/-- C21, amended. In a well-formed batch an edit whose leaf name is not in the schema
raises no error, and it is written unless the name is `__proto__`. For a field `j` of
conditional `i` other than `name`, `default` and `modifiers`, and for a field `k` of
modifier `(i, j)` other than `target`, `subTarget`, `type`, `critical` and `formula`: the
fold returns for the batch and for the batch without the edit, and the tree of the batch
has the content of the other tree with the edit applied, the record and the modifier being
created from the defaults when the other tree lacks them. When the name is not
`__proto__` the field holds the submitted value `v`; when it is, nothing is written: the
record, or every field of the modifier, is as in the other tree (or as in the defaults). -/
theorem unknown_field_written (cat : Catalog) (formData : List (Key × JSVal))
    (i j : String) (n : Nat) (hwf : WellFormed formData) (hi : arrayIndex i = some n) :
    (∀ v, j ∉ ["name", "default", "modifiers"] →
      (["data", "conditionals", i, j], v) ∈ formData →
      ∃ t t', conditionalsPass cat formData = some t ∧
        conditionalsPass cat (removeEntry formData (["data", "conditionals", i, j], v))
          = some t' ∧
        viewTree t = applyEdit (viewTree t') (Edit.field n j v) ∧
        (j ≠ "__proto__" →
          ∃ record, getIdx t n = some record ∧ getProp record j = some (CondVal.prim v)) ∧
        (j = "__proto__" →
          viewTree t = setIdx (viewTree t') n
            ((getIdx (viewTree t') n).getD (viewConditional defaultConditional)))) ∧
    (∀ k v m, k ∉ ["target", "subTarget", "type", "critical", "formula"] →
      arrayIndex j = some m → (modifierKey i j k, v) ∈ formData →
      ∃ t t', conditionalsPass cat formData = some t ∧
        conditionalsPass cat (removeEntry formData (modifierKey i j k, v)) = some t' ∧
        viewTree t = applyEdit (viewTree t') (Edit.modifier n m k v) ∧
        (k ≠ "__proto__" → modifierField t n m k = some v) ∧
        (k = "__proto__" →
          viewModifierAt (viewTree t) n m = viewModifierAt (viewTree t') n m)) := by
  constructor
  · intro v _ hmem
    obtain ⟨t, t', h, h', hv⟩ := field_edit_view cat hwf hmem hi
    refine ⟨t, t', h, h', hv, fun hj => field_of_view hj hv, ?_⟩
    intro hj
    rw [hv, hj]
    simp [applyEdit, editRecord, assignView, Edit.index]
  · intro k v m hk hj hmem
    have hk1 : k ∉ ["subTarget", "critical", "type"] := by
      intro hin
      apply hk
      simp only [List.mem_cons, List.mem_singleton, List.not_mem_nil, or_false] at hin ⊢
      rcases hin with h | h | h
      · exact Or.inr (Or.inl h)
      · exact Or.inr (Or.inr (Or.inr (Or.inl h)))
      · exact Or.inr (Or.inr (Or.inl h))
    have hk2 : k ≠ "target" := by
      intro h
      apply hk
      simp [h]
    obtain ⟨t, t', h, h', hv, hf⟩ := modifier_edit_view cat hwf hmem hi hj hk1 hk2
    refine ⟨t, t', h, h', hv, hf, ?_⟩
    intro hk'
    rw [hv, hk']
    exact viewModifierAt_applyEdit_proto _ _ _ _

/-- C21, amended, on the batch that edits `name` and the unknown field `foo` of
conditional 0. -/
theorem unknown_field_written_witness :
    ∃ t t', conditionalsPass sampleCatalog
        [(["data", "conditionals", "0", "name"], JSVal.str "Flanking"),
         (["data", "conditionals", "0", "foo"], JSVal.str "x")] = some t ∧
      conditionalsPass sampleCatalog
        (removeEntry
          [(["data", "conditionals", "0", "name"], JSVal.str "Flanking"),
           (["data", "conditionals", "0", "foo"], JSVal.str "x")]
          (["data", "conditionals", "0", "foo"], JSVal.str "x")) = some t' ∧
      viewTree t = applyEdit (viewTree t') (Edit.field 0 "foo" (JSVal.str "x")) ∧
      ∃ record, getIdx t 0 = some record ∧
        getProp record "foo" = some (CondVal.prim (JSVal.str "x")) :=
  ((unknown_field_written sampleCatalog
    [(["data", "conditionals", "0", "name"], JSVal.str "Flanking"),
     (["data", "conditionals", "0", "foo"], JSVal.str "x")] "0" "foo" 0
    (by decide) (by decide)).1 (JSVal.str "x") (by decide) (by decide)).imp
    (fun _ ht => ht.imp (fun _ hx => ⟨hx.1, hx.2.1, hx.2.2.1, hx.2.2.2.1 (by decide)⟩))

/-- C23 as stated fails. The edit `data.conditionals.0.modifiers` replaces the modifiers
list of the record by its value: the list is altered by that edit. The edits
`data.conditionals.0.0.__proto__` and `data.conditionals.0.__proto__` store nothing: the
modifier and the record hold no such field. Another field of the modifier with an entry of
its own does not always hold the value of that entry: the sub-target `bogus` is reset to
the first legal key of the target `attack`. -/
theorem depth_routing_exceptions :
    conditionalsPass sampleCatalog
        [(modifierKey "0" "0" "formula", JSVal.str "2"),
         (["data", "conditionals", "0", "modifiers"], JSVal.str "x")]
      = some [some [("default", CondVal.prim (JSVal.bool false)),
          ("name", CondVal.prim (JSVal.str "")),
          ("modifiers", CondVal.prim (JSVal.str "x"))]] ∧
    conditionalsPass sampleCatalog [(modifierKey "0" "0" "formula", JSVal.str "2")]
      = some [some [("default", CondVal.prim (JSVal.bool false)),
          ("name", CondVal.prim (JSVal.str "")),
          ("modifiers", CondVal.mods
            [some [("formula", JSVal.str "2"), ("target", JSVal.str ""),
              ("subTarget", JSVal.str ""), ("type", JSVal.str ""),
              ("critical", JSVal.str "")]])]] ∧
    (conditionalsPass sampleCatalog [(modifierKey "0" "0" "__proto__", JSVal.str "x")]).map
      (fun tree => modifierField tree 0 0 "__proto__") = some none ∧
    (conditionalsPass sampleCatalog
        [(["data", "conditionals", "0", "__proto__"], JSVal.str "x")]).map
      (fun tree => (getIdx tree 0).map (fun record => getProp record "__proto__"))
      = some (some none) ∧
    (conditionalsPass sampleCatalog
        [(modifierKey "0" "0" "formula", JSVal.str "2"),
         (modifierKey "0" "0" "target", JSVal.str "attack"),
         (modifierKey "0" "0" "subTarget", JSVal.str "bogus")]).map
      (fun tree => modifierField tree 0 0 "subTarget") = some (some (JSVal.str "atk1")) := by
  refine ⟨by decide, by decide, by decide, by decide, by decide⟩

/-- C23, amended. In a well-formed batch, an edit `data.conditionals.i.j.k` with value `v`,
`k` not a dependent field and not `__proto__`, makes field `k` of modifier `j` of record
`i` hold `v`; every other field `k'` of that modifier holds the value written for its own
entry of the batch (the entry's value, or the first legal key after a reset) when the
batch has one, and its default otherwise. An edit `data.conditionals.i.j` with value `v`,
`j` not `__proto__` (and not `modifiers`, which no key of a well-formed batch names),
makes field `j` of record `i` hold `v`, and the modifiers list of every record has the
content it has in the tree of the batch without that edit. -/
theorem depth_routing (cat : Catalog) (formData : List (Key × JSVal))
    (i j : String) (n : Nat) (hwf : WellFormed formData) (hi : arrayIndex i = some n) :
    (∀ k v m, k ∉ ["subTarget", "critical", "type"] → k ≠ "__proto__" →
      arrayIndex j = some m → (modifierKey i j k, v) ∈ formData →
      ∃ tree, conditionalsPass cat formData = some tree ∧
        modifierField tree n m k = some v ∧
        ∀ k', k' ≠ k →
          (∀ v', k' ≠ "__proto__" → (modifierKey i j k', v') ∈ formData →
            modifierField tree n m k' = some (writtenValue cat
              (formData.filter (fun e => isConditionalKey e.1)) i j k' v')) ∧
          ((∀ v', (modifierKey i j k', v') ∉ formData) →
            modifierField tree n m k' = getProp defaultConditionalModifier k')) ∧
    (∀ v, j ≠ "__proto__" → (["data", "conditionals", i, j], v) ∈ formData →
      ∃ t t', conditionalsPass cat formData = some t ∧
        conditionalsPass cat (removeEntry formData (["data", "conditionals", i, j], v))
          = some t' ∧
        (∃ record, getIdx t n = some record ∧ getProp record j = some (CondVal.prim v)) ∧
        ∀ n', modifiersAt t n' = modifiersAt t' n') := by
  constructor
  · intro k v m hk hk' hj hmem
    obtain ⟨tree, h, -, hv⟩ := conditionalsPass_view cat hwf
    obtain ⟨tree₁, md, hpass, -, hfield⟩ := conditionalsPass_modifier cat hwf hmem hi hj hk'
    have htree : tree₁ = tree := Option.some.inj (hpass.symm.trans h)
    subst htree
    have hkv : modifierField tree₁ n m k = some v := by
      rw [hfield, getProp_updateModifier_other cat _ i j v md hk hk']
    refine ⟨tree₁, h, hkv, ?_⟩
    intro k' _
    constructor
    · intro v' hk'' hmem'
      obtain ⟨tree₂, md', hpass', -, hfield'⟩ :=
        conditionalsPass_modifier cat hwf hmem' hi hj hk''
      have htree' : tree₂ = tree₁ := Option.some.inj (hpass'.symm.trans h)
      subst htree'
      rw [hfield', getProp_updateModifier, assignView_apply_same _ _ hk'']
    · intro hnone
      rw [modifierField_eq_view hkv k', hv,
        viewModifierAt_foldl _ _ JSVal.undefined, viewModifierAt_nil]
      intro e he
      have hcan := (wellFormed_filter hwf).2 e he
      apply editOf_independent_modifier cat _ hcan hi hj
      intro hkey
      apply hnone e.2
      rw [← hkey]
      exact (List.mem_filter.mp he).1
  · intro v hj' hmem
    obtain ⟨t, t', h, h', hv⟩ := field_edit_view cat hwf hmem hi
    have hj : j ≠ "modifiers" := by
      have hcan := hwf.2 _ hmem (by simp [isConditionalKey])
      simp only [canonicalKey, Bool.and_eq_true, decide_eq_true_eq] at hcan
      exact hcan.2
    exact ⟨t, t', h, h', field_of_view hj' hv, modifiersAt_of_field hj hv⟩

/-- C23, amended, on a batch that edits the formula and the target of modifier 0 of
conditional 0 (its critical field keeps the default) and the name of conditional 0. -/
theorem depth_routing_witness :
    (∃ tree, conditionalsPass sampleCatalog
        [(modifierKey "0" "0" "formula", JSVal.str "2"),
         (modifierKey "0" "0" "target", JSVal.str "attack"),
         (["data", "conditionals", "0", "name"], JSVal.str "Flanking")] = some tree ∧
      modifierField tree 0 0 "formula" = some (JSVal.str "2") ∧
      modifierField tree 0 0 "critical" = some (JSVal.str "")) ∧
    (∃ t t', conditionalsPass sampleCatalog
        [(modifierKey "0" "0" "formula", JSVal.str "2"),
         (modifierKey "0" "0" "target", JSVal.str "attack"),
         (["data", "conditionals", "0", "name"], JSVal.str "Flanking")] = some t ∧
      conditionalsPass sampleCatalog
        (removeEntry
          [(modifierKey "0" "0" "formula", JSVal.str "2"),
           (modifierKey "0" "0" "target", JSVal.str "attack"),
           (["data", "conditionals", "0", "name"], JSVal.str "Flanking")]
          (["data", "conditionals", "0", "name"], JSVal.str "Flanking")) = some t' ∧
      (∃ record, getIdx t 0 = some record ∧
        getProp record "name" = some (CondVal.prim (JSVal.str "Flanking"))) ∧
      ∀ n', modifiersAt t n' = modifiersAt t' n') :=
  have h := depth_routing sampleCatalog
    [(modifierKey "0" "0" "formula", JSVal.str "2"),
     (modifierKey "0" "0" "target", JSVal.str "attack"),
     (["data", "conditionals", "0", "name"], JSVal.str "Flanking")]
  ⟨(h "0" "0" 0 (by decide) (by decide)).1 "formula" (JSVal.str "2") 0 (by decide)
      (by decide) (by decide) (by decide) |>.imp (fun _ hx =>
        ⟨hx.1, hx.2.1, (hx.2.2 "critical" (by decide)).2
          (by intro v' hv'; simp [modifierKey] at hv')⟩),
   (h "0" "name" 0 (by decide) (by decide)).2 (JSVal.str "Flanking") (by decide)
      (by decide)⟩

/-! ### Paths in a link record -/

theorem getProp_assignLeaf_ne (o : LinkRecord) {key key' : String} (value : JSVal)
    (h : key' ≠ key) : getProp (assignLeaf o key value) key' = getProp o key' := by
  unfold assignLeaf
  split
  · rfl
  · split
    · rfl
    · exact getProp_setProp_ne o _ h

theorem readPath_assignLeaf_same (o : LinkRecord) {key : String} (value : JSVal)
    (hk : key ≠ "__proto__") :
    readPath (assignLeaf o key value) [key] = LinkVal.prim value := by
  unfold assignLeaf
  rw [if_neg hk]
  split
  · rename_i h
    simp [readPath, h.1, h.2.1]
  · simp [readPath, getProp_setProp_same]

theorem readPath_nil_record (key : String) (rest : List String) :
    readPath [] (key :: rest) = LinkVal.prim JSVal.undefined := by
  cases rest <;> simp [readPath, getProp]

theorem setProperty_of_reaches (value : JSVal) :
    ∀ (path : List String) (o : LinkRecord), reaches o path = true →
      ∃ o', setProperty o path value = some o' := by
  intro path
  induction path with
  | nil => intro o h; simp [reaches] at h
  | cons part rest ih =>
    intro o h
    cases rest with
    | nil => exact ⟨_, rfl⟩
    | cons key rest =>
      simp only [reaches, Bool.and_eq_true, decide_eq_true_eq] at h
      obtain ⟨hp, hm⟩ := h
      cases hg : getProp o part with
      | none =>
        rw [hg] at hm
        obtain ⟨inner, hi⟩ := ih [] hm
        exact ⟨setProp o part (LinkVal.obj inner), by simp [setProperty, hp, hg, hi]⟩
      | some x =>
        cases x with
        | prim v => rw [hg] at hm; simp at hm
        | obj inner₀ =>
          rw [hg] at hm
          obtain ⟨inner, hi⟩ := ih inner₀ hm
          exact ⟨setProp o part (LinkVal.obj inner), by simp [setProperty, hp, hg, hi]⟩

/-- What `setProperty` returns on a path of two or more segments: the record with the
object under the first segment replaced by the result on that object (the empty object
where the record had none). -/
theorem setProperty_cons {o o' : LinkRecord} {part key : String} {rest : List String}
    {value : JSVal} (h : setProperty o (part :: key :: rest) value = some o') :
    part ≠ "__proto__" ∧ ∃ inner inner',
      (getProp o part = none ∧ inner = [] ∨ getProp o part = some (LinkVal.obj inner)) ∧
      setProperty inner (key :: rest) value = some inner' ∧
      o' = setProp o part (LinkVal.obj inner') := by
  unfold setProperty at h
  by_cases hp : part = "__proto__"
  · simp [hp] at h
  · rw [if_neg hp] at h
    refine ⟨hp, ?_⟩
    cases hg : getProp o part with
    | none =>
      rw [hg] at h
      simp only [Option.map_eq_some'] at h
      obtain ⟨inner', hi, ho⟩ := h
      exact ⟨[], inner', Or.inl ⟨rfl, rfl⟩, hi, ho.symm⟩
    | some x =>
      cases x with
      | prim v => rw [hg] at h; simp at h
      | obj inner =>
        rw [hg] at h
        simp only [Option.map_eq_some'] at h
        obtain ⟨inner', hi, ho⟩ := h
        exact ⟨inner, inner', Or.inr rfl, hi, ho.symm⟩

theorem readPath_setProperty_same (value : JSVal) :
    ∀ (path : List String) (o o' : LinkRecord), setProperty o path value = some o' →
      "__proto__" ∉ path → readPath o' path = LinkVal.prim value := by
  intro path
  induction path with
  | nil => intro o o' h; simp [setProperty] at h
  | cons part rest ih =>
    intro o o' h hp
    cases rest with
    | nil =>
      simp only [setProperty, Option.some.injEq] at h
      rw [← h]
      exact readPath_assignLeaf_same o value (fun e => hp (by simp [e]))
    | cons key rest =>
      obtain ⟨-, inner, inner', -, hi, ho⟩ := setProperty_cons h
      rw [ho]
      simp only [readPath, getProp_setProp_same]
      exact ih inner inner' hi (fun hm => hp (List.mem_cons_of_mem _ hm))

theorem reaches_setProperty_same (value : JSVal) :
    ∀ (path : List String) (o o' : LinkRecord), setProperty o path value = some o' →
      reaches o' path = true := by
  intro path
  induction path with
  | nil => intro o o' h; simp [setProperty] at h
  | cons part rest ih =>
    intro o o' h
    cases rest with
    | nil => rfl
    | cons key rest =>
      obtain ⟨hp, inner, inner', -, hi, ho⟩ := setProperty_cons h
      rw [ho]
      simp only [reaches, getProp_setProp_same, Bool.and_eq_true, decide_eq_true_eq]
      exact ⟨hp, ih inner inner' hi⟩

theorem readPath_setProperty_other (value : JSVal) :
    ∀ (p q : List String) (o o' : LinkRecord), setProperty o p value = some o' →
      ¬ p <+: q → ¬ q <+: p → readPath o' q = readPath o q := by
  intro p
  induction p with
  | nil => intro q o o' h; simp [setProperty] at h
  | cons part rest ih =>
    intro q o o' h hpq hqp
    cases q with
    | nil => exact absurd (List.nil_prefix) hqp
    | cons part' rest' =>
      cases rest with
      | nil =>
        simp only [setProperty, Option.some.injEq] at h
        have hne : part' ≠ part := by
          intro e
          apply hpq
          rw [e, List.cons_prefix_cons]
          exact ⟨rfl, List.nil_prefix⟩
        rw [← h]
        cases rest' with
        | nil => simp only [readPath, getProp_assignLeaf_ne o value hne]
        | cons key' rest' => simp only [readPath, getProp_assignLeaf_ne o value hne]
      | cons key rest =>
        obtain ⟨-, inner, inner', hg, hi, ho⟩ := setProperty_cons h
        rw [ho]
        by_cases hne : part' = part
        · subst hne
          cases rest' with
          | nil =>
            exfalso
            apply hqp
            rw [List.cons_prefix_cons]
            exact ⟨rfl, List.nil_prefix⟩
          | cons key' rest' =>
            have h1 : ¬ (key :: rest) <+: (key' :: rest') := fun hh =>
              hpq (by rw [List.cons_prefix_cons]; exact ⟨rfl, hh⟩)
            have h2 : ¬ (key' :: rest') <+: (key :: rest) := fun hh =>
              hqp (by rw [List.cons_prefix_cons]; exact ⟨rfl, hh⟩)
            simp only [readPath, getProp_setProp_same]
            rw [ih (key' :: rest') inner inner' hi h1 h2]
            rcases hg with ⟨hn, rfl⟩ | hs
            · rw [hn, readPath_nil_record]
            · rw [hs]
        · cases rest' with
          | nil => simp only [readPath, getProp_setProp_ne o _ hne]
          | cons key' rest' => simp only [readPath, getProp_setProp_ne o _ hne]

theorem reaches_nil_record_of (key : String) (rest : List String) (o : LinkRecord)
    (h : reaches o (key :: rest) = true) (hp : "__proto__" ∉ key :: rest) :
    reaches [] (key :: rest) = true := by
  induction rest generalizing key o with
  | nil => rfl
  | cons key' rest ih =>
    simp only [reaches, getProp, Bool.and_eq_true, decide_eq_true_eq] at h ⊢
    refine ⟨h.1, ?_⟩
    have hp' : "__proto__" ∉ key' :: rest := fun hm => hp (List.mem_cons_of_mem _ hm)
    cases hg : getProp o key with
    | none => rw [hg] at h; exact h.2
    | some x =>
      cases x with
      | prim v => rw [hg] at h; simp at h
      | obj inner => rw [hg] at h; exact ih key' inner h.2 hp'

theorem reaches_setProperty_other (value : JSVal) :
    ∀ (p q : List String) (o o' : LinkRecord), setProperty o p value = some o' →
      reaches o q = true → ¬ p <+: q → ¬ q <+: p → reaches o' q = true := by
  intro p
  induction p with
  | nil => intro q o o' h; simp [setProperty] at h
  | cons part rest ih =>
    intro q o o' h hr hpq hqp
    cases q with
    | nil => exact absurd (List.nil_prefix) hqp
    | cons part' rest' =>
      cases rest' with
      | nil => rfl
      | cons key' rest' =>
        cases rest with
        | nil =>
          simp only [setProperty, Option.some.injEq] at h
          have hne : part' ≠ part := by
            intro e
            apply hpq
            rw [e, List.cons_prefix_cons]
            exact ⟨rfl, List.nil_prefix⟩
          rw [← h]
          simp only [reaches, getProp_assignLeaf_ne o value hne] at hr ⊢
          exact hr
        | cons key rest =>
          obtain ⟨-, inner, inner', hg, hi, ho⟩ := setProperty_cons h
          rw [ho]
          by_cases hne : part' = part
          · subst hne
            have h1 : ¬ (key :: rest) <+: (key' :: rest') := fun hh =>
              hpq (by rw [List.cons_prefix_cons]; exact ⟨rfl, hh⟩)
            have h2 : ¬ (key' :: rest') <+: (key :: rest) := fun hh =>
              hqp (by rw [List.cons_prefix_cons]; exact ⟨rfl, hh⟩)
            simp only [reaches, getProp_setProp_same, Bool.and_eq_true,
              decide_eq_true_eq] at hr ⊢
            refine ⟨hr.1, ih (key' :: rest') inner inner' hi ?_ h1 h2⟩
            rcases hg with ⟨hn, rfl⟩ | hs
            · rw [hn] at hr; exact hr.2
            · rw [hs] at hr; exact hr.2
          · simp only [reaches, getProp_setProp_ne o _ hne] at hr ⊢
            exact hr

/-! ### The links pass -/

theorem getEntry_setEntry_same (st : List (Key × FormVal)) (k : Key) (v : FormVal) :
    getEntry (setEntry st k v) k = some v := by
  induction st with
  | nil => simp [setEntry, getEntry]
  | cons p rest ih =>
    obtain ⟨k', v'⟩ := p
    by_cases h : k' = k
    · simp [setEntry, getEntry, h]
    · simp [setEntry, getEntry, h, ih]

theorem getEntry_setEntry_ne (st : List (Key × FormVal)) {k k' : Key} (v : FormVal)
    (h : k' ≠ k) : getEntry (setEntry st k v) k' = getEntry st k' := by
  induction st with
  | nil => simp [setEntry, getEntry, Ne.symm h]
  | cons p rest ih =>
    obtain ⟨k₀, v₀⟩ := p
    by_cases h0 : k₀ = k
    · subst h0
      simp [setEntry, getEntry, Ne.symm h]
    · by_cases h1 : k₀ = k'
      · subst h1
        simp [setEntry, getEntry, h0]
      · simp [setEntry, getEntry, h0, h1, ih]

theorem getEntry_deleteEntry_same (st : List (Key × FormVal)) (k : Key) :
    getEntry (deleteEntry st k) k = none := by
  induction st with
  | nil => rfl
  | cons p rest ih =>
    obtain ⟨k', v'⟩ := p
    by_cases h : k' = k
    · simp [deleteEntry, h, ih]
    · simp [deleteEntry, h, getEntry, ih]

theorem getEntry_deleteEntry_ne (st : List (Key × FormVal)) {k k' : Key} (h : k' ≠ k) :
    getEntry (deleteEntry st k) k' = getEntry st k' := by
  induction st with
  | nil => rfl
  | cons p rest ih =>
    obtain ⟨k₀, v₀⟩ := p
    by_cases h0 : k₀ = k
    · have h1 : k₀ ≠ k' := fun e => h (e ▸ h0)
      rw [h0] at h1
      simp [deleteEntry, h0, getEntry, ih, h1]
    · by_cases h1 : k₀ = k'
      · subst h1
        simp [deleteEntry, h0, getEntry]
      · simp [deleteEntry, h0, getEntry, h1, ih]

theorem getEntry_of_mem {st : List (Key × FormVal)} (hnd : (st.map Prod.fst).Nodup)
    {k : Key} {v : FormVal} (h : (k, v) ∈ st) : getEntry st k = some v := by
  induction st with
  | nil => cases h
  | cons p rest ih =>
    obtain ⟨k', v'⟩ := p
    rw [List.map_cons, List.nodup_cons] at hnd
    rcases List.mem_cons.mp h with h | h
    · cases h
      simp [getEntry]
    · have hk : k' ≠ k := by
        intro e
        have hin : k ∈ rest.map Prod.fst := List.mem_map.mpr ⟨(k, v), h, rfl⟩
        rw [← e] at hin
        exact hnd.1 hin
      simp [getEntry, hk, ih hnd.2 h]

theorem getEntry_eq_none {st : List (Key × FormVal)} {k : Key}
    (h : ∀ v, (k, v) ∉ st) : getEntry st k = none := by
  induction st with
  | nil => rfl
  | cons p rest ih =>
    obtain ⟨k', v'⟩ := p
    have hk : k' ≠ k := fun e => h v' (by rw [e]; exact List.mem_cons_self _ _)
    simp [getEntry, hk, ih (fun v hv => h v (List.mem_cons_of_mem _ hv))]

theorem listKey_ne {linkType linkType' : String} (h : linkType' ≠ linkType) :
    listKey linkType' ≠ listKey linkType := by
  simpa [listKey] using h

/-- The key of an indexed link entry. -/
theorem linkEditOf_key {x : Key × FormVal} {t : String} {n : Nat} {p : List String}
    (h : linkEditOf x = some (t, n, p)) :
    ∃ index, x.1 = "data" :: "links" :: t :: index :: p ∧ arrayIndex index = some n ∧
      p ≠ [] := by
  obtain ⟨key, val⟩ := x
  unfold linkEditOf at h
  match key, h with
  | s0 :: s1 :: linkType :: index :: segment :: rest, h =>
    simp only at h
    split at h
    · rename_i hs
      cases ha : arrayIndex index with
      | none => rw [ha] at h; cases h
      | some m =>
        rw [ha] at h
        simp only [Option.map_some', Option.some.injEq, Prod.mk.injEq] at h
        obtain ⟨rfl, rfl, rfl⟩ := h
        exact ⟨index, by rw [hs.1, hs.2], ha, by simp⟩
    · cases h
  | [], h | [_], h | [_, _], h | [_, _, _], h | [_, _, _, _], h => cases h

theorem isLinksKey_of_linkEditOf {x : Key × FormVal} {tgt : String × Nat × List String}
    (h : linkEditOf x = some tgt) : isLinksKey x.1 = true := by
  obtain ⟨t, n, p⟩ := tgt
  obtain ⟨index, hk, -, -⟩ := linkEditOf_key h
  rw [hk]
  simp [isLinksKey]

theorem linkEditOf_inj {formData : List (Key × FormVal)}
    (hnd : (formData.map Prod.fst).Nodup)
    {x y : Key × FormVal} (hx : x ∈ formData) (hy : y ∈ formData)
    {tgt : String × Nat × List String} (h₁ : linkEditOf x = some tgt)
    (h₂ : linkEditOf y = some tgt) : x = y := by
  obtain ⟨t, n, p⟩ := tgt
  obtain ⟨ix, hxk, hix, -⟩ := linkEditOf_key h₁
  obtain ⟨iy, hyk, hiy, -⟩ := linkEditOf_key h₂
  apply List.inj_on_of_nodup_map hnd hx hy
  rw [hxk, hyk, arrayIndex_inj hix hiy]

theorem subPath_of_linkEditOf {x : Key × FormVal} {t : String} {n : Nat} {p : List String}
    (h : linkEditOf x = some (t, n, p)) :
    subPath x.1 = p ∧ x.1.get? 3 ≠ none ∧ (x.1.get? 2).getD "undefined" = t ∧
      x.1 ≠ listKey t ∧ ∀ t', x.1 ≠ listKey t' := by
  obtain ⟨index, hk, -, hp⟩ := linkEditOf_key h
  rw [hk]
  cases p with
  | nil => exact absurd rfl hp
  | cons segment rest => simp [subPath, listKey]

/-- What the well-formedness of the batch says of an indexed entry. -/
theorem linkEntryOK_indexed {h : Heap} {stored : String → Option Nat}
    {formData : List (Key × FormVal)} {x : Key × FormVal} {t : String} {n : Nat}
    {p : List String} (hok : linkEntryOK h stored formData x = true)
    (hed : linkEditOf x = some (t, n, p)) :
    (∃ v, x.2 = FormVal.prim v) ∧ "__proto__" ∉ p ∧
      ∃ r₀ l₀ record₀, stored t = some r₀ ∧ h.get? r₀ = some l₀ ∧
        l₀.get? n = some record₀ ∧ reaches (duplicateLink record₀) p = true := by
  obtain ⟨index, hk, hidx, hp⟩ := linkEditOf_key hed
  obtain ⟨key, val⟩ := x
  simp only at hk
  subst hk
  cases p with
  | nil => exact absurd rfl hp
  | cons segment rest =>
    cases val with
    | ref r => simp [linkEntryOK] at hok
    | prim v =>
      simp only [linkEntryOK, Bool.and_eq_true, decide_eq_true_eq, hidx] at hok
      obtain ⟨⟨-, hproto⟩, hm⟩ := hok
      refine ⟨⟨v, rfl⟩, hproto, ?_⟩
      cases hs : stored t with
      | none => rw [hs] at hm; simp at hm
      | some r₀ =>
        rw [hs] at hm
        simp only at hm
        cases hl : h.get? r₀ with
        | none => rw [hl] at hm; simp at hm
        | some l₀ =>
          rw [hl] at hm
          simp only [Option.some_bind] at hm
          cases hr : l₀.get? n with
          | none => rw [hr] at hm; simp at hm
          | some record₀ =>
            rw [hr] at hm
            exact ⟨r₀, l₀, record₀, rfl, hl, hr, hm⟩

/-- What the well-formedness of the batch says of an entry with a `data.links` key that
is not an indexed entry: its key is `data.links.<linkType>`, and no indexed entry of the
batch addresses that link type. -/
theorem linkEntryOK_list {h : Heap} {stored : String → Option Nat}
    {formData : List (Key × FormVal)} {x : Key × FormVal}
    (hok : linkEntryOK h stored formData x = true) (hed : linkEditOf x = none) :
    ∃ t, x.1 = listKey t ∧
      ∀ y ∈ formData, ∀ n p, linkEditOf y ≠ some (t, n, p) := by
  obtain ⟨key, val⟩ := x
  match key, val, hok with
  | [s0, s1, linkType], val, hok =>
    simp only [linkEntryOK, Bool.and_eq_true, decide_eq_true_eq, List.all_eq_true] at hok
    obtain ⟨⟨⟨h0, h1⟩, -⟩, hall⟩ := hok
    refine ⟨linkType, by rw [h0, h1]; rfl, ?_⟩
    intro y hy n p hye
    have := hall y hy
    rw [hye] at this
    simp at this
  | s0 :: s1 :: linkType :: index :: segment :: rest, .prim v, hok =>
    exfalso
    simp only [linkEntryOK, Bool.and_eq_true, decide_eq_true_eq] at hok
    obtain ⟨⟨⟨h0, h1⟩, -⟩, hm⟩ := hok
    cases ha : arrayIndex index with
    | none =>
      rw [ha] at hm
      cases hs : stored linkType <;> rw [hs] at hm <;> simp at hm
    | some n => simp [linkEditOf, h0, h1, ha] at hed
  | s0 :: s1 :: linkType :: index :: segment :: rest, .ref r, hok => simp [linkEntryOK] at hok
  | [], _, hok | [_], _, hok | [_, _], _, hok | [_, _, _, _], _, hok =>
    simp [linkEntryOK] at hok

theorem prefixFree_spec {formData : List (Key × FormVal)} (h : prefixFree formData = true)
    {x y : Key × FormVal} (hx : x ∈ formData) (hy : y ∈ formData)
    {t : String} {n : Nat} {p q : List String} (h₁ : linkEditOf x = some (t, n, p))
    (h₂ : linkEditOf y = some (t, n, q)) (hpq : p <+: q) : x = y := by
  unfold prefixFree at h
  rw [List.all_eq_true] at h
  have h' := h x hx
  rw [List.all_eq_true] at h'
  have h'' := h' y hy
  rw [h₁, h₂] at h''
  simp only [decide_True, Bool.true_and, Bool.or_eq_true, Bool.not_eq_true',
    decide_eq_true_eq] at h''
  rcases h'' with h'' | h''
  · rw [← Bool.not_eq_true, List.isPrefixOf_iff_prefix] at h''
    exact absurd hpq h''
  · exact h''

theorem get?_lt_of_eq_some {α : Type} {l : List α} {a : Nat} {x : α}
    (h : l.get? a = some x) : a < l.length := by
  rw [List.get?_eq_getElem?] at h
  exact (List.getElem?_eq_some_iff.mp h).1

theorem get?_set_same {α : Type} {l : List α} {a : Nat} (x : α) (h : a < l.length) :
    (l.set a x).get? a = some x := by
  rw [List.get?_eq_getElem?, List.getElem?_set_self h]

theorem get?_set_ne {α : Type} (l : List α) {a b : Nat} (x : α) (h : b ≠ a) :
    (l.set a x).get? b = l.get? b := by
  rw [List.get?_eq_getElem?, List.getElem?_set_ne (Ne.symm h), List.get?_eq_getElem?]

theorem get?_append_singleton_same {α : Type} (l : List α) (x : α) :
    (l ++ [x]).get? l.length = some x := by
  rw [List.get?_eq_getElem?]
  simp

theorem get?_append_singleton_lt {α : Type} (l : List α) (x : α) {a : Nat}
    (h : a < l.length) : (l ++ [x]).get? a = l.get? a := by
  rw [List.get?_eq_getElem?, List.get?_eq_getElem?, List.getElem?_append_left h]

/-- The step of the links pass as a function of the form data left by the guard, for an
indexed entry. -/
theorem linksStep_unfold (stored : String → Option Nat) (st : Heap × List (Key × FormVal))
    {x : Key × FormVal} {t : String} {n : Nat} {p : List String} {v : JSVal}
    (hed : linkEditOf x = some (t, n, p)) (hv : x.2 = FormVal.prim v)
    {g : Heap × List (Key × FormVal)} {r : Nat} {l : List LinkRecord}
    {record record' : LinkRecord}
    (hguard : (if entryTruthy (deleteEntry st.2 x.1) (listKey t) then
        some (st.1, deleteEntry st.2 x.1)
      else ((stored t).bind (duplicate st.1)).map
        (fun (q : Heap × Nat) =>
          (q.1, setEntry (deleteEntry st.2 x.1) (listKey t) (FormVal.ref q.2)))) = some g)
    (href : getEntry g.2 (listKey t) = some (FormVal.ref r)) (hl : g.1.get? r = some l)
    (hrec : l.get? n = some record) (hset : setProperty record p v = some record') :
    linksStep stored st x = some (g.1.set r (l.set n record'), g.2) := by
  obtain ⟨hpath, -, -, -, -⟩ := subPath_of_linkEditOf hed
  obtain ⟨index, hk, hidx, -⟩ := linkEditOf_key hed
  obtain ⟨key, val⟩ := x
  simp only at hk hv hpath hguard
  subst hv
  unfold linksStep
  have h3 : key.get? 3 = some index := by rw [hk]; rfl
  have h2 : (key.get? 2).getD "undefined" = t := by rw [hk]; rfl
  simp only [h3, h2, hguard, Option.some_bind, href, hidx, hl, hrec, hpath, hset,
    Option.map_some']

/-- One step of the links pass on an indexed entry of a well-formed batch: the step
returns, the array of the entry's link type (a new one, or the one the form data already
holds) has the value written into record `n`, and nothing else changes but the entry's
own key, which is deleted. -/
theorem linksStep_indexed {h : Heap} {stored : String → Option Nat}
    {formData : List (Key × FormVal)} {st : Heap × List (Key × FormVal)}
    (hinv : LinksInv h stored formData st) {x : Key × FormVal} (hx : x ∈ formData)
    {t : String} {n : Nat} {p : List String} {v : JSVal}
    (hed : linkEditOf x = some (t, n, p)) (hv : x.2 = FormVal.prim v) :
    ∃ st' r l record record', linksStep stored st x = some st' ∧
      currentLinks stored st t = some l ∧ l.get? n = some record ∧
      setProperty record p v = some record' ∧
      getEntry st'.2 (listKey t) = some (FormVal.ref r) ∧ h.length ≤ r ∧
      st'.1.get? r = some (l.set n record') ∧
      st.1.length ≤ st'.1.length ∧
      (∀ a, a ≠ r → a < st.1.length → st'.1.get? a = st.1.get? a) ∧
      (getEntry st.2 (listKey t) = some (FormVal.ref r) ∨
        (getEntry st.2 (listKey t) = none ∧ r = st.1.length)) ∧
      getEntry st'.2 x.1 = none ∧
      (∀ k, k ≠ x.1 → k ≠ listKey t → getEntry st'.2 k = getEntry st.2 k) := by
  obtain ⟨-, -, -, hne, -⟩ := subPath_of_linkEditOf hed
  obtain ⟨r₀, l₀, l, record, hs, hl₀, hcur, -, hrec, hreach⟩ := hinv.2.2.2 x hx t n p hed
  obtain ⟨record', hset⟩ := setProperty_of_reaches v p record hreach
  have hfd : getEntry (deleteEntry st.2 x.1) (listKey t) = getEntry st.2 (listKey t) :=
    getEntry_deleteEntry_ne _ (Ne.symm hne)
  rcases hinv.2.1 x hx t n p hed with hnone | ⟨r, l', href, hfresh, hget⟩
  · have hst : st.1.get? r₀ = some l₀ := by
      rw [hinv.1.2 r₀ (get?_lt_of_eq_some hl₀), hl₀]
    have hl : l = l₀.map duplicateLink := by
      unfold currentLinks at hcur
      rw [hnone] at hcur
      simp only [hs, Option.some_bind, hst, Option.map_some', Option.some.injEq] at hcur
      exact hcur.symm
    have hguard : (if entryTruthy (deleteEntry st.2 x.1) (listKey t) then
          some (st.1, deleteEntry st.2 x.1)
        else ((stored t).bind (duplicate st.1)).map
          (fun (q : Heap × Nat) =>
            (q.1, setEntry (deleteEntry st.2 x.1) (listKey t) (FormVal.ref q.2))))
        = some (st.1 ++ [l], setEntry (deleteEntry st.2 x.1) (listKey t)
            (FormVal.ref st.1.length)) := by
      have htr : entryTruthy (deleteEntry st.2 x.1) (listKey t) = false := by
        unfold entryTruthy
        rw [hfd, hnone]
      rw [htr]
      simp only [Bool.false_eq_true, if_false, hs, Option.some_bind, duplicate, hst,
        Option.map_some', hl]
    have hstep := linksStep_unfold stored st hed hv hguard
      (getEntry_setEntry_same _ _ _) (get?_append_singleton_same st.1 l) hrec hset
    refine ⟨_, st.1.length, l, record, record', hstep, hcur, hrec, hset,
      getEntry_setEntry_same _ _ _, hinv.1.1, ?_, ?_, ?_, Or.inr ⟨hnone, rfl⟩, ?_, ?_⟩
    · exact get?_set_same _ (by simp)
    · simp
    · intro a ha hlt
      simp only
      rw [get?_set_ne _ _ ha, get?_append_singleton_lt _ _ hlt]
    · simp only
      rw [getEntry_setEntry_ne _ _ hne, getEntry_deleteEntry_same]
    · intro k hk hkl
      simp only
      rw [getEntry_setEntry_ne _ _ hkl, getEntry_deleteEntry_ne _ hk]
  · have hl : l' = l := by
      unfold currentLinks at hcur
      rw [href] at hcur
      simp only at hcur
      exact Option.some.inj (hget.symm.trans hcur)
    subst hl
    have hguard : (if entryTruthy (deleteEntry st.2 x.1) (listKey t) then
          some (st.1, deleteEntry st.2 x.1)
        else ((stored t).bind (duplicate st.1)).map
          (fun (q : Heap × Nat) =>
            (q.1, setEntry (deleteEntry st.2 x.1) (listKey t) (FormVal.ref q.2))))
        = some (st.1, deleteEntry st.2 x.1) := by
      have htr : entryTruthy (deleteEntry st.2 x.1) (listKey t) = true := by
        unfold entryTruthy
        rw [hfd, href]
      simp [htr]
    have hstep := linksStep_unfold stored st hed hv hguard (hfd.trans href) hget hrec hset
    refine ⟨_, r, l', record, record', hstep, hcur, hrec, hset, hfd.trans href, hfresh,
      ?_, ?_, ?_, Or.inl href, ?_, ?_⟩
    · exact get?_set_same _ (get?_lt_of_eq_some hget)
    · simp
    · intro a ha _
      exact get?_set_ne _ _ ha
    · exact getEntry_deleteEntry_same _ _
    · intro k hk _
      exact getEntry_deleteEntry_ne _ hk

theorem currentLinks_of_ref (stored : String → Option Nat)
    {st : Heap × List (Key × FormVal)} {t : String} {r : Nat}
    (h : getEntry st.2 (listKey t) = some (FormVal.ref r)) :
    currentLinks stored st t = st.1.get? r := by
  unfold currentLinks
  rw [h]

theorem currentLinks_of_none (stored : String → Option Nat)
    {st : Heap × List (Key × FormVal)} {t : String}
    (h : getEntry st.2 (listKey t) = none) :
    currentLinks stored st t
      = ((stored t).bind (fun r => st.1.get? r)).map (fun l => l.map duplicateLink) := by
  unfold currentLinks
  rw [h]

/-- One step of the links pass on an entry of a well-formed batch, from a state in which
the invariant holds: what the step leaves alone and what it writes. -/
theorem linksStep_frame {h : Heap} {stored : String → Option Nat}
    {formData : List (Key × FormVal)} (hwf : LinksWellFormed h stored formData)
    {st : Heap × List (Key × FormVal)} (hinv : LinksInv h stored formData st)
    {x : Key × FormVal} (hx : x ∈ formData) (hlk : isLinksKey x.1 = true) :
    ∃ st', linksStep stored st x = some st' ∧ LinksInv h stored formData st' ∧
      (∀ key : Key, key.length ≠ 3 → getEntry st.2 key = none → getEntry st'.2 key = none) ∧
      (∀ t', (∀ n p, linkEditOf x ≠ some (t', n, p)) →
        getEntry st'.2 (listKey t') = getEntry st.2 (listKey t')) ∧
      (∀ y ∈ formData, ∀ t' n₀ q₀, linkEditOf y = some (t', n₀, q₀) → ∀ n' q,
        (∀ p, linkEditOf x = some (t', n', p) → ¬ p <+: q ∧ ¬ q <+: p) →
        readAt stored st' t' n' q = readAt stored st t' n' q) ∧
      (∀ t n p v, linkEditOf x = some (t, n, p) → x.2 = FormVal.prim v →
        getEntry st'.2 x.1 = none ∧ readAt stored st' t n p = some (LinkVal.prim v) ∧
          ∃ r, getEntry st'.2 (listKey t) = some (FormVal.ref r)) ∧
      (∀ t', (∃ r, getEntry st.2 (listKey t') = some (FormVal.ref r)) →
        ∃ r, getEntry st'.2 (listKey t') = some (FormVal.ref r)) := by
  cases hed : linkEditOf x with
  | none =>
    obtain ⟨t₀, hkey, -⟩ := linkEntryOK_list (hwf.2.1 x hx hlk) hed
    have hstep : linksStep stored st x = some st := by
      unfold linksStep
      rw [hkey]
      rfl
    refine ⟨st, hstep, hinv, fun _ _ hn => hn, fun _ _ => rfl, ?_, ?_, fun _ hr => hr⟩
    · intro _ _ _ _ _ _ _ _ _
      rfl
    · intro t n p v hc
      cases hc
  | some tgt =>
    obtain ⟨t, n, p⟩ := tgt
    obtain ⟨⟨v, hv⟩, hproto, -⟩ := linkEntryOK_indexed (hwf.2.1 x hx hlk) hed
    obtain ⟨st', r, l, record, record', hstep, hcur, hrec, hset, href', hfresh, hget',
      hlen, hother, hcase, hdel, hkeys⟩ := linksStep_indexed hinv hx hed hv
    obtain ⟨-, -, -, hxne, hxne'⟩ := subPath_of_linkEditOf hed
    have hlist : ∀ t', t' ≠ t → getEntry st'.2 (listKey t') = getEntry st.2 (listKey t') :=
      fun t' ht => hkeys _ (Ne.symm (hxne' t')) (listKey_ne ht)
    have hrne : ∀ y ∈ formData, ∀ t' n' q r', linkEditOf y = some (t', n', q) → t' ≠ t →
        getEntry st.2 (listKey t') = some (FormVal.ref r') → r' ≠ r := by
      intro y hy t' n' q r' hye ht hr' hrr
      rcases hcase with hc | ⟨-, hc⟩
      · exact ht (hinv.2.2.1 y hy x hx t' n' q t n p r' hye hed hr' (hrr ▸ hc))
      · rcases hinv.2.1 y hy t' n' q hye with hn | ⟨r'', l'', h1, -, h2⟩
        · rw [hn] at hr'
          cases hr'
        · rw [hr'] at h1
          simp only [Option.some.injEq, FormVal.ref.injEq] at h1
          have := get?_lt_of_eq_some h2
          omega
    have hcurne : ∀ y ∈ formData, ∀ t' n' q, linkEditOf y = some (t', n', q) → t' ≠ t →
        currentLinks stored st' t' = currentLinks stored st t' := by
      intro y hy t' n' q hye ht
      obtain ⟨r₀', l₀', -, -, hs', hl₀', -⟩ := hinv.2.2.2 y hy t' n' q hye
      have hr₀ : r₀' < h.length := get?_lt_of_eq_some hl₀'
      rcases hinv.2.1 y hy t' n' q hye with hn | ⟨r', l'', h1, -, h2⟩
      · rw [currentLinks_of_none stored (by rw [hlist t' ht, hn]),
          currentLinks_of_none stored hn, hs']
        simp only [Option.some_bind]
        rw [hother r₀' (by omega) (by have := hinv.1.1; omega)]
      · rw [currentLinks_of_ref stored (by rw [hlist t' ht, h1]),
          currentLinks_of_ref stored h1]
        exact hother r' (hrne y hy t' n' q r' hye ht h1) (get?_lt_of_eq_some h2)
    have hcur' : currentLinks stored st' t = some (l.set n record') := by
      rw [currentLinks_of_ref stored href', hget']
    refine ⟨st', hstep, ⟨⟨?_, ?_⟩, ?_, ?_, ?_⟩, ?_, ?_, ?_, ?_, ?_⟩
    · have := hinv.1.1
      omega
    · intro a ha
      rw [hother a (by omega) (by have := hinv.1.1; omega)]
      exact hinv.1.2 a ha
    · intro y hy t' n' q hye
      by_cases ht : t' = t
      · subst ht
        exact Or.inr ⟨r, _, href', hfresh, hget'⟩
      · rw [hlist t' ht]
        rcases hinv.2.1 y hy t' n' q hye with hn | ⟨r', l'', h1, h2, h3⟩
        · exact Or.inl hn
        · refine Or.inr ⟨r', l'', h1, h2, ?_⟩
          rw [hother r' (hrne y hy t' n' q r' hye ht h1) (get?_lt_of_eq_some h3)]
          exact h3
    · intro y hy y' hy' t₁ n₁ p₁ t₂ n₂ p₂ r₁ hye hye' h1 h2
      by_cases ht₁ : t₁ = t
      · by_cases ht₂ : t₂ = t
        · rw [ht₁, ht₂]
        · exfalso
          rw [ht₁, href'] at h1
          simp only [Option.some.injEq, FormVal.ref.injEq] at h1
          rw [hlist t₂ ht₂] at h2
          exact hrne y' hy' t₂ n₂ p₂ r₁ hye' ht₂ h2 h1.symm
      · by_cases ht₂ : t₂ = t
        · exfalso
          rw [ht₂, href'] at h2
          simp only [Option.some.injEq, FormVal.ref.injEq] at h2
          rw [hlist t₁ ht₁] at h1
          exact hrne y hy t₁ n₁ p₁ r₁ hye ht₁ h1 h2.symm
        · rw [hlist t₁ ht₁] at h1
          rw [hlist t₂ ht₂] at h2
          exact hinv.2.2.1 y hy y' hy' t₁ n₁ p₁ t₂ n₂ p₂ r₁ hye hye' h1 h2
    · intro y hy t' n' q hye
      obtain ⟨r₀', l₀', l', rec', hs', hl₀', hcu, hle, hre, hrea⟩ :=
        hinv.2.2.2 y hy t' n' q hye
      by_cases ht : t' = t
      · subst ht
        have hll : l' = l := Option.some.inj (hcu.symm.trans hcur)
        subst hll
        by_cases hn : n' = n
        · subst hn
          have hrr : rec' = record := Option.some.inj (hre.symm.trans hrec)
          subst hrr
          refine ⟨r₀', l₀', _, record', hs', hl₀', hcur', by rw [List.length_set, hle],
            get?_set_same _ (get?_lt_of_eq_some hrec), ?_⟩
          by_cases hyx : y = x
          · have hqp : q = p := by
              rw [hyx, hed] at hye
              simp only [Option.some.injEq, Prod.mk.injEq] at hye
              exact hye.2.2.symm
            rw [hqp]
            exact reaches_setProperty_same v p rec' record' hset
          · exact reaches_setProperty_other v p q rec' record' hset hrea
              (fun hpq => hyx (prefixFree_spec hwf.2.2 hx hy hed hye hpq).symm)
              (fun hqp => hyx (prefixFree_spec hwf.2.2 hy hx hye hed hqp))
        · exact ⟨r₀', l₀', _, rec', hs', hl₀', hcur', by rw [List.length_set, hle],
            by rw [get?_set_ne _ _ hn]; exact hre, hrea⟩
      · exact ⟨r₀', l₀', l', rec', hs', hl₀', by rw [hcurne y hy t' n' q hye ht]; exact hcu,
          hle, hre, hrea⟩
    · intro key hk hnone
      have hkl : key ≠ listKey t := by
        intro e
        apply hk
        rw [e]
        rfl
      by_cases hke : key = x.1
      · rw [hke]
        exact hdel
      · rw [hkeys key hke hkl]
        exact hnone
    · intro t' hne
      have ht : t' ≠ t := by
        intro e
        exact hne n p (by rw [e])
      exact hlist t' ht
    · intro y hy t' n₀ q₀ hye n' q hun
      by_cases ht : t' = t
      · subst ht
        unfold readAt
        rw [hcur', hcur]
        simp only [Option.some_bind]
        by_cases hn : n' = n
        · subst hn
          obtain ⟨h1, h2⟩ := hun p rfl
          rw [get?_set_same _ (get?_lt_of_eq_some hrec), hrec]
          simp only [Option.map_some']
          rw [readPath_setProperty_other v p q record record' hset h1 h2]
        · rw [get?_set_ne _ _ hn]
      · unfold readAt
        rw [hcurne y hy t' n₀ q₀ hye ht]
    · intro t₁ n₁ p₁ v₁ hc hv₁
      simp only [Option.some.injEq, Prod.mk.injEq] at hc
      obtain ⟨rfl, rfl, rfl⟩ := hc
      rw [hv] at hv₁
      simp only [FormVal.prim.injEq] at hv₁
      subst hv₁
      refine ⟨hdel, ?_, r, href'⟩
      unfold readAt
      rw [hcur']
      simp only [Option.some_bind]
      rw [get?_set_same _ (get?_lt_of_eq_some hrec)]
      simp only [Option.map_some']
      rw [readPath_setProperty_same v _ record record' hset hproto]
    · intro t' hr
      by_cases ht : t' = t
      · rw [ht]
        exact ⟨r, href'⟩
      · rw [hlist t' ht]
        exact hr

/-- The invariant of the links pass holds before the first entry of a well-formed
batch. -/
theorem linksInv_init {h : Heap} {stored : String → Option Nat}
    {formData : List (Key × FormVal)} (hwf : LinksWellFormed h stored formData) :
    LinksInv h stored formData (h, formData) := by
  have hnone : ∀ e ∈ formData, ∀ t n p, linkEditOf e = some (t, n, p) →
      getEntry formData (listKey t) = none := by
    intro e he t n p hed
    apply getEntry_eq_none
    intro w hw
    have hok := hwf.2.1 _ hw (by simp [isLinksKey, listKey])
    obtain ⟨t', hk, hno⟩ := linkEntryOK_list hok (by simp [linkEditOf, listKey])
    have ht : t = t' := by simpa [listKey] using hk
    exact hno e he n p (by rw [← ht]; exact hed)
  refine ⟨⟨le_refl _, fun _ _ => rfl⟩, ?_, ?_, ?_⟩
  · intro e he t n p hed
    exact Or.inl (hnone e he t n p hed)
  · intro e he e' _ t n p t' n' p' r hed _ hr _
    have := hnone e he t n p hed
    simp only at hr
    rw [this] at hr
    cases hr
  · intro e he t n p hed
    obtain ⟨-, -, r₀, l₀, record₀, hs, hl, hr, hreach⟩ :=
      linkEntryOK_indexed (hwf.2.1 e he (isLinksKey_of_linkEditOf hed)) hed
    refine ⟨r₀, l₀, l₀.map duplicateLink, duplicateLink record₀, hs, hl, ?_,
      List.length_map _ _, ?_, hreach⟩
    · rw [currentLinks_of_none stored (hnone e he t n p hed), hs]
      simp only [Option.some_bind]
      rw [hl]
      rfl
    · rw [List.get?_eq_getElem?, List.getElem?_map, ← List.get?_eq_getElem?, hr]
      rfl

/-- The loop of the links pass over entries of a well-formed batch, from a state in which
the invariant holds: the loop returns, the invariant holds after it, and an entry of the
form data, the array of a link type and a place in a record are as before unless an entry
of the loop addresses them. -/
theorem linksFold_frame {h : Heap} {stored : String → Option Nat}
    {formData : List (Key × FormVal)} (hwf : LinksWellFormed h stored formData) :
    ∀ (xs : List (Key × FormVal)) (st : Heap × List (Key × FormVal)),
      LinksInv h stored formData st →
      (∀ x ∈ xs, x ∈ formData ∧ isLinksKey x.1 = true) →
      ∃ st', xs.foldlM (linksStep stored) st = some st' ∧ LinksInv h stored formData st' ∧
        (∀ key : Key, key.length ≠ 3 → getEntry st.2 key = none →
          getEntry st'.2 key = none) ∧
        (∀ t', (∀ x ∈ xs, ∀ n p, linkEditOf x ≠ some (t', n, p)) →
          getEntry st'.2 (listKey t') = getEntry st.2 (listKey t')) ∧
        (∀ y ∈ formData, ∀ t' n₀ q₀, linkEditOf y = some (t', n₀, q₀) → ∀ n' q,
          (∀ x ∈ xs, ∀ p, linkEditOf x = some (t', n', p) → ¬ p <+: q ∧ ¬ q <+: p) →
          readAt stored st' t' n' q = readAt stored st t' n' q) ∧
        (∀ t', (∃ r, getEntry st.2 (listKey t') = some (FormVal.ref r)) →
          ∃ r, getEntry st'.2 (listKey t') = some (FormVal.ref r)) := by
  intro xs
  induction xs with
  | nil =>
    intro st hinv _
    exact ⟨st, rfl, hinv, fun _ _ hn => hn, fun _ _ => rfl,
      fun _ _ _ _ _ _ _ _ _ => rfl, fun _ hr => hr⟩
  | cons x xs ih =>
    intro st hinv hxs
    obtain ⟨hx, hlk⟩ := hxs x (List.mem_cons_self _ _)
    obtain ⟨st₁, hstep, hinv₁, hF1, hF2, hF3, -, hF5⟩ := linksStep_frame hwf hinv hx hlk
    obtain ⟨st', hfold, hinv', hG1, hG2, hG3, hG5⟩ :=
      ih st₁ hinv₁ (fun y hy => hxs y (List.mem_cons_of_mem _ hy))
    refine ⟨st', ?_, hinv', ?_, ?_, ?_, ?_⟩
    · rw [List.foldlM_cons, hstep]
      exact hfold
    · intro key hk hn
      exact hG1 key hk (hF1 key hk hn)
    · intro t' hno
      rw [hG2 t' (fun y hy => hno y (List.mem_cons_of_mem _ hy)),
        hF2 t' (hno x (List.mem_cons_self _ _))]
    · intro y hy t' n₀ q₀ hye n' q hun
      rw [hG3 y hy t' n₀ q₀ hye n' q (fun z hz => hun z (List.mem_cons_of_mem _ hz)),
        hF3 y hy t' n₀ q₀ hye n' q (hun x (List.mem_cons_self _ _))]
    · intro t' hr
      exact hG5 t' (hF5 t' hr)

/-- The loop of the links pass over distinct entries of a well-formed batch: after it, an
indexed entry of the loop is gone from the form data, the array of its link type is in
the form data, and the place it addresses holds its value. -/
theorem linksFold_own {h : Heap} {stored : String → Option Nat}
    {formData : List (Key × FormVal)} (hwf : LinksWellFormed h stored formData) :
    ∀ (xs : List (Key × FormVal)) (st : Heap × List (Key × FormVal)),
      LinksInv h stored formData st →
      (∀ x ∈ xs, x ∈ formData ∧ isLinksKey x.1 = true) → xs.Nodup →
      ∀ x ∈ xs, ∀ t n p v, linkEditOf x = some (t, n, p) → x.2 = FormVal.prim v →
      ∃ st', xs.foldlM (linksStep stored) st = some st' ∧ getEntry st'.2 x.1 = none ∧
        readAt stored st' t n p = some (LinkVal.prim v) ∧
        ∃ r, getEntry st'.2 (listKey t) = some (FormVal.ref r) := by
  intro xs
  induction xs with
  | nil =>
    intro st _ _ _ x hx
    cases hx
  | cons y ys ih =>
    intro st hinv hxs hnd x hx t n p v hed hv
    obtain ⟨hy, hlk⟩ := hxs y (List.mem_cons_self _ _)
    obtain ⟨st₁, hstep, hinv₁, -, -, -, hown, -⟩ := linksStep_frame hwf hinv hy hlk
    have hys : ∀ z ∈ ys, z ∈ formData ∧ isLinksKey z.1 = true :=
      fun z hz => hxs z (List.mem_cons_of_mem _ hz)
    rw [List.nodup_cons] at hnd
    rcases List.mem_cons.mp hx with hxy | hxy
    · subst hxy
      obtain ⟨hdel, hread, hr⟩ := hown t n p v hed hv
      obtain ⟨st', hfold, -, hG1, -, hG3, hG5⟩ := linksFold_frame hwf ys st₁ hinv₁ hys
      obtain ⟨index, hk, -, -⟩ := linkEditOf_key hed
      refine ⟨st', ?_, ?_, ?_, hG5 t hr⟩
      · rw [List.foldlM_cons, hstep]
        exact hfold
      · apply hG1 _ _ hdel
        rw [hk]
        simp
      · rw [hG3 x hy t n p hed n p, hread]
        intro z hz p' hze
        have hzx : z ≠ x := fun e => hnd.1 (e ▸ hz)
        exact ⟨fun hpp => hzx (prefixFree_spec hwf.2.2 (hys z hz).1 hy hze hed hpp),
          fun hpp => hzx (prefixFree_spec hwf.2.2 hy (hys z hz).1 hed hze hpp).symm⟩
    · obtain ⟨st', hfold, hrest⟩ := ih st₁ hinv₁ hys hnd.2 x hxy t n p v hed hv
      refine ⟨st', ?_, hrest⟩
      rw [List.foldlM_cons, hstep]
      exact hfold

/-- C24, amended: for a batch whose `data.links` entries are as `LinksWellFormed` says
(each is `data.links.<T'>` for a link type no indexed entry addresses, or
`data.links.<T>.<n>.<subPath>` with a primitive value, `n` the index of a stored record,
a sub-path without `__proto__` that passes through no primitive of the record, and no
sub-path the beginning of another for the same record) the links pass returns, and for
every entry `data.links.<T>.<n>.<subPath>` with value `v`: the key is gone from the form
data; `data.links.<T>` in the form data is an array that did not exist before the pass,
as long as the stored one, in which record `n` reads `v` at the sub-path; every place of
a record that no indexed entry for `T` addresses, nor a place above or below it, reads as
in the copy of the stored record; the arrays that existed before the pass, the stored
ones among them, are as they were; and an entry `data.links.<T'>` is left as
submitted. -/
theorem link_edit_folding (h : Heap) (stored : String → Option Nat)
    (formData : List (Key × FormVal)) (hwf : LinksWellFormed h stored formData)
    (T index : String) (n : Nat) (segs : List String) (v : JSVal)
    (hmem : ("data" :: "links" :: T :: index :: segs, FormVal.prim v) ∈ formData)
    (hidx : arrayIndex index = some n) :
    ∃ h' out r l₀ l, linksPass stored h formData = some (h', out) ∧
      getEntry out ("data" :: "links" :: T :: index :: segs) = none ∧
      getEntry out (listKey T) = some (FormVal.ref r) ∧ h.length ≤ r ∧
      h'.get? r = some l ∧
      (stored T).bind (fun r₀ => h.get? r₀) = some l₀ ∧ l.length = l₀.length ∧
      (l.get? n).map (fun record => readPath record segs) = some (LinkVal.prim v) ∧
      (∀ n' q,
        (∀ e ∈ formData, ∀ p, linkEditOf e = some (T, n', p) → ¬ p <+: q ∧ ¬ q <+: p) →
        (l.get? n').map (fun record => readPath record q)
          = (l₀.get? n').map (fun record => readPath (duplicateLink record) q)) ∧
      (∀ a, a < h.length → h'.get? a = h.get? a) ∧
      (∀ T' w, (listKey T', w) ∈ formData → getEntry out (listKey T') = some w) := by
  have hlk : isLinksKey ("data" :: "links" :: T :: index :: segs) = true := by
    simp [isLinksKey]
  have hok := hwf.2.1 _ hmem hlk
  have hed : linkEditOf ("data" :: "links" :: T :: index :: segs, FormVal.prim v)
      = some (T, n, segs) := by
    cases segs with
    | nil => simp [linkEntryOK] at hok
    | cons segment rest => simp [linkEditOf, hidx]
  have hinit := linksInv_init hwf
  have hxs : ∀ z ∈ formData.filter (fun e => isLinksKey e.1),
      z ∈ formData ∧ isLinksKey z.1 = true := by
    intro z hz
    exact List.mem_filter.mp hz
  have hnd : (formData.filter (fun e => isLinksKey e.1)).Nodup :=
    (List.Nodup.of_map _ hwf.1).filter _
  obtain ⟨st', hfold, hinv', -, hG2, hG3, -⟩ := linksFold_frame hwf _ _ hinit hxs
  obtain ⟨st'', hfold', hdel, hread, r', hr'⟩ := linksFold_own hwf _ _ hinit hxs hnd _
    (List.mem_filter.mpr ⟨hmem, hlk⟩) T n segs v hed rfl
  have hst : st'' = st' := Option.some.inj (hfold'.symm.trans hfold)
  subst hst
  obtain ⟨r₀, l₀, l, record, hs, hl₀, hcur, hlen, hrec, -⟩ := hinv'.2.2.2 _ hmem T n segs hed
  have hcur₀ : currentLinks stored (h, formData) T = some (l₀.map duplicateLink) := by
    rcases hinit.2.1 _ hmem T n segs hed with hn | ⟨r₁, l₁, -, hge, hget⟩
    · rw [currentLinks_of_none stored hn, hs]
      simp only [Option.some_bind]
      rw [hl₀]
      rfl
    · have := get?_lt_of_eq_some hget
      simp only at this
      omega
  rcases hinv'.2.1 _ hmem T n segs hed with hn | ⟨r, l', href, hfresh, hget⟩
  · rw [hn] at hr'
    cases hr'
  · have hll : l' = l := by
      rw [currentLinks_of_ref stored href, hget] at hcur
      exact Option.some.inj hcur
    subst hll
    refine ⟨st''.1, st''.2, r, l₀, l', hfold, hdel, href, hfresh, hget, ?_, hlen, ?_, ?_,
      hinv'.1.2, ?_⟩
    · rw [hs]
      exact hl₀
    · unfold readAt at hread
      rw [hcur] at hread
      exact hread
    · intro n' q hun
      have := hG3 _ hmem T n segs hed n' q (fun z hz p hze => hun z (hxs z hz).1 p hze)
      unfold readAt at this
      rw [hcur, hcur₀] at this
      simp only [Option.some_bind] at this
      rw [this, List.get?_eq_getElem?, List.getElem?_map, ← List.get?_eq_getElem?]
      cases l₀.get? n' <;> rfl
    · intro T' w hw
      have hok' := hwf.2.1 _ hw (by simp [isLinksKey, listKey])
      obtain ⟨t', hk, hno⟩ := linkEntryOK_list hok' (by simp [linkEditOf, listKey])
      have ht : T' = t' := by simpa [listKey] using hk
      rw [hG2 T' (fun z hz n₁ p₁ => by rw [ht]; exact hno z (hxs z hz).1 n₁ p₁)]
      exact getEntry_of_mem hwf.1 hw

/-- C24, amended, on the sample item: the batch edits the level of class association `a`
and adds a hidden link to class association `b`, next to a submitted list of children.
The pass builds array 2 for the class associations and leaves arrays 0 and 1 alone. -/
theorem link_edit_folding_witness :
    LinksWellFormed sampleHeap sampleStoredLinks sampleLinkBatch ∧
    (∃ h' out r l₀ l, linksPass sampleStoredLinks sampleHeap sampleLinkBatch = some (h', out) ∧
      getEntry out ["data", "links", "classAssociations", "0", "level"] = none ∧
      getEntry out (listKey "classAssociations") = some (FormVal.ref r) ∧
      sampleHeap.length ≤ r ∧ h'.get? r = some l ∧
      (sampleStoredLinks "classAssociations").bind (fun r₀ => sampleHeap.get? r₀) = some l₀ ∧
      l.length = l₀.length ∧
      (l.get? 0).map (fun record => readPath record ["level"])
        = some (LinkVal.prim (JSVal.num 5)) ∧
      (∀ n' q,
        (∀ e ∈ sampleLinkBatch, ∀ p, linkEditOf e = some ("classAssociations", n', p) →
          ¬ p <+: q ∧ ¬ q <+: p) →
        (l.get? n').map (fun record => readPath record q)
          = (l₀.get? n').map (fun record => readPath (duplicateLink record) q)) ∧
      (∀ a, a < sampleHeap.length → h'.get? a = sampleHeap.get? a) ∧
      (∀ T' w, (listKey T', w) ∈ sampleLinkBatch → getEntry out (listKey T') = some w)) ∧
    linksPass sampleStoredLinks sampleHeap sampleLinkBatch
      = some (sampleHeap ++
          [[[("id", LinkVal.prim (JSVal.str "a")), ("level", LinkVal.prim (JSVal.num 5)),
             ("img", LinkVal.prim JSVal.null)],
            [("id", LinkVal.prim (JSVal.str "b")), ("level", LinkVal.prim (JSVal.num 3)),
             ("hiddenLinks", LinkVal.obj [("x", LinkVal.prim (JSVal.bool true)),
               ("y", LinkVal.prim (JSVal.bool true))])]]],
        [(["name"], FormVal.prim (JSVal.str "Fighter")),
         (["data", "links", "children"], FormVal.ref 1),
         (["data", "links", "classAssociations"], FormVal.ref 2)]) :=
  ⟨by decide,
   link_edit_folding sampleHeap sampleStoredLinks sampleLinkBatch (by decide)
     "classAssociations" "0" 0 ["level"] (JSVal.num 5) (by decide) (by decide),
   by decide⟩

/-- C24 as stated fails on batches that the pass can receive, for the sample item (array 0
stored as its class associations `a` and `b`). (1) With a list submitted under
`data.links.classAssociations` (array 1, as the delete-link control submits it), the
indexed edit is written into that array: the list in the form data is not a copy of the
stored one, and an array that existed before the pass is modified. (2) With an empty
string submitted there, the entry is not left as submitted: the pass replaces it by a
new array. (3) An index beyond the stored records throws. (4) Of the edits `usage.b` and
`usage` for one record the second replaces what the first wrote, and `usage.b` reads
`undefined`. (5) An edit of `__proto__` stores nothing. (6) A key `data.linksX.<T>...`
passes the `startsWith` filter and edits `data.links.<T>`. (7) A sub-path through a
property that is `null` throws. -/
theorem link_edit_exceptions :
    linksPass sampleStoredLinks sampleHeap
        [(["data", "links", "classAssociations"], FormVal.ref 1),
         (["data", "links", "classAssociations", "0", "level"], FormVal.prim (JSVal.num 1))]
      = some
        ([[[("id", LinkVal.prim (JSVal.str "a")), ("level", LinkVal.prim (JSVal.num 1)),
            ("img", LinkVal.prim JSVal.null)],
           [("id", LinkVal.prim (JSVal.str "b")), ("level", LinkVal.prim (JSVal.num 3)),
            ("hiddenLinks", LinkVal.obj [("x", LinkVal.prim (JSVal.bool true))])]],
          [[("id", LinkVal.prim (JSVal.str "b")), ("level", LinkVal.prim (JSVal.num 1))]]],
         [(["data", "links", "classAssociations"], FormVal.ref 1)]) ∧
    (linksPass sampleStoredLinks sampleHeap
        [(["data", "links", "classAssociations"], FormVal.prim (JSVal.str "")),
         (["data", "links", "classAssociations", "0", "level"],
           FormVal.prim (JSVal.num 5))]).map
        (fun p => getEntry p.2 ["data", "links", "classAssociations"])
      = some (some (FormVal.ref 2)) ∧
    linksPass sampleStoredLinks sampleHeap
        [(["data", "links", "classAssociations", "5", "level"], FormVal.prim (JSVal.num 1))]
      = none ∧
    (linksPass sampleStoredLinks sampleHeap
        [(["data", "links", "classAssociations", "0", "usage", "b"],
           FormVal.prim (JSVal.num 2)),
         (["data", "links", "classAssociations", "0", "usage"],
           FormVal.prim (JSVal.num 1))]).map
        (fun p => (p.1.get? 2).map (fun l =>
          (l.get? 0).map (fun record => readPath record ["usage", "b"])))
      = some (some (some (LinkVal.prim JSVal.undefined))) ∧
    (linksPass sampleStoredLinks sampleHeap
        [(["data", "links", "classAssociations", "0", "__proto__"],
           FormVal.prim (JSVal.num 5))]).map
        (fun p => (p.1.get? 2).map (fun l => l.get? 0))
      = some (some (some
          [("id", LinkVal.prim (JSVal.str "a")), ("level", LinkVal.prim (JSVal.num 1)),
           ("img", LinkVal.prim JSVal.null)])) ∧
    (linksPass sampleStoredLinks sampleHeap
        [(["data", "links", "classAssociations", "1", "level"], FormVal.prim (JSVal.num 4)),
         (["data", "linksX", "classAssociations", "0", "level"],
           FormVal.prim (JSVal.num 9))]).map
        (fun p => (getEntry p.2 ["data", "links", "classAssociations"],
          (p.1.get? 2).map (fun l =>
            (l.get? 0).map (fun record => readPath record ["level"]))))
      = some (some (FormVal.ref 2), some (some (LinkVal.prim (JSVal.num 9)))) ∧
    linksPass sampleStoredLinks sampleHeap
        [(["data", "links", "classAssociations", "0", "img", "x"],
           FormVal.prim (JSVal.num 1))]
      = none := by
  refine ⟨by decide, by decide, by decide, by decide, by decide, by decide, by decide⟩

end ItemSheetPF
